import Mathlib

/-!
Verification of the QFR quantum-circuit intermediate representation.

This file gives a shallow embedding, in Lean 4, of the parts of the QFR
library (src/QuantumComputation.cpp, src/qasm_parser/Parser.cpp) that the
specification talks about, together with theorems settling the
specification's claims against that embedding.

Modelling conventions, used throughout:
* `std::map<unsigned short, unsigned short>` (`qc::permutationMap`) is an
  association list ordered strictly by key — the iteration order of
  `std::map`.  `unsigned short` values are modelled as `Nat` (no arithmetic
  in the modelled code ever wraps around 2^16 on the inputs considered;
  where a subtraction occurs the C++ value is provably nonnegative).
* `std::map<std::string, ...>` is an association list ordered strictly by
  the `<` order on strings.
* Decision-diagram edges are modelled freely: an edge is the list of
  factors that were multiplied into it, `dd->multiply(a, b)` is list
  append, and the DD image of a SWAP operation is a one-element list.
  Reference counting and garbage collection have no observable effect on
  this level and are not modelled.
* Fallible code returns `Except`; a thrown C++ exception is an `.error`.
-/

namespace QFR

/-- `qc::permutationMap = std::map<unsigned short, unsigned short>`:
association list sorted strictly by key (the map's iteration order). -/
abbrev PMap := List (Nat × Nat)

/-- Keys of a permutation map, in iteration order. -/
def pmKeys (m : PMap) : List Nat := m.map (·.1)

/-- Values of a permutation map, in iteration order. -/
def pmVals (m : PMap) : List Nat := m.map (·.2)

/-- `m.find(k)` / `m.at(k)` read access: value of the first entry whose key
is `k` (unique when the map is well formed). -/
def pmLookup (m : PMap) (k : Nat) : Option Nat :=
  (m.find? (fun e => e.1 == k)).map (·.2)

/-- Whether `k` is a key of the map (`m.count(k) > 0`). -/
def pmMem (m : PMap) (k : Nat) : Bool :=
  m.any (fun e => e.1 == k)

/-- `m.at(k) = v` write access on an existing key: rewrite every entry with
key `k` (at most one when well formed). -/
def pmSet (m : PMap) (k v : Nat) : PMap :=
  m.map (fun e => if e.1 = k then (k, v) else e)

/-- Well-formedness invariant of `std::map`, as a boolean: keys strictly
increasing. -/
def pmWFb : PMap → Bool
  | [] => true
  | [_] => true
  | a :: b :: t => decide (a.1 < b.1) && pmWFb (b :: t)

/-- Well-formedness invariant of `std::map`: keys strictly increasing. -/
def pmWF (m : PMap) : Prop := pmWFb m = true

instance (m : PMap) : Decidable (pmWF m) :=
  inferInstanceAs (Decidable (_ = true))

/- ----------------------------------------------------------------------
`QuantumComputation::changePermutation`
(src/QuantumComputation.cpp, lines 1767-1833).

The permutation adapter walks the target map `to`, and for every entry it
disagrees with emits a SWAP which it multiplies into the DD edge.  The edge
is modelled freely as the list of multiplied factors.
---------------------------------------------------------------------- -/

/-- A factor of the freely modelled DD edge: an initial edge marker or the
DD of the SWAP of two physical qubits. -/
inductive CPFactor
  | init
  | swap (i j : Nat)
deriving DecidableEq, Repr

/-- Errors of `changePermutation`: the failed `assert(from.size() >=
to.size())`, the explicit `QFRException` when a key of `to` is missing from
`from`, and `std::out_of_range` from `from.at(j)` on a missing key. -/
inductive CPErr
  | assertSize
  | keyNotFound
  | atOutOfRange
deriving DecidableEq, Repr

/-- State threaded through `changePermutation`: the tracked map `from`, the
edge `on`, and (for bookkeeping in the theorems) the SWAPs emitted so far
in emission order. -/
structure CPState where
  fromMap : PMap
  edge : List CPFactor
  swaps : List (Nat × Nat)
deriving DecidableEq, Repr

/-- The search `for (pair : from) if (pair.second == goal) { j = pair.first;
break; }` with `j` initialised to `0`. -/
def cpFindGoalKey (m : PMap) (goal : Nat) : Nat :=
  match m.find? (fun e => e.2 == goal) with
  | some e => e.1
  | none => 0

/-- `from.at(k) = v` with the `std::out_of_range` behaviour of `at` on a
missing key. -/
def pmSetAt (m : PMap) (k v : Nat) : Except CPErr PMap :=
  if pmMem m k then .ok (pmSet m k v) else .error .atOutOfRange

/-- One iteration of the loop of `changePermutation` for the entry
`kv = (i, goal)` of `to`. -/
def cpStep (regular : Bool) (s : CPState) (kv : Nat × Nat) : Except CPErr CPState :=
  match pmLookup s.fromMap kv.1 with
  | none => .error .keyNotFound
  | some current =>
    if current = kv.2 then
      .ok s
    else
      let j := cpFindGoalKey s.fromMap kv.2
      match pmSetAt s.fromMap kv.1 kv.2 with
      | .error e => .error e
      | .ok m1 =>
        match pmSetAt m1 j current with
        | .error e => .error e
        | .ok m2 =>
          .ok { fromMap := m2
                edge := if regular then .swap kv.1 j :: s.edge else s.edge ++ [.swap kv.1 j]
                swaps := s.swaps ++ [(kv.1, j)] }

/-- `QuantumComputation::changePermutation(on, from, to, line, dd, regular)`.
Returns the final `from`, the final edge, and the emitted SWAPs. -/
def changePermutation (fromMap : PMap) (toMap : PMap) (edge : List CPFactor)
    (regular : Bool) : Except CPErr CPState :=
  if fromMap.length < toMap.length then .error .assertSize
  else toMap.foldlM (cpStep regular) { fromMap := fromMap, edge := edge, swaps := [] }

/- ----------------------------------------------------------------------
`QuantumComputation::readRealGateDescriptions`, the `RZ`/`U1` branch
(src/QuantumComputation.cpp, lines 200-219).

IEEE doubles are modelled as exact rationals.  `nearbyint` rounds to the
nearest integer with ties to even (the C++ default rounding mode).  Every
angle parameter emitted by this branch has the form `π / d` for some
divisor `d` (`qc::PI / lambda` or `qc::PI / x`); the emitted operation is
therefore represented by its op-kind together with that divisor.
---------------------------------------------------------------------- -/

/-- `qc::OpType`. -/
inductive OpType
  | None | I | H | X | Y | Z | S | Sdag | T | Tdag | V | Vdag
  | U3 | U2 | U1 | RX | RY | RZ | SWAP | iSWAP | P | Pdag
  | Compound | Measure | Reset | Snapshot | ShowProbabilities | Barrier
  | ClassicControlled
deriving DecidableEq, Repr

/-- IEEE-754 double values arising in the modelled code, represented as
exact symbolic reals: rational literals, `qc::PI`, and the arithmetic the
expression parser folds over them.  (Floating-point rounding is not
modelled; none of the claims depend on it.) -/
inductive SymNum
  | lit (q : ℚ)
  | pi
  | neg (a : SymNum)
  | add (a b : SymNum)
  | sub (a b : SymNum)
  | mul (a b : SymNum)
  | div (a b : SymNum)
  | pow (a b : SymNum)
  | sin (a : SymNum)
  | cos (a : SymNum)
  | tan (a : SymNum)
  | exp (a : SymNum)
  | ln (a : SymNum)
  | sqrt (a : SymNum)
deriving DecidableEq, Repr

/-- `qc::PI_2` = π / 2. -/
def SymNum.piHalf : SymNum := .div .pi (.lit 2)

/-- `nearbyint` in the default `FE_TONEAREST` rounding mode: nearest
integer, ties to even. -/
def nearbyint (q : ℚ) : ℤ :=
  let f := ⌊q⌋
  let d := q - f
  if d < 1/2 then f
  else if 1/2 < d then f + 1
  else if f % 2 = 0 then f else f + 1

/-- An operation emitted by the `RZ`/`U1` branch of the REAL-format gate
reader: either a parameterless collapsed gate, or the original kind
(`RZ` or `U1`) with angle `π / d` recorded by its divisor `d`. -/
inductive RealEmitted
  | plain (g : OpType)
  | withDivisor (g : OpType) (d : ℚ)
deriving DecidableEq, Repr

/-- The `RZ`/`U1` case of the `switch` in
`QuantumComputation::readRealGateDescriptions`, for a gate line with
divisor `lambda`; `tol` is `dd::ComplexNumbers::TOLERANCE`. -/
def readRealRZU1 (gate : OpType) (lambda tol : ℚ) : RealEmitted :=
  let x : ℚ := (nearbyint lambda : ℤ)
  if |lambda - x| < tol then
    if x = 1 ∨ x = -1 then .plain .Z
    else if x = 2 then .plain .S
    else if x = -2 then .plain .Sdag
    else if x = 4 then .plain .T
    else if x = -4 then .plain .Tdag
    else .withDivisor gate x
  else .withDivisor gate lambda

/- ----------------------------------------------------------------------
The circuit model of `qc::QuantumComputation`: registers, layout maps,
ancillary/garbage bitsets and the operation list
(src/QuantumComputation.cpp).
---------------------------------------------------------------------- -/

/-- `std::string` comparison by character value (`operator<` compares
bytes; all names in play are ASCII, where byte order and code-point order
agree). -/
def strLtb (a b : String) : Bool := go a.data b.data
where
  go : List Char → List Char → Bool
    | [], [] => false
    | [], _ :: _ => true
    | _ :: _, [] => false
    | a :: as, b :: bs =>
      if a.toNat < b.toNat then true
      else if b.toNat < a.toNat then false
      else go as bs

/-- `s.substr(0, s.size() - n)`. -/
def strDropRight (s : String) (n : Nat) : String :=
  String.mk (s.data.take (s.data.length - n))

/-- `s.compare(s.size() - suffix.size(), suffix.size(), suffix) == 0`. -/
def strEndsWith (s suffix : String) : Bool :=
  s.data.drop (s.data.length - suffix.data.length) == suffix.data


/-- `qc::registerMap = std::map<std::string, std::pair<unsigned short,
unsigned short>>`: an association list ordered strictly by name (the map's
iteration order); the pair is (start index, length). -/
abbrev RMap := List (String × (Nat × Nat))

def rmLookup (m : RMap) (k : String) : Option (Nat × Nat) :=
  (m.find? (fun e => e.1 == k)).map (·.2)

def rmMem (m : RMap) (k : String) : Bool :=
  m.any (fun e => e.1 == k)

/-- `m[k] = v` on an existing key. -/
def rmSet (m : RMap) (k : String) (v : Nat × Nat) : RMap :=
  m.map (fun e => if e.1 = k then (k, v) else e)

/-- `m.erase(k)`. -/
def rmErase (m : RMap) (k : String) : RMap :=
  m.filter (fun e => !(e.1 == k))

/-- `m.insert({k, v})`: ordered insertion that does not overwrite an
existing key — the `std::map::insert` semantics. -/
def rmInsert : RMap → String → (Nat × Nat) → RMap
  | [], k, v => [(k, v)]
  | e :: t, k, v =>
    if strLtb k e.1 then (k, v) :: e :: t
    else if k = e.1 then e :: t
    else e :: rmInsert t k v

/-- `m.insert({k, v})` on a `permutationMap`: ordered insertion that does
not overwrite an existing key. -/
def pmInsert : PMap → Nat → Nat → PMap
  | [], k, v => [(k, v)]
  | e :: t, k, v =>
    if k < e.1 then (k, v) :: e :: t
    else if k = e.1 then e :: t
    else e :: pmInsert t k v

/-- `m.erase(k)` on a `permutationMap`. -/
def pmErase (m : PMap) (k : Nat) : PMap :=
  m.filter (fun e => !(e.1 == k))

/-- Modelled from the spec: `qc::MAX_QUBITS`, the compile-time maximum
number of qubits (§3, "Qubit index: non-negative integer bounded by a
compile-time maximum MAX_QUBITS").  Its numeric value is defined in a
header outside the given sources; 128 is used here. -/
def MAX_QUBITS : Nat := 128

/-- Modelled from the spec: `dd::MAXN`, the DD package's qubit capacity
used by the register-adding guards.  Taken equal to `MAX_QUBITS`. -/
def MAXN : Nat := 128

/-- Modelled from the spec: the default register names `qc::DEFAULT_QREG`
and `qc::DEFAULT_ANCREG` (defined in a header outside the given
sources). -/
def DEFAULT_QREG : String := "q"

def DEFAULT_ANCREG : String := "anc"

/-- `qc::Control`: qubit line plus polarity (`pos`/`neg`). -/
structure Control where
  qubit : Nat
  neg : Bool := false
deriving DecidableEq, Repr

/-- The slice of a `qc::Operation` that the circuit-model claims observe:
the broadcast qubit count, control and target lines, the op kind and the
parameter vector (doubles modelled as exact rationals). -/
structure Op where
  nqubits : Nat
  controls : List Control
  targets : List Nat
  optype : OpType
  params : List SymNum
deriving DecidableEq, Repr

/-- `op->setNqubits(nq)`. -/
def Op.setNqubits (op : Op) (n : Nat) : Op := { op with nqubits := n }

/-- Modelled from the spec: `Operation::actsOn(i)` — whether line `i` is
among the operation's targets or controls (§4.D.7: `isIdleQubit(p)` is
"true iff no operation reports membership of `p` in its target∪control
set").  The implementation lives in a header outside the given sources. -/
def Op.actsOn (op : Op) (q : Nat) : Bool :=
  op.targets.contains q || op.controls.any (fun c => c.qubit == q)

/-- A `std::bitset<MAX_QUBITS>` as a list of `MAX_QUBITS` booleans. -/
abbrev Bits := List Bool

def bitGet (b : Bits) (i : Nat) : Bool := b.getD i false

def bitSet (b : Bits) (i : Nat) (v : Bool) : Bits := b.set i v

def bitReset (b : Bits) (i : Nat) : Bits := bitSet b i false

def bitsZero : Bits := List.replicate MAX_QUBITS false

/-- The ascending copy loop `for (i = l; i < total; ++i) b[i] = b[i+1];`
of `removeQubit`. -/
def shiftDown (b : Bits) (l total : Nat) : Bits :=
  (List.range (total - l)).foldl
    (fun acc k => bitSet acc (l + k) (bitGet acc (l + k + 1))) b

/-- The descending copy loop
`for (i = total - 1; i > l; --i) b[i] = b[i-1];` of `addQubit`. -/
def shiftUp (b : Bits) (l total : Nat) : Bits :=
  (List.range (total - 1 - l)).foldl
    (fun acc k => bitSet acc (total - 1 - k) (bitGet acc (total - 1 - k - 1))) b

/-- The state of a `qc::QuantumComputation`. -/
structure Circuit where
  nqubits : Nat := 0
  nancillae : Nat := 0
  nclassics : Nat := 0
  qregs : RMap := []
  cregs : RMap := []
  ancregs : RMap := []
  initialLayout : PMap := []
  outputPermutation : PMap := []
  ancillary : Bits := bitsZero
  garbage : Bits := bitsZero
  ops : List Op := []
  max_controls : Nat := 0
deriving DecidableEq, Repr

/-- Modelled from the spec: `QuantumComputation::reset()` — the
pre-import reset state, an empty circuit (§7: "fatal errors abort the
current import, leaving the circuit in its pre-import reset state";
the member function is declared in a header outside the given sources). -/
def resetCircuit : Circuit := {}

/-- Errors thrown (or aborts raised) by the circuit-model operations. -/
inductive QCErr
  | registerNotFound
  | capacityExceeded
  | augmentNotLast
  | ancillaePresent
  | alreadyAssigned
  | logicalOutOfRange
  | outOfFuel
  | realInvalidHeader
  | realUnknownCommand
  | realInvalidVariables
  | realInvalidConstant
  | realConstantsReadFail
deriving DecidableEq, Repr

/-- Whether the half-open block of a register entry contains index `p`. -/
def rangeContains (r : String × (Nat × Nat)) (p : Nat) : Bool :=
  decide (r.2.1 ≤ p) && decide (p < r.2.1 + r.2.2)

/-- `QuantumComputation::getQubitRegister`: linear scan of `qregs`, then
`ancregs`, for the first register whose range contains the index. -/
def getQubitRegister (c : Circuit) (p : Nat) : Except QCErr String :=
  match c.qregs.find? (rangeContains · p) with
  | some r => .ok r.1
  | none =>
    match c.ancregs.find? (rangeContains · p) with
    | some r => .ok r.1
    | none => .error .registerNotFound

/-- `QuantumComputation::getQubitRegisterAndIndex`. -/
def getQubitRegisterAndIndex (c : Circuit) (p : Nat) :
    Except QCErr (String × Nat) :=
  match getQubitRegister c p with
  | .error e => .error e
  | .ok name =>
    match rmLookup c.qregs name with
    | some r => .ok (name, p - r.1)
    | none =>
      match rmLookup c.ancregs name with
      | some r => .ok (name, p - r.1)
      | none => .ok (name, 0)

/-- `QuantumComputation::physicalQubitIsAncillary`. -/
def physicalQubitIsAncillary (c : Circuit) (p : Nat) : Bool :=
  c.ancregs.any (rangeContains · p)

/-- The register-map surgery of `removeQubit` (the same case analysis is
written out twice in the source, once for `ancregs` and once for
`qregs`): erase a length-1 register, advance its base on its first index,
shrink it on its last index, or split it into `name_l`/`name_h` on an
interior index. -/
def removeFromRegs (regs : RMap) (name : String) (idx : Nat)
    (start cnt : Nat) : RMap :=
  if idx = 0 then
    if cnt = 1 then rmErase regs name
    else rmSet regs name (start + 1, cnt - 1)
  else if idx = cnt - 1 then rmSet regs name (start, cnt - 1)
  else
    rmInsert (rmInsert (rmErase regs name) (name ++ "_l") (start, idx))
      (name ++ "_h") (start + idx + 1, cnt - idx - 1)

/-- The search loop at the top of `removeQubit`: the last physical index
in iteration order whose layout entry holds `logical` (`0` when no entry
matches). -/
def findPhysical (layout : PMap) (logical : Nat) : Nat :=
  layout.foldl (fun acc e => if e.2 = logical then e.1 else acc) 0

/-- `QuantumComputation::removeQubit` (src/QuantumComputation.cpp, lines
754-903).  Returns the physical index the logical qubit was assigned to
and the output index it was mapped to (`none` models the `-1` marker). -/
def removeQubit (c : Circuit) (logical : Nat) :
    Except QCErr (Circuit × (Nat × Option Nat)) := do
  let p := findPhysical c.initialLayout logical
  let (name, idx) ← getQubitRegisterAndIndex c p
  let c1 ←
    if physicalQubitIsAncillary c p then
      match rmLookup c.ancregs name with
      | none => .ok c  -- unreachable: `name` was found in this map
      | some (start, cnt) =>
        .ok { c with ancregs := removeFromRegs c.ancregs name idx start cnt
                     nancillae := c.nancillae - 1 }
    else
      match rmLookup c.qregs name with
      | none => .ok c  -- unreachable: `name` was found in this map
      | some (start, cnt) =>
        .ok { c with qregs := removeFromRegs c.qregs name idx start cnt
                     nqubits := c.nqubits - 1 }
  let initialLayout := pmErase c1.initialLayout p
  let (outIdx, outputPermutation) :=
    match pmLookup c1.outputPermutation p with
    | some o => (some o, pmErase c1.outputPermutation p)
    | none => (none, c1.outputPermutation)
  let total := c1.nqubits + c1.nancillae
  let ops := c1.ops.map (fun op => op.setNqubits total)
  let (ancillary, garbage) :=
    if total < MAX_QUBITS then
      (bitReset (shiftDown c1.ancillary logical total) total,
       bitReset (shiftDown c1.garbage logical total) total)
    else (c1.ancillary, c1.garbage)
  .ok ({ c1 with initialLayout := initialLayout
                 outputPermutation := outputPermutation
                 ops := ops
                 ancillary := ancillary
                 garbage := garbage }, (p, outIdx))

/-- One pass of `QuantumComputation::consolidateRegister`: examine the
first register (in name order) whose name ends in `_l`; fuse it with its
`_h` partner when the two blocks are contiguous.  Returns `none` when the
pass changed nothing (`finished` stayed `true`). -/
def consolidatePass (regs : RMap) : Option RMap :=
  match regs.find? (fun r => decide (r.1.data.length > 2) && strEndsWith r.1 "_l") with
  | none => none
  | some r =>
    let highname := strDropRight r.1 1 ++ "h"
    match rmLookup regs highname with
    | none => none
    | some (highidx, highnum) =>
      if r.2.1 + r.2.2 = highidx then
        let targetname := strDropRight r.1 2
        some (rmErase (rmErase (rmInsert regs targetname (r.2.1, r.2.2 + highnum))
          r.1) highname)
      else none

/-- `QuantumComputation::consolidateRegister` (src/QuantumComputation.cpp,
lines 1462-1493): repeat `consolidatePass` until nothing changes.  On an
empty map the C++ `while (!finished)` loop never terminates (the `for`
body that sets `finished = true` never runs); this is modelled as
`.error .outOfFuel`.  Each fusion removes at least one register, so
`|regs| + 1` passes suffice for the terminating cases. -/
def consolidateRegister (regs : RMap) : Except QCErr RMap :=
  if regs.isEmpty then .error .outOfFuel
  else go (regs.length + 1) regs
where
  go : Nat → RMap → Except QCErr RMap
    | 0, _ => .error .outOfFuel
    | fuel + 1, regs =>
      match consolidatePass regs with
      | none => .ok regs
      | some regs2 => go fuel regs2

/-- The register-fusion loop of `addQubit`: scan `qregs` in name order and
extend the first register whose block is adjacent to `p` (in front of its
base or after its end).  The second fusion case additionally shifts every
ancillary-register base up by one when `p = nqubits`.  Returns the new
map, whether fusion occurred, and whether the ancillary shift fired. -/
def addQubitFuseLoop (regs : RMap) (p nq : Nat) : RMap × Bool × Bool :=
  match regs with
  | [] => ([], false, false)
  | (n, (st, cnt)) :: t =>
    if st = p + 1 then ((n, (st - 1, cnt + 1)) :: t, true, false)
    else if st + cnt = p then ((n, (st, cnt + 1)) :: t, true, p = nq)
    else
      let (t2, fused, sh) := addQubitFuseLoop t p nq
      ((n, (st, cnt)) :: t2, fused, sh)

/-- `QuantumComputation::addQubit` (src/QuantumComputation.cpp, lines
977-1046).  `o = none` models the `-1` output-index marker; the two
`exit(1)` aborts are modelled as errors. -/
def addQubit (c : Circuit) (logical p : Nat) (o : Option Nat) :
    Except QCErr Circuit := do
  if pmMem c.initialLayout p || pmMem c.outputPermutation p then
    .error .alreadyAssigned
  else if c.nqubits < logical then
    .error .logicalOutOfRange
  else
    let (qregs1, fusionPossible, shiftAnc) := addQubitFuseLoop c.qregs p c.nqubits
    let ancregs := if shiftAnc
      then c.ancregs.map (fun r => (r.1, (r.2.1 + 1, r.2.2))) else c.ancregs
    let qregs2 ← consolidateRegister qregs1
    let qregs3 :=
      if qregs2.isEmpty then [(DEFAULT_QREG, (p, 1))]
      else if !fusionPossible then
        rmInsert qregs2 (DEFAULT_QREG ++ "_" ++ toString p) (p, 1)
      else qregs2
    let nqubits := c.nqubits + 1
    let initialLayout := pmInsert c.initialLayout p logical
    let outputPermutation :=
      match o with
      | some oi => pmInsert c.outputPermutation p oi
      | none => c.outputPermutation
    let total := nqubits + c.nancillae
    let ops := c.ops.map (fun op => op.setNqubits total)
    let ancillary := bitReset (shiftUp c.ancillary logical total) logical
    let garbage := bitReset (shiftUp c.garbage logical total) logical
    .ok { c with qregs := qregs3
                 ancregs := ancregs
                 nqubits := nqubits
                 initialLayout := initialLayout
                 outputPermutation := outputPermutation
                 ops := ops
                 ancillary := ancillary
                 garbage := garbage }

/-- `QuantumComputation::addQubitRegister` (src/QuantumComputation.cpp,
lines 682-709).  The `assert(nancillae == 0)` is modelled as an
`ancillaePresent` failure (it aborts the program in a checked build); note
that it is only reached after the register-map checks. -/
def addQubitRegister (c : Circuit) (nq : Nat) (name : String) :
    Except QCErr Circuit := do
  if MAXN < c.nqubits + c.nancillae + nq then
    .error .capacityExceeded
  else
    let qregs ←
      match rmLookup c.qregs name with
      | some (st, cnt) =>
        if st + cnt = c.nqubits + c.nancillae then
          Except.ok (rmSet c.qregs name (st, cnt + nq))
        else .error .augmentNotLast
      | none => Except.ok (rmInsert c.qregs name (c.nqubits, nq))
    if c.nancillae ≠ 0 then
      .error .ancillaePresent
    else
      let (initialLayout, outputPermutation) :=
        (List.range nq).foldl
          (fun (maps : PMap × PMap) i =>
            (pmInsert maps.1 (c.nqubits + i) (c.nqubits + i),
             pmInsert maps.2 (c.nqubits + i) (c.nqubits + i)))
          (c.initialLayout, c.outputPermutation)
      let nqubits := c.nqubits + nq
      let ops := c.ops.map (fun op => op.setNqubits (nqubits + c.nancillae))
      .ok { c with qregs := qregs
                   nqubits := nqubits
                   initialLayout := initialLayout
                   outputPermutation := outputPermutation
                   ops := ops }

/-- `QuantumComputation::isIdleQubit` (src/QuantumComputation.cpp, lines
1706-1712). -/
def isIdleQubit (c : Circuit) (p : Nat) : Bool :=
  c.ops.all (fun op => !(op.actsOn p))

/-- The body of one iteration of the `stripIdleQubits` loop at physical
qubit `p`.  `outputPermutation` values are `unsigned short`, so the
source's `output_index >= 0` test is always true and skipping reduces to
`!force` once the entry exists. -/
def stripStep (force : Bool) (c : Circuit) (p : Nat) : Except QCErr Circuit :=
  if isIdleQubit c p then
    let skip :=
      match pmLookup c.outputPermutation p with
      | some _ => !force
      | none => false
    if skip then .ok c
    else
      match pmLookup c.initialLayout p with
      | none => .error .registerNotFound  -- `initialLayout.at(p)` on a missing key
      | some logical =>
        match removeQubit c logical with
        | .error e => .error e
        | .ok (c1, _) =>
          if logical < c1.nqubits + c1.nancillae then
            .ok { c1 with
              initialLayout := c1.initialLayout.map
                (fun q => if logical < q.2 then (q.1, q.2 - 1) else q)
              outputPermutation := c1.outputPermutation.map
                (fun q => if logical < q.2 then (q.1, q.2 - 1) else q) }
          else .ok c1
  else .ok c

/-- `QuantumComputation::stripIdleQubits` (src/QuantumComputation.cpp,
lines 1714-1765): visit the physical qubits of a copy of `initialLayout`
in descending order, strip each idle one, and finally re-broadcast the
qubit count to all operations. -/
def stripIdleQubits (c : Circuit) (force : Bool) : Except QCErr Circuit := do
  let c1 ← (c.initialLayout.reverse.map (·.1)).foldlM (stripStep force) c
  .ok { c1 with ops := c1.ops.map (fun op => op.setNqubits (c1.nqubits + c1.nancillae)) }


/-- The part of the `std::map` invariant on register maps that the
theorems use: register names are pairwise distinct. -/
def rmNodupb : RMap → Bool
  | [] => true
  | e :: t => t.all (fun e2 => !(e2.1 == e.1)) && rmNodupb t

/-- The circuit state after importing
`OPENQASM 2.0; qreg q[3]; h q[0]; h q[2];`: identity initial layout, the
OpenQASM import fallback's output permutation (the idle qubit `1` is
omitted), and one `H` operation on each of the physical qubits 0 and 2. -/
def stripExampleCircuit : Circuit :=
  { nqubits := 3
    qregs := [("q", (0, 3))]
    initialLayout := [(0, 0), (1, 1), (2, 2)]
    outputPermutation := [(0, 0), (2, 2)]
    ops := [{ nqubits := 3, controls := [], targets := [0], optype := .H, params := [] },
            { nqubits := 3, controls := [], targets := [2], optype := .H, params := [] }] }

/-- A well-formed two-qubit circuit whose top qubit is an ancilla:
`q = {0}`, `anc = {1}`. -/
def ancillaeExampleCircuit : Circuit :=
  { nqubits := 1
    nancillae := 1
    qregs := [("q", (0, 1))]
    ancregs := [("anc", (1, 1))]
    initialLayout := [(0, 0), (1, 1)]
    outputPermutation := [(0, 0), (1, 1)]
    ancillary := bitSet bitsZero 1 true }

/- ----------------------------------------------------------------------
`QuantumComputation::importGRCS` (src/QuantumComputation.cpp, lines
357-393) and the OpenQASM layout fallback of `import` (lines 659-669).
---------------------------------------------------------------------- -/

/-- One nonempty GRCS line `cycle name args` after lexing.  (The
`std::stringstream` extraction of each line is abstracted into this
structured form; blank lines are skipped by the reader and malformed lines
exercise C++ stream-failure semantics outside the claims' scope.) -/
inductive GRCSLine
  | cz (cycle control target : Nat)
  | unary (cycle : Nat) (name : String) (target : Nat)
deriving DecidableEq, Repr

/-- The body of the gate loop of `importGRCS` for one line. -/
def grcsStep (n : Nat) (c : Circuit) (line : GRCSLine) : Except QCErr Circuit :=
  match line with
  | .cz _ control target =>
    .ok { c with ops := c.ops ++
      [{ nqubits := n, controls := [{ qubit := control }], targets := [target]
         optype := .Z, params := [] }] }
  | .unary _ name target =>
    if name = "h" then
      .ok { c with ops := c.ops ++
        [{ nqubits := n, controls := [], targets := [target]
           optype := .H, params := [] }] }
    else if name = "t" then
      .ok { c with ops := c.ops ++
        [{ nqubits := n, controls := [], targets := [target]
           optype := .T, params := [] }] }
    else if name = "x_1_2" then
      .ok { c with ops := c.ops ++
        [{ nqubits := n, controls := [], targets := [target]
           optype := .RX, params := [SymNum.piHalf] }] }
    else if name = "y_1_2" then
      .ok { c with ops := c.ops ++
        [{ nqubits := n, controls := [], targets := [target]
           optype := .RY, params := [SymNum.piHalf] }] }
    else .error .realUnknownCommand

/-- `QuantumComputation::importGRCS`: read the qubit count, read the gate
lines, then install identity layouts on all `n` physical indices —
including idle ones. -/
def importGRCS (n : Nat) (lines : List GRCSLine) : Except QCErr Circuit := do
  let c1 ← lines.foldlM (grcsStep n) { resetCircuit with nqubits := n }
  .ok { c1 with
    initialLayout := (List.range n).foldl (fun m i => pmInsert m i i) c1.initialLayout
    outputPermutation := (List.range n).foldl (fun m i => pmInsert m i i) c1.outputPermutation }

/-- One iteration of the OpenQASM layout fallback at physical index `i`:
an identity entry in `initialLayout` always, an identity entry in
`outputPermutation` only when some operation acts on `i`. -/
def fallbackStep (acc : Circuit) (i : Nat) : Circuit :=
  { acc with
    initialLayout := pmInsert acc.initialLayout i i
    outputPermutation :=
      if isIdleQubit acc i then acc.outputPermutation
      else pmInsert acc.outputPermutation i i }

/-- The layout fallback of `import` for OpenQASM sources without `// i` /
`// o` comments: identity initial layout on every physical index, output
permutation only on the indices some operation acts on. -/
def openQASMLayoutFallback (c : Circuit) : Circuit :=
  (List.range c.nqubits).foldl fallbackStep c

/-- The identity permutation map on `{0, …, n-1}`, for stating what the
layout-installation loops produce. -/
def idPMap (n : Nat) : PMap := (List.range n).map (fun i => (i, i))

/-- A two-qubit circuit with a single `H` on physical qubit 0 and empty
layout maps — the state in which the OpenQASM fallback runs. -/
def fallbackExampleCircuit : Circuit :=
  { nqubits := 2
    ops := [{ nqubits := 2, controls := [], targets := [0], optype := .H, params := [] }] }


/- ----- C6: `QuantumComputation::import` / `readRealHeader` (.real format). ----- -/

/-- Whitespace for `operator>>` word extraction and `std::ws`. -/
def isWS (ch : Char) : Bool :=
  ch == ' ' || ch == '\n' || ch == '\t' || ch == '\r'

/-- `::toupper` on an ASCII character. -/
def upChar (ch : Char) : Char :=
  if 97 ≤ ch.toNat && ch.toNat ≤ 122 then Char.ofNat (ch.toNat - 32) else ch

/-- `std::transform(cmd.begin(), cmd.end(), cmd.begin(), ::toupper)`. -/
def strUp (s : String) : String := ⟨s.data.map upChar⟩

/-- `is >> word`: skip whitespace, then extract the maximal run of
non-whitespace characters; fails (stream exhausted) when nothing
remains. -/
def readWord (s : List Char) : Option (String × List Char) :=
  match s.dropWhile isWS with
  | [] => none
  | ch :: t =>
    some (⟨ch :: t.takeWhile (fun d => !(isWS d))⟩, t.dropWhile (fun d => !(isWS d)))

/-- `is.ignore(max, newline)`: discard characters up to and including the
next newline. -/
def ignoreLine (s : List Char) : List Char :=
  match s.dropWhile (fun ch => !(ch == '\n')) with
  | [] => []
  | _ :: t => t

/-- `is >> nqubits` for an `unsigned short`: skip whitespace, read a
digit run, fail when the first character is not a digit or the value
does not fit in 16 bits (the C++ extraction then sets `failbit`). -/
def readNatTok (s : List Char) : Option (Nat × List Char) :=
  match s.dropWhile isWS with
  | [] => none
  | ch :: t =>
    if ch.isDigit then
      let ds := ch :: t.takeWhile Char.isDigit
      let n := ds.foldl (fun a d => 10 * a + (d.toNat - 48)) 0
      if n < 65536 then some (n, t.dropWhile Char.isDigit) else none
    else none

/-- The `.variables` loop of `readRealHeader`: for `i` in `[0, nqubits)`
read a variable name (failing, with the insertions made so far kept in
the circuit, when the stream is exhausted or the name starts with `.`)
and insert `{variable, {i,1}}` into `qregs`, `{"c_"+variable, {i,1}}`
into `cregs`, and `{i,i}` into both layout maps. -/
def readVarsLoop : Circuit → List Char → Nat → Nat → Except (QCErr × Circuit) (Circuit × List Char)
  | c, s, _, 0 => .ok (c, s)
  | c, s, i, k + 1 =>
    match readWord s with
    | none => .error (.realInvalidVariables, c)
    | some (v, s') =>
      if v.data.head? = some '.' then .error (.realInvalidVariables, c)
      else
        readVarsLoop
          { c with
            qregs := rmInsert c.qregs v (i, 1),
            cregs := rmInsert c.cregs ("c_" ++ v) (i, 1),
            initialLayout := pmInsert c.initialLayout i i,
            outputPermutation := pmInsert c.outputPermutation i i }
          s' (i + 1) k

/-- The `.constants` loop of `readRealHeader`: for `i` in `[0, nqubits)`
read one raw character (`is.get()`); on `'1'` append an `X` on line `i`,
on `'0'` or `'-'` do nothing, otherwise fail; a read past the end of the
stream fails with the C++ "Failed read" error. -/
def readConstLoop : Circuit → List Char → Nat → Nat → Except (QCErr × Circuit) (Circuit × List Char)
  | c, s, _, 0 => .ok (c, s)
  | c, s, i, k + 1 =>
    match s with
    | [] => .error (.realConstantsReadFail, c)
    | ch :: s' =>
      if ch == '1' then
        readConstLoop
          { c with ops := c.ops ++ [{ nqubits := c.nqubits, controls := [],
                                      targets := [i], optype := .X, params := [] }] }
          s' (i + 1) k
      else if ch == '-' || ch == '0' then readConstLoop c s' (i + 1) k
      else .error (.realInvalidConstant, c)

/-- The `.define` skip loop: ignore lines and read (upcased) words until
`.ENDDEFINE`; a stream that ends first makes the C++ loop spin forever
(`is >> cmd` keeps failing), modelled as `none` = divergence. -/
def skipDefine : List Char → Nat → Option (List Char)
  | _, 0 => none
  | s, k + 1 =>
    match readWord (ignoreLine s) with
    | none => none
    | some (w, s') => if strUp w == ".ENDDEFINE" then some s' else skipDefine s' k

/-- `QuantumComputation::readRealHeader`, threading the mutated circuit
(`this`) explicitly: loop reading a word, upcase it, bump `line`; skip
`#` comments; reject words not starting with `.`; return at `.begin`;
handle `.numvars` (a failed extraction sets `nqubits = 0`, and the
`failbit` it leaves makes the very next `is >> cmd` fail, so the
"Invalid file header" throw follows immediately), `.variables`,
`.constants` (followed by an ignore-to-newline), the six ignored
commands, `.define`, and throw "Unknown command" otherwise.  A thrown
exception leaves the circuit as mutated so far (the error carries it).
Recursion is fuelled; running out of fuel models divergence. -/
def readRealHeader : Circuit → List Char → Nat → Nat → Except (QCErr × Circuit) (Circuit × List Char × Nat)
  | c, _, _, 0 => .error (.outOfFuel, c)
  | c, s, line, k + 1 =>
    match readWord s with
    | none => .error (.realInvalidHeader, c)
    | some (w, s1) =>
      let cmd := strUp w
      let line' := line + 1
      if cmd.data.head? = some '#' then
        readRealHeader c (ignoreLine s1) line' k
      else if !(cmd.data.head? = some '.') then .error (.realInvalidHeader, c)
      else if cmd == ".BEGIN" then .ok (c, s1, line')
      else if cmd == ".NUMVARS" then
        match readNatTok s1 with
        | none => .error (.realInvalidHeader, { c with nqubits := 0, nclassics := 0 })
        | some (n, s2) =>
          readRealHeader { c with nqubits := n, nclassics := n } s2 line' k
      else if cmd == ".VARIABLES" then
        match readVarsLoop c s1 0 c.nqubits with
        | .error e => .error e
        | .ok (c', s2) => readRealHeader c' s2 line' k
      else if cmd == ".CONSTANTS" then
        match readConstLoop c (s1.dropWhile isWS) 0 c.nqubits with
        | .error e => .error e
        | .ok (c', s2) => readRealHeader c' (ignoreLine s2) line' k
      else if cmd == ".INPUTS" || cmd == ".OUTPUTS" || cmd == ".GARBAGE" ||
              cmd == ".VERSION" || cmd == ".INPUTBUS" || cmd == ".OUTPUTBUS" then
        readRealHeader c (ignoreLine s1) line' k
      else if cmd == ".DEFINE" then
        match skipDefine s1 k with
        | none => .error (.outOfFuel, c)
        | some s2 => readRealHeader c s2 line' k
      else .error (.realUnknownCommand, c)

/-- `QuantumComputation::import` entered with the `Real` format, up to
the end of the header phase: `reset()` replaces the circuit with the
empty one before `importReal` runs, so the incoming circuit `c` is
discarded; the header is then read starting from the reset state (the
gate-description phase lies beyond every failure exercised here). -/
def importRealHeader (_c : Circuit) (s : List Char) (fuel : Nat) :
    Except (QCErr × Circuit) (Circuit × List Char × Nat) :=
  readRealHeader resetCircuit s 0 fuel

/-- The failing `.real` input used against C6: a valid `.numvars` and
`.variables` prelude followed by an unknown `.foo` command. -/
def realBadInput : List Char := ".numvars 2\n.variables a b\n.foo x\n".data


/-- The circuit state `readRealHeader` has built from `realBadInput` at
the moment the unknown `.foo` command is rejected. -/
def realBadState : Circuit :=
  { nqubits := 2, nclassics := 2,
    qregs := [("a", (0, 1)), ("b", (1, 1))],
    cregs := [("c_a", (0, 1)), ("c_b", (1, 1))],
    initialLayout := [(0, 0), (1, 1)],
    outputPermutation := [(0, 0), (1, 1)] }


/-- The circuit of the C4 counterexample: two adjacent single-line
registers `a_l` and `a_h` (as `removeQubit` itself leaves behind after
splitting a register `a`). -/
def c4BadCircuit : Circuit :=
  { nqubits := 2,
    qregs := [("a_h", (1, 1)), ("a_l", (0, 1))],
    initialLayout := [(0, 0), (1, 1)],
    outputPermutation := [(0, 0), (1, 1)] }

/-- `c4BadCircuit` after `addQubit(2, 2, -1)`: the new line fused into
`a_h` and consolidation then merged `a_l`/`a_h` back into `a`. -/
def c4MidCircuit : Circuit :=
  { nqubits := 3,
    qregs := [("a", (0, 3))],
    initialLayout := [(0, 0), (1, 1), (2, 2)],
    outputPermutation := [(0, 0), (1, 1)] }

/-- `c4MidCircuit` after `removeQubit(2)`: the register map stays merged
as `a`, so the original split shape is not restored. -/
def c4EndCircuit : Circuit :=
  { nqubits := 2,
    qregs := [("a", (0, 2))],
    initialLayout := [(0, 0), (1, 1)],
    outputPermutation := [(0, 0), (1, 1)] }

/-- A one-qubit circuit with a single register, used to instantiate the
C4 round-trip theorem. -/
def c4WitnessCircuit : Circuit :=
  { nqubits := 1,
    qregs := [("q", (0, 1))],
    initialLayout := [(0, 0)],
    outputPermutation := [(0, 0)] }


/- ----------------------------------------------------------------------
The OpenQASM frontend (src/qasm_parser/Parser.cpp, src/QASMParser/
Token.h).  The scanner is modelled by working directly on token lists;
`scan`/`check` become list pattern matching, the parser's `t.str`/`t.val`
accesses become the token payloads.  Fuel parameters bound the source's
`while` loops; exhausting fuel models divergence.
---------------------------------------------------------------------- -/

/-- The slice of `Token::Kind` exercised by `Parser::Gate` and
`Parser::GateDecl`, with the payloads (`t.str`, `t.val`, `t.valReal`)
attached to the kinds that carry them. -/
inductive Tok
  | identifier (s : String)
  | nninteger (n : Nat)
  | real (v : SymNum)
  | plus | minus | times | div | power
  | lpar | rpar | lbrack | rbrack | lbrace | rbrace
  | comma | semicolon
  | gate | ugate | cxgate | swap | pi | barrier
  | sin | cos | tan | exp | ln | sqrt
deriving DecidableEq, Repr

/-- `Parser::Expr`: expression trees.  A `number` node carries the folded
double (exact `SymNum` here); every other node is built with `num = 0`
in the source. -/
inductive PExpr
  | number (v : SymNum)
  | id (s : String)
  | sign (a : PExpr)
  | plus (a b : PExpr)
  | minus (a b : PExpr)
  | times (a b : PExpr)
  | div (a b : PExpr)
  | power (a b : PExpr)
  | sin (a : PExpr)
  | cos (a : PExpr)
  | tan (a : PExpr)
  | exp (a : PExpr)
  | ln (a : PExpr)
  | sqrt (a : PExpr)
deriving DecidableEq, Repr

/-- The `expr->num` field read when an expression is consumed as a gate
parameter: the folded value on a `number` node, and the `0` every other
constructor was built with. -/
def PExpr.numOf : PExpr → SymNum
  | .number v => v
  | _ => .lit 0

/-- Errors (`Parser::error`, thrown `QASMParserException`s, and C++
undefined behaviour such as dereferencing `compoundGates.end()` or a
null `Expr*`, modelled as explicit failures). -/
inductive PErr
  | outOfFuel
  | unexpectedToken
  | invalidExpr
  | argNotQreg
  | undefinedGate
  | argCount
  | registerSizes
  | swapIdenticalTargets
  | swapWholeRegister
  | cswapWholeRegister
  | controlAndTarget
  | controlMoreThanOnce
  | controlWholeRegister
  | cxRegisterSize
  | controlledGateUnsupported
  | controlledNoDef
  | castUGate
  | unknownGateType
  | notAGate
  | endIteratorDeref
  | nullDeref
  | indexOutOfRange
  | declInferredControlled
  | declCastUGate
  | unexpectedGateInDecl
  | declErr
deriving DecidableEq, Repr

/-- A body gate of a `CompoundGate` (`Ugate` / `CXgate` / `CUgate` /
`MCXgate` in the source). -/
inductive BodyGate
  | u (theta phi lambda : PExpr) (target : String)
  | cx (control target : String)
  | cu (theta phi lambda : PExpr) (controls : List String) (target : String)
  | mcx (controls : List String) (target : String)
deriving DecidableEq, Repr

/-- `Parser::CompoundGate`. -/
structure CompoundGate where
  parameterNames : List String := []
  argumentNames : List String := []
  gates : List BodyGate := []
deriving DecidableEq, Repr

/-- `compoundGates : std::map<std::string, CompoundGate>`. -/
abbrev Table := List (String × CompoundGate)

def cgLookup (t : Table) (k : String) : Option CompoundGate :=
  (t.find? (fun e => e.1 == k)).map (·.2)

/-- `compoundGates[k] = v`: ordered insert-or-overwrite
(`std::map::operator[]` followed by assignment). -/
def cgInsert : Table → String → CompoundGate → Table
  | [], k, v => [(k, v)]
  | e :: t, k, v =>
    if strLtb k e.1 then (k, v) :: e :: t
    else if k = e.1 then (k, v) :: t
    else e :: cgInsert t k v

/-- The `while (cGateName.front() == 'c')` stripping loop shared by
`Parser::Gate` and `Parser::GateDecl`: number of leading `c`s and the
remaining base name (on a fully consumed name, `front()` reads the
string's null terminator and the loop stops). -/
def stripCs (s : String) : Nat × String :=
  ((s.data.takeWhile (fun ch => ch == 'c')).length,
   ⟨s.data.dropWhile (fun ch => ch == 'c')⟩)

/-- Keys of the `argMap` built inside `Parser::Gate`: the formal argument
names on the direct path, and the synthesised `"q" + std::to_string(i)`
keys on the inferred-controlled path.  The decimal rendering is injective
in `i`, and the two key families are never mixed in one map, so the
synthesised keys are modelled by their index. -/
inductive ArgKey
  | named (s : String)
  | indexed (i : Nat)
deriving DecidableEq, Repr

abbrev ArgMap := List (ArgKey × (Nat × Nat))

/-- `argMap[k] = v` (`std::map::operator[]` assignment). -/
def amSet (m : ArgMap) (k : ArgKey) (v : Nat × Nat) : ArgMap :=
  if m.any (fun e => e.1 == k) then m.map (fun e => if e.1 = k then (k, v) else e)
  else m ++ [(k, v)]

/-- `argMap.at(k)`; a missing key throws `std::out_of_range`. -/
def amAt (m : ArgMap) (k : ArgKey) : Except PErr (Nat × Nat) :=
  match m.find? (fun e => e.1 == k) with
  | some e => .ok e.2
  | none => .error .indexOutOfRange

/-- `paramMap[name] = expr` (`std::map::operator[]` assignment). -/
def smSet (m : List (String × PExpr)) (k : String) (v : PExpr) :
    List (String × PExpr) :=
  if m.any (fun e => e.1 == k) then m.map (fun e => if e.1 = k then (k, v) else e)
  else m ++ [(k, v)]

/-- `paramMap[names[i]] = params[i]` for `i < params.size()`; reading
`names[i]` past the end of the name vector is undefined behaviour. -/
def bindParams (m : List (String × PExpr)) :
    List String → List PExpr → Except PErr (List (String × PExpr))
  | _, [] => .ok m
  | [], _ :: _ => .error .indexOutOfRange
  | n :: ns, p :: ps => bindParams (smSet m n p) ns ps

/-- `Parser::RewriteExpr`: substitute `id` nodes from `exprMap` (the
source copies `*exprMap[expr->id]`, dereferencing a null pointer when
the name is unbound) and re-fold constants bottom-up. -/
def RewriteExpr (pm : List (String × PExpr)) : PExpr → Except PErr PExpr
  | .number v => .ok (.number v)
  | .id s =>
    match (pm.find? (fun e => e.1 == s)).map (·.2) with
    | some e => .ok e
    | none => .error .nullDeref
  | .sign a => do
    let x ← RewriteExpr pm a
    match x with
    | .number u => .ok (.number (SymNum.neg u))
    | _ => .ok (.sign x)
  | .plus a b => do
    let x ← RewriteExpr pm a
    let y ← RewriteExpr pm b
    match x, y with
    | .number u, .number v => .ok (.number (SymNum.add u v))
    | _, _ => .ok (.plus x y)
  | .minus a b => do
    let x ← RewriteExpr pm a
    let y ← RewriteExpr pm b
    match x, y with
    | .number u, .number v => .ok (.number (SymNum.sub u v))
    | _, _ => .ok (.minus x y)
  | .times a b => do
    let x ← RewriteExpr pm a
    let y ← RewriteExpr pm b
    match x, y with
    | .number u, .number v => .ok (.number (SymNum.mul u v))
    | _, _ => .ok (.times x y)
  | .div a b => do
    let x ← RewriteExpr pm a
    let y ← RewriteExpr pm b
    match x, y with
    | .number u, .number v => .ok (.number (SymNum.div u v))
    | _, _ => .ok (.div x y)
  | .power a b => do
    let x ← RewriteExpr pm a
    let y ← RewriteExpr pm b
    match x, y with
    | .number u, .number v => .ok (.number (SymNum.pow u v))
    | _, _ => .ok (.power x y)
  | .sin a => do
    let x ← RewriteExpr pm a
    match x with
    | .number u => .ok (.number (SymNum.sin u))
    | _ => .ok (.sin x)
  | .cos a => do
    let x ← RewriteExpr pm a
    match x with
    | .number u => .ok (.number (SymNum.cos u))
    | _ => .ok (.cos x)
  | .tan a => do
    let x ← RewriteExpr pm a
    match x with
    | .number u => .ok (.number (SymNum.tan u))
    | _ => .ok (.tan x)
  | .exp a => do
    let x ← RewriteExpr pm a
    match x with
    | .number u => .ok (.number (SymNum.exp u))
    | _ => .ok (.exp x)
  | .ln a => do
    let x ← RewriteExpr pm a
    match x with
    | .number u => .ok (.number (SymNum.ln u))
    | _ => .ok (.ln x)
  | .sqrt a => do
    let x ← RewriteExpr pm a
    match x with
    | .number u => .ok (.number (SymNum.sqrt u))
    | _ => .ok (.sqrt x)

/- `Parser::Exponentiation`, `Parser::Factor`, `Parser::Term` and
`Parser::Exp` (the recursive-descent expression grammar), with the
source's `while` loops split into `...Loop` helpers; all recursion is
fuelled. -/
mutual

/-- `Parser::Exponentiation`. -/
def Exponentiation : Nat → List Tok → Except PErr (PExpr × List Tok)
  | 0, _ => .error .outOfFuel
  | fuel + 1, ts =>
    match ts with
    | .minus :: r =>
      match Exponentiation fuel r with
      | .error e => .error e
      | .ok (x, r2) =>
        match x with
        | .number v => .ok (.number (SymNum.neg v), r2)
        | _ => .ok (.sign x, r2)
    | .real v :: r => .ok (.number v, r)
    | .nninteger n :: r => .ok (.number (.lit n), r)
    | .pi :: r => .ok (.number .pi, r)
    | .identifier s :: r => .ok (.id s, r)
    | .lpar :: r =>
      match Exp fuel r with
      | .error e => .error e
      | .ok (x, r2) =>
        match r2 with
        | .rpar :: r3 => .ok (x, r3)
        | _ => .error .unexpectedToken
    | .sin :: r => unaryCall fuel .sin r
    | .cos :: r => unaryCall fuel .cos r
    | .tan :: r => unaryCall fuel .tan r
    | .exp :: r => unaryCall fuel .exp r
    | .ln :: r => unaryCall fuel .ln r
    | .sqrt :: r => unaryCall fuel .sqrt r
    | _ => .error .invalidExpr

/-- The shared `unaryops` tail of `Exponentiation`: `op ( Exp )`, folding
a numeric operand and wrapping a symbolic one. -/
def unaryCall : Nat → Tok → List Tok → Except PErr (PExpr × List Tok)
  | 0, _, _ => .error .outOfFuel
  | fuel + 1, op, ts =>
    match ts with
    | .lpar :: r =>
      match Exp fuel r with
      | .error e => .error e
      | .ok (x, r2) =>
        match r2 with
        | .rpar :: r3 =>
          match x with
          | .number v =>
            .ok (.number (match op with
              | .sin => SymNum.sin v
              | .cos => SymNum.cos v
              | .tan => SymNum.tan v
              | .exp => SymNum.exp v
              | .ln => SymNum.ln v
              | _ => SymNum.sqrt v), r3)
          | _ =>
            .ok ((match op with
              | .sin => PExpr.sin x
              | .cos => PExpr.cos x
              | .tan => PExpr.tan x
              | .exp => PExpr.exp x
              | .ln => PExpr.ln x
              | _ => PExpr.sqrt x), r3)
        | _ => .error .unexpectedToken
    | _ => .error .unexpectedToken

def Factor : Nat → List Tok → Except PErr (PExpr × List Tok)
  | 0, _ => .error .outOfFuel
  | fuel + 1, ts =>
    match Exponentiation fuel ts with
    | .error e => .error e
    | .ok (x, r) => FactorLoop fuel x r

def FactorLoop : Nat → PExpr → List Tok → Except PErr (PExpr × List Tok)
  | 0, _, _ => .error .outOfFuel
  | fuel + 1, x, ts =>
    match ts with
    | .power :: r =>
      match Exponentiation fuel r with
      | .error e => .error e
      | .ok (y, r2) =>
        match x, y with
        | .number u, .number v => FactorLoop fuel (.number (SymNum.pow u v)) r2
        | _, _ => FactorLoop fuel (.power x y) r2
    | _ => .ok (x, ts)

def Term : Nat → List Tok → Except PErr (PExpr × List Tok)
  | 0, _ => .error .outOfFuel
  | fuel + 1, ts =>
    match Factor fuel ts with
    | .error e => .error e
    | .ok (x, r) => TermLoop fuel x r

def TermLoop : Nat → PExpr → List Tok → Except PErr (PExpr × List Tok)
  | 0, _, _ => .error .outOfFuel
  | fuel + 1, x, ts =>
    match ts with
    | .times :: r =>
      match Factor fuel r with
      | .error e => .error e
      | .ok (y, r2) =>
        match x, y with
        | .number u, .number v => TermLoop fuel (.number (SymNum.mul u v)) r2
        | _, _ => TermLoop fuel (.times x y) r2
    | .div :: r =>
      match Factor fuel r with
      | .error e => .error e
      | .ok (y, r2) =>
        match x, y with
        | .number u, .number v => TermLoop fuel (.number (SymNum.div u v)) r2
        | _, _ => TermLoop fuel (.div x y) r2
    | _ => .ok (x, ts)

def Exp : Nat → List Tok → Except PErr (PExpr × List Tok)
  | 0, _ => .error .outOfFuel
  | fuel + 1, ts =>
    match ts with
    | .minus :: r =>
      match Term fuel r with
      | .error e => .error e
      | .ok (x, r2) =>
        match x with
        | .number v => ExpLoop fuel (.number (SymNum.neg v)) r2
        | _ => ExpLoop fuel (.sign x) r2
    | _ =>
      match Term fuel ts with
      | .error e => .error e
      | .ok (x, r) => ExpLoop fuel x r

def ExpLoop : Nat → PExpr → List Tok → Except PErr (PExpr × List Tok)
  | 0, _, _ => .error .outOfFuel
  | fuel + 1, x, ts =>
    match ts with
    | .plus :: r =>
      match Term fuel r with
      | .error e => .error e
      | .ok (y, r2) =>
        match x, y with
        | .number u, .number v => ExpLoop fuel (.number (SymNum.add u v)) r2
        | _, _ => ExpLoop fuel (.plus x y) r2
    | .minus :: r =>
      match Term fuel r with
      | .error e => .error e
      | .ok (y, r2) =>
        match x, y with
        | .number u, .number v => ExpLoop fuel (.number (SymNum.sub u v)) r2
        | _, _ => ExpLoop fuel (.minus x y) r2
    | _ => .ok (x, ts)

end

/-- `Parser::ExpList`: `Exp (, Exp)*`. -/
def ExpList : Nat → List PExpr → List Tok → Except PErr (List PExpr × List Tok)
  | 0, _, _ => .error .outOfFuel
  | fuel + 1, acc, ts =>
    match Exp fuel ts with
    | .error e => .error e
    | .ok (x, r) =>
      match r with
      | .comma :: r2 => ExpList fuel (acc ++ [x]) r2
      | _ => .ok (acc ++ [x], r)

/-- `Parser::IdList` after its first `check(identifier)`: the
`while (sym == comma)` loop. -/
def IdListLoop : Nat → List String → List Tok → Except PErr (List String × List Tok)
  | 0, _, _ => .error .outOfFuel
  | fuel + 1, acc, ts =>
    match ts with
    | .comma :: .identifier s :: r => IdListLoop fuel (acc ++ [s]) r
    | .comma :: _ => .error .unexpectedToken
    | _ => .ok (acc, ts)

/-- `Parser::IdList`. -/
def IdList (fuel : Nat) (ts : List Tok) : Except PErr (List String × List Tok) :=
  match ts with
  | .identifier s :: r => IdListLoop fuel [s] r
  | _ => .error .unexpectedToken

/-- `Parser::ArgumentQreg`: `identifier` with optional `[nninteger]`,
resolved against the `qregs` map. -/
def ArgumentQreg (qregs : RMap) (ts : List Tok) :
    Except PErr ((Nat × Nat) × List Tok) :=
  match ts with
  | .identifier s :: r =>
    match rmLookup qregs s with
    | none => .error .argNotQreg
    | some (start, cnt) =>
      match r with
      | .lbrack :: .nninteger off :: .rbrack :: r2 => .ok ((start + off, 1), r2)
      | .lbrack :: _ => .error .unexpectedToken
      | _ => .ok ((start, cnt), r)
  | _ => .error .unexpectedToken

/-- `Parser::ArgList`: `ArgumentQreg (, ArgumentQreg)*`. -/
def ArgList (qregs : RMap) :
    Nat → List (Nat × Nat) → List Tok → Except PErr (List (Nat × Nat) × List Tok)
  | 0, _, _ => .error .outOfFuel
  | fuel + 1, acc, ts =>
    match ArgumentQreg qregs ts with
    | .error e => .error e
    | .ok (a, r) =>
      match r with
      | .comma :: r2 => ArgList qregs fuel (acc ++ [a]) r2
      | _ => .ok (acc ++ [a], r)

/-- The result of `Parser::Gate`: a single `StandardOperation` or a
`CompoundOperation` holding the expanded list. -/
inductive ParsedOp
  | std (op : Op)
  | compound (ops : List Op)
deriving DecidableEq, Repr

/-- The argument loop of the direct (`gateIt`) path of `Parser::Gate`:
`argMap[argumentNames[i]] = arguments[i]`, tracking the broadcast `size`
and rejecting mismatched register sizes. -/
def buildArgMapNamed : ArgMap → Nat → List String → List (Nat × Nat) →
    Except PErr (ArgMap × Nat)
  | m, size, _, [] => .ok (m, size)
  | _, _, [], _ :: _ => .error .indexOutOfRange
  | m, size, n :: ns, a :: rest =>
    let m2 := amSet m (.named n) a
    if 1 < a.2 ∧ size ≠ 1 ∧ a.2 ≠ size then .error .registerSizes
    else buildArgMapNamed m2 (if 1 < a.2 then a.2 else size) ns rest

/-- The argument loop of the inferred-controlled (`cGateIt`) path:
`argMap["q" + std::to_string(i)] = arguments[i]` with the same size
tracking. -/
def buildArgMapIndexed : ArgMap → Nat → Nat → List (Nat × Nat) →
    Except PErr (ArgMap × Nat)
  | m, size, _, [] => .ok (m, size)
  | m, size, i, a :: rest =>
    let m2 := amSet m (.indexed i) a
    if 1 < a.2 ∧ size ≠ 1 ∧ a.2 ≠ size then .error .registerSizes
    else buildArgMapIndexed m2 (if 1 < a.2 then a.2 else size) (i + 1) rest

/-- The argument loop of the controlled-`swap` special path:
`argMap["q" + std::to_string(i)] = arguments[i]`, rejecting register
arguments. -/
def buildCswapMap : ArgMap → Nat → List (Nat × Nat) → Except PErr ArgMap
  | m, _, [] => .ok m
  | m, i, a :: rest =>
    let m2 := amSet m (.indexed i) a
    if 1 < a.2 then .error .cswapWholeRegister
    else buildCswapMap m2 (i + 1) rest

/-- `controls.emplace_back(argMap.at(key).first)` over a key list. -/
def controlsFromKeys (m : ArgMap) : List ArgKey → Except PErr (List Control)
  | [] => .ok []
  | k :: ks =>
    match amAt m k with
    | .error e => .error e
    | .ok a =>
      match controlsFromKeys m ks with
      | .error e => .error e
      | .ok rest => .ok ({ qubit := a.1 } :: rest)

/-- The control keys of the direct path: `argumentNames[j]` for
`j < ncontrols` (indexing past the vector is undefined behaviour). -/
def namedKeys (names : List String) (k : Nat) : Except PErr (List ArgKey) :=
  (List.range k).mapM (fun j =>
    match names.get? j with
    | some n => Except.ok (ArgKey.named n)
    | none => Except.error PErr.indexOutOfRange)

/-- The control keys of the inferred path: `"q" + std::to_string(j)` for
`j < ncontrols`. -/
def indexedKeys (k : Nat) : List ArgKey :=
  (List.range k).map ArgKey.indexed

/-- A `StandardOperation(nq, controls, target, U3, lambda, phi, theta)`
as an `Op`; the parameter vector records `[lambda, phi, theta]` in the
constructor's order. -/
def mkU3 (nq : Nat) (controls : List Control) (target : Nat)
    (lambda phi theta : PExpr) : Op :=
  { nqubits := nq, controls := controls, targets := [target],
    optype := .U3, params := [lambda.numOf, phi.numOf, theta.numOf] }

/-- `StandardOperation(nq, Control(c), t, qc::X)`. -/
def mkCX (nq : Nat) (c t : Nat) : Op :=
  { nqubits := nq, controls := [{ qubit := c }], targets := [t],
    optype := .X, params := [] }

/-- The `CXgate` case of the compound expansion: the control/target
collision check followed by the four size cases. -/
def emitCX (nq : Nat) (cp tp : Nat × Nat) : Except PErr (List Op) :=
  if (List.range cp.2).any (fun i =>
      (List.range tp.2).any (fun j => cp.1 + i == tp.1 + j)) then
    .error .controlAndTarget
  else if cp.2 = 1 ∧ tp.2 = 1 then .ok [mkCX nq cp.1 tp.1]
  else if cp.2 = tp.2 then
    .ok ((List.range tp.2).map (fun j => mkCX nq (cp.1 + j) (tp.1 + j)))
  else if cp.2 = 1 then
    .ok ((List.range tp.2).map (fun k => mkCX nq cp.1 (tp.1 + k)))
  else if tp.2 = 1 then
    .ok ((List.range cp.2).map (fun l => mkCX nq (cp.1 + l) tp.1))
  else .error .cxRegisterSize

/-- The per-control validity loop shared by the `MCXgate` and `CUgate`
cases: whole-register controls, control equal to target, and duplicated
controls are rejected. -/
def controlChecks (argMap : ArgMap) (allControls : List String)
    (target : String) : List String → Except PErr Unit
  | [] => .ok ()
  | c :: rest =>
    match amAt argMap (.named c) with
    | .error e => .error e
    | .ok cp =>
      if cp.2 ≠ 1 then .error .controlWholeRegister
      else
        match amAt argMap (.named target) with
        | .error e => .error e
        | .ok tp =>
          if cp = tp then .error .controlAndTarget
          else if 1 < allControls.count c then .error .controlMoreThanOnce
          else controlChecks argMap allControls target rest

/-- One body gate of the compound expansion loop of `Parser::Gate`. -/
def emitBodyGate (nq : Nat) (argMap : ArgMap)
    (paramMap : List (String × PExpr)) : BodyGate → Except PErr (List Op)
  | .u theta phi lambda target =>
    match RewriteExpr paramMap theta with
    | .error e => .error e
    | .ok th =>
    match RewriteExpr paramMap phi with
    | .error e => .error e
    | .ok ph =>
    match RewriteExpr paramMap lambda with
    | .error e => .error e
    | .ok lam =>
    match amAt argMap (.named target) with
    | .error e => .error e
    | .ok tp =>
      if tp.2 = 1 then .ok [mkU3 nq [] tp.1 lam ph th]
      else .ok ((List.range tp.2).map (fun j => mkU3 nq [] (tp.1 + j) lam ph th))
  | .cx control target =>
    match amAt argMap (.named control) with
    | .error e => .error e
    | .ok cp =>
    match amAt argMap (.named target) with
    | .error e => .error e
    | .ok tp => emitCX nq cp tp
  | .mcx controls target =>
    match controlChecks argMap controls target controls with
    | .error e => .error e
    | .ok _ =>
    match amAt argMap (.named target) with
    | .error e => .error e
    | .ok tp =>
      if tp.2 ≠ 1 then .error .controlWholeRegister
      else
        match controlsFromKeys argMap (controls.map ArgKey.named) with
        | .error e => .error e
        | .ok cs =>
          .ok [{ nqubits := nq, controls := cs, targets := [tp.1],
                 optype := .X, params := [] }]
  | .cu theta phi lambda controls target =>
    match controlChecks argMap controls target controls with
    | .error e => .error e
    | .ok _ =>
    match RewriteExpr paramMap theta with
    | .error e => .error e
    | .ok th =>
    match RewriteExpr paramMap phi with
    | .error e => .error e
    | .ok ph =>
    match RewriteExpr paramMap lambda with
    | .error e => .error e
    | .ok lam =>
    match controlsFromKeys argMap (controls.map ArgKey.named) with
    | .error e => .error e
    | .ok cs =>
    match amAt argMap (.named target) with
    | .error e => .error e
    | .ok tp =>
      if tp.2 = 1 then .ok [mkU3 nq cs tp.1 lam ph th]
      else .error .controlWholeRegister

/-- The `qc::CompoundOperation` expansion loop at the end of the
identifier branch of `Parser::Gate`. -/
def compoundFromGates (nq : Nat) (argMap : ArgMap)
    (paramMap : List (String × PExpr)) : List BodyGate → Except PErr (List Op)
  | [] => .ok []
  | bg :: rest =>
    match emitBodyGate nq argMap paramMap bg with
    | .error e => .error e
    | .ok ops1 =>
      match compoundFromGates nq argMap paramMap rest with
      | .error e => .error e
      | .ok ops2 => .ok (ops1 ++ ops2)

/-- The tail of the identifier branch after the single-controlled-gate
treatment: the single-operation shortcut (`U3`/`CX` bodies applied to
single lines) followed by the compound expansion; reaching it with
`gateIt == compoundGates.end()` dereferences the end iterator. -/
def gateEmitTail (nq : Nat) (gateIt : Option CompoundGate) (argMap : ArgMap)
    (paramMap : List (String × PExpr)) : Except PErr ParsedOp :=
  match gateIt with
  | none => .error .endIteratorDeref
  | some g =>
    match
      (if g.gates.length = 1 then
        match g.gates.head? with
        | some (.u theta phi lambda target) =>
          match RewriteExpr paramMap theta with
          | .error e => .error (some e)
          | .ok th =>
          match RewriteExpr paramMap phi with
          | .error e => .error (some e)
          | .ok ph =>
          match RewriteExpr paramMap lambda with
          | .error e => .error (some e)
          | .ok lam =>
          match amAt argMap (.named target) with
          | .error e => .error (some e)
          | .ok tp =>
            if tp.2 = 1 then .ok (ParsedOp.std (mkU3 nq [] tp.1 lam ph th))
            else .error none
        | some (.cx control target) =>
          match amAt argMap (.named control) with
          | .error e => .error (some e)
          | .ok cp =>
          match amAt argMap (.named target) with
          | .error e => .error (some e)
          | .ok tp =>
            if cp.2 = 1 ∧ tp.2 = 1 then .ok (ParsedOp.std (mkCX nq cp.1 tp.1))
            else .error none
        | _ => .error none
      else Except.error none : Except (Option PErr) ParsedOp)
    with
    | .ok res => .ok res
    | .error (some e) => .error e
    | .error none =>
      match compoundFromGates nq argMap paramMap g.gates with
      | .error e => .error e
      | .ok ops => .ok (.compound ops)

/-- The "check if single controlled gate" block of `Parser::Gate`
(`ncontrols > 0 && size == 1`) followed by `gateEmitTail`.  The source
reads `cGateIt->second` inside the block without checking the iterator,
and falls through to the compound expansion when the base definition is
not a one-gate body. -/
def gateEmit (nq : Nat) (gateIt cGateIt : Option CompoundGate)
    (cGateName : String) (ncontrols : Nat) (parameters : List PExpr)
    (argMap : ArgMap) (paramMap : List (String × PExpr)) (size : Nat) :
    Except PErr ParsedOp :=
  if 0 < ncontrols ∧ size = 1 then
    match cGateIt with
    | none => .error .endIteratorDeref
    | some cg =>
      if cg.gates.length = 1 then
        match
          (match gateIt with
           | some g => namedKeys g.argumentNames ncontrols
           | none => .ok (indexedKeys ncontrols)) with
        | .error e => .error e
        | .ok keys =>
        match controlsFromKeys argMap keys with
        | .error e => .error e
        | .ok controls =>
        match
          (match gateIt with
           | some g =>
             match g.argumentNames.getLast? with
             | some n => Except.ok (ArgKey.named n)
             | none => Except.error PErr.indexOutOfRange
           | none => Except.ok (ArgKey.indexed ncontrols)) with
        | .error e => .error e
        | .ok targKey =>
          if cGateName == "x" ∧ 1 < ncontrols then
            match amAt argMap targKey with
            | .error e => .error e
            | .ok tp =>
              .ok (.std { nqubits := nq, controls := controls,
                          targets := [tp.1], optype := .X, params := [] })
          else
            match bindParams paramMap cg.parameterNames parameters with
            | .error e => .error e
            | .ok paramMap2 =>
              match cg.gates.head? with
              | some (.u theta phi lambda _) =>
                match RewriteExpr paramMap2 theta with
                | .error e => .error e
                | .ok th =>
                match RewriteExpr paramMap2 phi with
                | .error e => .error e
                | .ok ph =>
                match RewriteExpr paramMap2 lambda with
                | .error e => .error e
                | .ok lam =>
                match amAt argMap targKey with
                | .error e => .error e
                | .ok tp => .ok (.std (mkU3 nq controls tp.1 lam ph th))
              | some _ => .error .castUGate
              | none => .error .castUGate
      else gateEmitTail nq gateIt argMap paramMap
  else
    match gateIt with
    | none => .error .controlledNoDef
    | some g => gateEmitTail nq (some g) argMap paramMap

/-- The identifier branch of `Parser::Gate` from `registerMap argMap;`
onward, applied to the already-parsed parameter and argument lists. -/
def gateApplyCore (nq : Nat) (table : Table) (gateName : String)
    (parameters : List PExpr) (arguments : List (Nat × Nat)) :
    Except PErr ParsedOp :=
  match cgLookup table gateName with
  | some g =>
    if g.argumentNames.length ≠ arguments.length then .error .argCount
    else
      match buildArgMapNamed [] 1 g.argumentNames arguments with
      | .error e => .error e
      | .ok (argMap, size) =>
        match bindParams [] g.parameterNames parameters with
        | .error e => .error e
        | .ok paramMap =>
          gateEmit nq (some g) (cgLookup table (stripCs gateName).2)
            (stripCs gateName).2 (stripCs gateName).1 parameters argMap
            paramMap size
  | none =>
    match cgLookup table (stripCs gateName).2 with
    | none => .error .undefinedGate
    | some cg =>
      if 1 < cg.gates.length then .error .controlledGateUnsupported
      else if arguments.length ≠ (stripCs gateName).1 + cg.argumentNames.length
        then .error .argCount
      else
        match buildArgMapIndexed [] 1 0 arguments with
        | .error e => .error e
        | .ok (argMap, size) =>
          match bindParams [] cg.parameterNames parameters with
          | .error e => .error e
          | .ok paramMap =>
            gateEmit nq none (some cg) (stripCs gateName).2
              (stripCs gateName).1 parameters argMap paramMap size

/-- The optional `( ExpList )` parameter group of a gate application. -/
def parseCallParams (fuel : Nat) (ts : List Tok) :
    Except PErr (List PExpr × List Tok) :=
  match ts with
  | .lpar :: .rpar :: r2 => .ok ([], r2)
  | .lpar :: r =>
    match ExpList fuel [] r with
    | .error e => .error e
    | .ok (ps, r2) =>
      match r2 with
      | .rpar :: r3 => .ok (ps, r3)
      | _ => .error .unexpectedToken
  | _ => .ok ([], ts)

/-- `Parser::Gate` (src/qasm_parser/Parser.cpp, lines 399-560): the `U`,
`swap`, `CX` and identifier branches; the identifier branch strips
leading `c`s, handles the controlled-`swap` special case without
consulting the gate table, then requires the name or its base to be in
the table before parsing parameters and arguments and dispatching to
`gateApplyCore`. -/
def Gate (nq : Nat) (qregs : RMap) (table : Table) (fuel : Nat)
    (ts : List Tok) : Except PErr (ParsedOp × List Tok) :=
  match ts with
  | .ugate :: .lpar :: r =>
    match Exp fuel r with
    | .error e => .error e
    | .ok (theta, r1) =>
    match r1 with
    | .comma :: r2 =>
      match Exp fuel r2 with
      | .error e => .error e
      | .ok (phi, r3) =>
      match r3 with
      | .comma :: r4 =>
        match Exp fuel r4 with
        | .error e => .error e
        | .ok (lambda, r5) =>
        match r5 with
        | .rpar :: r6 =>
          match ArgumentQreg qregs r6 with
          | .error e => .error e
          | .ok (target, r7) =>
          match r7 with
          | .semicolon :: r8 =>
            if target.2 = 1 then
              .ok (.std (mkU3 nq [] target.1 lambda phi theta), r8)
            else
              .ok (.compound ((List.range target.2).map
                (fun i => mkU3 nq [] (target.1 + i) lambda phi theta)), r8)
          | _ => .error .unexpectedToken
        | _ => .error .unexpectedToken
      | _ => .error .unexpectedToken
    | _ => .error .unexpectedToken
  | .ugate :: _ => .error .unexpectedToken
  | .swap :: r =>
    match ArgumentQreg qregs r with
    | .error e => .error e
    | .ok (t1, r1) =>
    match r1 with
    | .comma :: r2 =>
      match ArgumentQreg qregs r2 with
      | .error e => .error e
      | .ok (t2, r3) =>
      match r3 with
      | .semicolon :: r4 =>
        if t1.2 = 1 ∧ t2.2 = 1 then
          if t1.1 = t2.1 then .error .swapIdenticalTargets
          else
            .ok (.std { nqubits := nq, controls := [], targets := [t1.1, t2.1],
                        optype := .SWAP, params := [] }, r4)
        else .error .swapWholeRegister
      | _ => .error .unexpectedToken
    | _ => .error .unexpectedToken
  | .cxgate :: r =>
    match ArgumentQreg qregs r with
    | .error e => .error e
    | .ok (cp, r1) =>
    match r1 with
    | .comma :: r2 =>
      match ArgumentQreg qregs r2 with
      | .error e => .error e
      | .ok (tp, r3) =>
      match r3 with
      | .semicolon :: r4 =>
        if (List.range cp.2).any (fun i =>
            (List.range tp.2).any (fun j => cp.1 + i == tp.1 + j)) then
          .error .controlAndTarget
        else if cp.2 = 1 ∧ tp.2 = 1 then .ok (.std (mkCX nq cp.1 tp.1), r4)
        else if cp.2 = tp.2 then
          .ok (.compound ((List.range tp.2).map
            (fun i => mkCX nq (cp.1 + i) (tp.1 + i))), r4)
        else if cp.2 = 1 then
          .ok (.compound ((List.range tp.2).map
            (fun i => mkCX nq cp.1 (tp.1 + i))), r4)
        else if tp.2 = 1 then
          .ok (.compound ((List.range cp.2).map
            (fun i => mkCX nq (cp.1 + i) tp.1)), r4)
        else .error .cxRegisterSize
      | _ => .error .unexpectedToken
    | _ => .error .unexpectedToken
  | .identifier g :: r =>
    let nc := stripCs g
    if nc.2 == "swap" then
      match ArgList qregs fuel [] r with
      | .error e => .error e
      | .ok (arguments, r1) =>
      match r1 with
      | .semicolon :: r2 =>
        if arguments.length ≠ nc.1 + 2 then .error .argCount
        else
          match buildCswapMap [] 0 arguments with
          | .error e => .error e
          | .ok argMap =>
          match controlsFromKeys argMap (indexedKeys nc.1) with
          | .error e => .error e
          | .ok controls =>
          match amAt argMap (.indexed nc.1) with
          | .error e => .error e
          | .ok tp1 =>
          match amAt argMap (.indexed (nc.1 + 1)) with
          | .error e => .error e
          | .ok tp2 =>
            .ok (.std { nqubits := nq, controls := controls,
                        targets := [tp1.1, tp2.1], optype := .SWAP,
                        params := [] }, r2)
      | _ => .error .unexpectedToken
    else if (cgLookup table g).isSome || (cgLookup table nc.2).isSome then
      match parseCallParams fuel r with
      | .error e => .error e
      | .ok (parameters, r1) =>
      match ArgList qregs fuel [] r1 with
      | .error e => .error e
      | .ok (arguments, r2) =>
      match r2 with
      | .semicolon :: r3 =>
        match gateApplyCore nq table g parameters arguments with
        | .error e => .error e
        | .ok res => .ok (res, r3)
      | _ => .error .unexpectedToken
    else .error .undefinedGate
  | _ => .error .notAGate

/-- `argMap[k] = v` for the string-to-string argument map of
`Parser::GateDecl`. -/
def ssSet (m : List (String × String)) (k v : String) :
    List (String × String) :=
  if m.any (fun e => e.1 == k) then m.map (fun e => if e.1 = k then (k, v) else e)
  else m ++ [(k, v)]

/-- `argMap.at(k)` for the declaration-time argument map. -/
def ssAt (m : List (String × String)) (k : String) : Except PErr String :=
  match m.find? (fun e => e.1 == k) with
  | some e => .ok e.2
  | none => .error .indexOutOfRange

/-- `argMap[argumentNames[i]] = arguments[i]` in `Parser::GateDecl`
(lengths already checked equal). -/
def buildDeclArgMap : List (String × String) → List String → List String →
    Except PErr (List (String × String))
  | m, _, [] => .ok m
  | _, [], _ :: _ => .error .indexOutOfRange
  | m, n :: ns, a :: rest => buildDeclArgMap (ssSet m n a) ns rest

/-- Inline one called body gate during a declaration (the
`for (auto & it : gateIt->second.gates)` loop of `Parser::GateDecl`):
rewrite its parameter expressions and rename its argument strings. -/
def inlineBodyGate (argMap : List (String × String))
    (paramMap : List (String × PExpr)) : BodyGate → Except PErr BodyGate
  | .u theta phi lambda target =>
    match RewriteExpr paramMap theta with
    | .error e => .error e
    | .ok th =>
    match RewriteExpr paramMap phi with
    | .error e => .error e
    | .ok ph =>
    match RewriteExpr paramMap lambda with
    | .error e => .error e
    | .ok lam =>
    match ssAt argMap target with
    | .error e => .error e
    | .ok t => .ok (.u th ph lam t)
  | .cx control target =>
    match ssAt argMap control with
    | .error e => .error e
    | .ok c =>
    match ssAt argMap target with
    | .error e => .error e
    | .ok t => .ok (.cx c t)
  | .cu theta phi lambda controls target =>
    match RewriteExpr paramMap theta with
    | .error e => .error e
    | .ok th =>
    match RewriteExpr paramMap phi with
    | .error e => .error e
    | .ok ph =>
    match RewriteExpr paramMap lambda with
    | .error e => .error e
    | .ok lam =>
    match controls.mapM (ssAt argMap) with
    | .error e => .error e
    | .ok cs =>
    match ssAt argMap target with
    | .error e => .error e
    | .ok t => .ok (.cu th ph lam cs t)
  | .mcx controls target =>
    match controls.mapM (ssAt argMap) with
    | .error e => .error e
    | .ok cs =>
    match ssAt argMap target with
    | .error e => .error e
    | .ok t => .ok (.mcx cs t)

/-- The identifier case inside a gate-declaration body: inline a called
gate against the table (direct path) or synthesise the inferred
controlled variant of a one-gate base definition. -/
def declExpand (gateIt cGateIt : Option CompoundGate) (cGateName : String)
    (ncontrols : Nat) (parameters : List PExpr) (arguments : List String) :
    Except PErr (List BodyGate) :=
  match gateIt with
  | some g =>
    if g.argumentNames.length ≠ arguments.length then .error .argCount
    else
      match buildDeclArgMap [] g.argumentNames arguments with
      | .error e => .error e
      | .ok argMap =>
        match bindParams [] g.parameterNames parameters with
        | .error e => .error e
        | .ok paramMap => g.gates.mapM (inlineBodyGate argMap paramMap)
  | none =>
    match cGateIt with
    | none => .error .undefinedGate
    | some cg =>
      if cg.gates.length ≠ 1 then .error .declInferredControlled
      else if arguments.length ≠ ncontrols + 1 then .error .argCount
      else
        match bindParams [] cg.parameterNames parameters with
        | .error e => .error e
        | .ok paramMap =>
          match arguments.getLast? with
          | none => .error .indexOutOfRange
          | some targ =>
            if cGateName == "x" || cGateName == "X" then
              .ok [.mcx arguments.dropLast targ]
            else
              match cg.gates.head? with
              | some (.u theta phi lambda _) =>
                match RewriteExpr paramMap theta with
                | .error e => .error e
                | .ok th =>
                match RewriteExpr paramMap phi with
                | .error e => .error e
                | .ok ph =>
                match RewriteExpr paramMap lambda with
                | .error e => .error e
                | .ok lam => .ok [.cu th ph lam arguments.dropLast targ]
              | _ => .error .declCastUGate

/-- The `while (sym != Token::Kind::rbrace) scan();` skip loop of
`Parser::GateDecl` together with the `scan()` consuming the brace; at
end of input the scanner reports `eof` forever and the C++ loop spins,
modelled by running out of fuel (also on the empty list). -/
def skipGateBody : Nat → List Tok → Except PErr (List Tok)
  | 0, _ => .error .outOfFuel
  | fuel + 1, ts =>
    match ts with
    | .rbrace :: r => .ok r
    | _ :: r => skipGateBody fuel r
    | [] => .error .outOfFuel

/-- The body loop of `Parser::GateDecl` (`U`, `CX`, identifier and
`barrier` statements), accumulating the inlined gate list until the
closing brace (left in the stream for the final `check`). -/
def GateDeclBody (table : Table) : Nat → List BodyGate → List Tok →
    Except PErr (List BodyGate × List Tok)
  | 0, _, _ => .error .outOfFuel
  | fuel + 1, acc, ts =>
    match ts with
    | .rbrace :: _ => .ok (acc, ts)
    | .ugate :: .lpar :: r =>
      match Exp fuel r with
      | .error e => .error e
      | .ok (theta, r1) =>
      match r1 with
      | .comma :: r2 =>
        match Exp fuel r2 with
        | .error e => .error e
        | .ok (phi, r3) =>
        match r3 with
        | .comma :: r4 =>
          match Exp fuel r4 with
          | .error e => .error e
          | .ok (lambda, r5) =>
          match r5 with
          | .rpar :: .identifier target :: .semicolon :: r6 =>
            GateDeclBody table fuel (acc ++ [.u theta phi lambda target]) r6
          | _ => .error .unexpectedToken
        | _ => .error .unexpectedToken
      | _ => .error .unexpectedToken
    | .ugate :: _ => .error .unexpectedToken
    | .cxgate :: .identifier control :: .comma ::
        .identifier target :: .semicolon :: r =>
      GateDeclBody table fuel (acc ++ [.cx control target]) r
    | .cxgate :: _ => .error .unexpectedToken
    | .identifier name :: r =>
      let nc := stripCs name
      if (cgLookup table name).isSome || (cgLookup table nc.2).isSome then
        match parseCallParams fuel r with
        | .error e => .error e
        | .ok (parameters, r1) =>
        match IdList fuel r1 with
        | .error e => .error e
        | .ok (arguments, r2) =>
        match r2 with
        | .semicolon :: r3 =>
          match declExpand (cgLookup table name) (cgLookup table nc.2)
              nc.2 nc.1 parameters arguments with
          | .error e => .error e
          | .ok newGates => GateDeclBody table fuel (acc ++ newGates) r3
        | _ => .error .unexpectedToken
      else .error .undefinedGate
    | .barrier :: r =>
      match IdList fuel r with
      | .error e => .error e
      | .ok (_, r1) =>
        match r1 with
        | .semicolon :: r2 => GateDeclBody table fuel acc r2
        | _ => .error .unexpectedToken
    | _ => .error .declErr

/-- The optional `( IdList )` parameter-name group of a gate
declaration. -/
def parseDeclParams (fuel : Nat) (ts : List Tok) :
    Except PErr (List String × List Tok) :=
  match ts with
  | .lpar :: .rpar :: r2 => .ok ([], r2)
  | .lpar :: r =>
    match IdList fuel r with
    | .error e => .error e
    | .ok (ps, r2) =>
      match r2 with
      | .rpar :: r3 => .ok (ps, r3)
      | _ => .error .unexpectedToken
  | _ => .ok ([], ts)

def GateDeclAfterParams (table : Table) (fuel : Nat) (gateName : String)
    (parameterNames : List String) (ts : List Tok) :
    Except PErr (Table × List Tok) :=
  match IdList fuel ts with
  | .error e => .error e
  | .ok (argumentNames, r2) =>
    match r2 with
    | .lbrace :: r3 =>
      let nc := stripCs gateName
      match cgLookup table nc.2 with
      | some cg =>
        if cg.gates.length ≤ 1 then
          match skipGateBody fuel r3 with
          | .error e => .error e
          | .ok r4 => .ok (table, r4)
        else
          match GateDeclBody table fuel [] r3 with
          | .error e => .error e
          | .ok (gates, r4) =>
            match r4 with
            | .rbrace :: r5 =>
              .ok (cgInsert table gateName
                { parameterNames := parameterNames,
                  argumentNames := argumentNames, gates := gates }, r5)
            | _ => .error .unexpectedToken
      | none =>
        match GateDeclBody table fuel [] r3 with
        | .error e => .error e
        | .ok (gates, r4) =>
          match r4 with
          | .rbrace :: r5 =>
            .ok (cgInsert table gateName
              { parameterNames := parameterNames,
                argumentNames := argumentNames, gates := gates }, r5)
          | _ => .error .unexpectedToken
    | _ => .error .unexpectedToken

/-- `Parser::GateDecl` (src/qasm_parser/Parser.cpp, lines 708-737 for the
header and skip path): parse `gate name (params)? args {`, then — when
the name stripped of leading `c`s matches a table entry whose body holds
at most one gate — skip to the closing brace leaving the table
untouched; otherwise parse the body, inlining every called gate, and
install the result under `name`. -/
def GateDecl (table : Table) (fuel : Nat) (ts : List Tok) :
    Except PErr (Table × List Tok) :=
  match ts with
  | .gate :: .identifier gateName :: r =>
    match parseDeclParams fuel r with
    | .error e => .error e
    | .ok (parameterNames, r1) =>
      GateDeclAfterParams table fuel gateName parameterNames r1
  | _ => .error .unexpectedToken

/-- Modelled from the spec: the `u3` entry installed by pre-parsing the
builtin `qelib1.inc` header (§4.C "Initial population"; the header file
itself is outside the given sources).  OpenQASM 2.0's standard header
defines `gate u3(theta,phi,lambda) q { U(theta,phi,lambda) q; }`, whose
parsed form is a single `Ugate` body over the formal parameters. -/
def u3Entry : CompoundGate :=
  { parameterNames := ["theta", "phi", "lambda"],
    argumentNames := ["q"],
    gates := [.u (.id "theta") (.id "phi") (.id "lambda") "q"] }

/-- The entries `(ArgKey.indexed i0, args[0]), (ArgKey.indexed (i0+1),
args[1]), ...` that the inferred-path argument loop appends. -/
def idxEntries : Nat → List (Nat × Nat) → ArgMap
  | _, [] => []
  | i, a :: rest => (.indexed i, a) :: idxEntries (i + 1) rest

/-- The token rendering of an `IdList`: identifiers separated by
commas. -/
def idListToks : List String → List Tok
  | [] => []
  | n :: ns => .identifier n :: ns.flatMap (fun m => [.comma, .identifier m])

/-- The gate table holding only the builtin `u3` entry, the part of the
pre-parsed `qelib1.inc` header exercised by the controlled-gate-inference
example. -/
def qasmBaseTable : Table := [("u3", u3Entry)]

/-- Tokens of `gate mygate a { u3(pi,0,pi) a; }`. -/
def mygateDeclToks : List Tok :=
  [.gate, .identifier "mygate", .identifier "a", .lbrace,
   .identifier "u3", .lpar, .pi, .comma, .nninteger 0, .comma, .pi, .rpar,
   .identifier "a", .semicolon, .rbrace]

/-- The gate table after the `mygate` declaration. -/
def mygateTable : Table :=
  [("mygate",
    { parameterNames := [], argumentNames := ["a"],
      gates := [.u (.number .pi) (.number (.lit 0)) (.number .pi) "a"] }),
   ("u3", u3Entry)]

/-- The `qregs` map of `qreg q[3];`. -/
def exampleQregs : RMap := [("q", (0, 3))]

/-- Tokens of `cmygate q[0],q[1];`. -/
def cmygateAppToks : List Tok :=
  [.identifier "cmygate", .identifier "q", .lbrack, .nninteger 0, .rbrack,
   .comma, .identifier "q", .lbrack, .nninteger 1, .rbrack, .semicolon]

/-- Tokens of `ccmygate q[0],q[1],q[2];`. -/
def ccmygateAppToks : List Tok :=
  [.identifier "ccmygate", .identifier "q", .lbrack, .nninteger 0, .rbrack,
   .comma, .identifier "q", .lbrack, .nninteger 1, .rbrack,
   .comma, .identifier "q", .lbrack, .nninteger 2, .rbrack, .semicolon]

/-- Tokens of `cswap q[0],q[1],q[2];`. -/
def cswapAppToks : List Tok :=
  [.identifier "cswap", .identifier "q", .lbrack, .nninteger 0, .rbrack,
   .comma, .identifier "q", .lbrack, .nninteger 1, .rbrack,
   .comma, .identifier "q", .lbrack, .nninteger 2, .rbrack, .semicolon]


/-- The operation emitted for `cmygate q[0],q[1];`. -/
def cmygateOp : Op :=
  { nqubits := 3, controls := [{ qubit := 0 }], targets := [1],
    optype := .U3, params := [.pi, .lit 0, .pi] }

/-- The operation emitted for `ccmygate q[0],q[1],q[2];`. -/
def ccmygateOp : Op :=
  { nqubits := 3, controls := [{ qubit := 0 }, { qubit := 1 }], targets := [2],
    optype := .U3, params := [.pi, .lit 0, .pi] }

/-- The operation emitted for `cswap q[0],q[1],q[2];` — even against an
empty gate table. -/
def cswapOp : Op :=
  { nqubits := 3, controls := [{ qubit := 0 }], targets := [1, 2],
    optype := .SWAP, params := [] }

/- ======================================================================
Theorems.
====================================================================== -/

/- ----------------------------------------------------------------------
Basic facts about the ordered-map model.
---------------------------------------------------------------------- -/

lemma pmKeys_pmSet (m : PMap) (k v : Nat) : pmKeys (pmSet m k v) = pmKeys m := by
  unfold pmKeys pmSet
  rw [List.map_map]
  apply List.map_congr_left
  intro e _
  by_cases h : e.1 = k <;> simp [h]

lemma pmMem_iff (m : PMap) (k : Nat) : pmMem m k = true ↔ k ∈ pmKeys m := by
  unfold pmMem pmKeys
  rw [List.any_eq_true]
  simp only [List.mem_map, beq_iff_eq]

lemma pmLookup_isSome_of_mem_keys {m : PMap} {k : Nat} (h : k ∈ pmKeys m) :
    ∃ v, pmLookup m k = some v := by
  induction m with
  | nil => simp [pmKeys] at h
  | cons a t ih =>
    by_cases hk : a.1 = k
    · exact ⟨a.2, by simp [pmLookup, List.find?, hk]⟩
    · have hkt : k ∈ pmKeys t := by
        simp [pmKeys] at h ⊢
        rcases h with h | h
        · exact absurd h.symm hk
        · exact h
      rcases ih hkt with ⟨v, hv⟩
      refine ⟨v, ?_⟩
      unfold pmLookup at hv ⊢
      rw [List.find?_cons_of_neg _ (by simp [hk])]
      exact hv

lemma mem_of_pmLookup {m : PMap} {k v : Nat} (h : pmLookup m k = some v) :
    (k, v) ∈ m := by
  induction m with
  | nil => simp [pmLookup] at h
  | cons a t ih =>
    obtain ⟨a1, a2⟩ := a
    by_cases hk : a1 = k
    · have : a2 = v := by
        simpa [pmLookup, List.find?, hk] using h
      exact List.mem_cons.mpr (Or.inl (by simp [hk, this]))
    · have h' : pmLookup t k = some v := by
        unfold pmLookup at h ⊢
        rwa [List.find?_cons_of_neg _ (by simp [hk])] at h
      exact List.mem_cons.mpr (Or.inr (ih h'))

lemma pmLookup_of_mem {m : PMap} (hN : (pmKeys m).Nodup) {k v : Nat}
    (h : (k, v) ∈ m) : pmLookup m k = some v := by
  induction m with
  | nil => simp at h
  | cons a t ih =>
    have hN' := List.nodup_cons.mp (show (a.1 :: pmKeys t).Nodup from hN)
    rcases List.mem_cons.mp h with h | h
    · simp [pmLookup, List.find?, ← h]
    · have hk : a.1 ≠ k := by
        intro hak
        exact hN'.1 (hak ▸ List.mem_map.mpr ⟨(k, v), h, rfl⟩)
      have ht := ih hN'.2 h
      unfold pmLookup at ht ⊢
      rw [List.find?_cons_of_neg _ (by simp [hk])]
      exact ht

lemma pmLookup_unique {m : PMap} (hN : (pmKeys m).Nodup) {k a b : Nat}
    (ha : (k, a) ∈ m) (hb : (k, b) ∈ m) : a = b := by
  have h1 := pmLookup_of_mem hN ha
  have h2 := pmLookup_of_mem hN hb
  rw [h1] at h2
  exact Option.some_injective _ h2.symm |>.symm

lemma pmLookup_pmSet_self {m : PMap} {k : Nat} (h : k ∈ pmKeys m) (v : Nat) :
    pmLookup (pmSet m k v) k = some v := by
  induction m with
  | nil => simp [pmKeys] at h
  | cons a t ih =>
    by_cases hk : a.1 = k
    · simp [pmSet, pmLookup, List.find?, hk]
    · have hkt : k ∈ pmKeys t := by
        simp [pmKeys] at h
        rcases h with h | h
        · exact absurd h.symm hk
        · simpa [pmKeys] using h
      have ht := ih hkt
      unfold pmLookup pmSet at ht ⊢
      rw [List.map_cons, if_neg hk, List.find?_cons_of_neg _ (by simp [hk])]
      exact ht

lemma pmLookup_pmSet_ne (m : PMap) {k k' : Nat} (h : k' ≠ k) (v : Nat) :
    pmLookup (pmSet m k v) k' = pmLookup m k' := by
  induction m with
  | nil => simp [pmSet, pmLookup]
  | cons a t ih =>
    unfold pmLookup pmSet at ih ⊢
    rw [List.map_cons]
    by_cases hk : a.1 = k
    · rw [if_pos hk, List.find?_cons_of_neg _ (by simp [Ne.symm h]),
        List.find?_cons_of_neg _ (by simp [hk, Ne.symm h])]
      exact ih
    · by_cases hk' : a.1 = k'
      · rw [if_neg hk, List.find?_cons_of_pos _ (by simp [hk']),
          List.find?_cons_of_pos _ (by simp [hk'])]
      · rw [if_neg hk, List.find?_cons_of_neg _ (by simp [hk']),
          List.find?_cons_of_neg _ (by simp [hk'])]
        exact ih

lemma mem_keys_of_mem {m : PMap} {e : Nat × Nat} (h : e ∈ m) : e.1 ∈ pmKeys m :=
  List.mem_map.mpr ⟨e, h, rfl⟩

lemma mem_vals_of_mem {m : PMap} {e : Nat × Nat} (h : e ∈ m) : e.2 ∈ pmVals m :=
  List.mem_map.mpr ⟨e, h, rfl⟩

lemma mem_pmSet_of_mem_ne {m : PMap} {e : Nat × Nat} (he : e ∈ m) {k : Nat}
    (hk : e.1 ≠ k) (v : Nat) : e ∈ pmSet m k v := by
  unfold pmSet
  have := List.mem_map_of_mem (fun e => if e.1 = k then (k, v) else e) he
  simpa [if_neg hk] using this

lemma mem_pmSet_self_of_mem {m : PMap} {k a : Nat} (h : (k, a) ∈ m) (v : Nat) :
    (k, v) ∈ pmSet m k v := by
  unfold pmSet
  have := List.mem_map_of_mem (fun e => if e.1 = k then (k, v) else e) h
  simpa using this

/-- The value transposition performed by one SWAP of `changePermutation`
keeps every value other than the consumed goal in the map. -/
lemma pmVals_mem_after_swap {m : PMap} (hN : (pmKeys m).Nodup) {p j c g v : Nat}
    (hp : (p, c) ∈ m) (hj : (j, g) ∈ m) (hcg : c ≠ g) (hv : v ∈ pmVals m)
    (hvg : v ≠ g) : v ∈ pmVals (pmSet (pmSet m p g) j c) := by
  have hpj : p ≠ j := fun h => hcg (pmLookup_unique hN (h ▸ hp) hj)
  obtain ⟨e, hem, hev⟩ := List.mem_map.mp hv
  obtain ⟨k, w⟩ := e
  simp only at hev
  subst hev
  by_cases hkj : k = j
  · rw [hkj] at hem
    exact absurd (pmLookup_unique hN hem hj) hvg
  by_cases hkp : k = p
  · rw [hkp] at hem
    have hvc : w = c := pmLookup_unique hN hem hp
    have h1 : (j, g) ∈ pmSet m p g := mem_pmSet_of_mem_ne hj (by simpa using Ne.symm hpj) g
    have h2 : (j, c) ∈ pmSet (pmSet m p g) j c := mem_pmSet_self_of_mem h1 c
    rw [hvc]
    exact List.mem_map.mpr ⟨(j, c), h2, rfl⟩
  · have h1 : (k, w) ∈ pmSet m p g := mem_pmSet_of_mem_ne hem (by simpa using hkp) g
    have h2 : (k, w) ∈ pmSet (pmSet m p g) j c := mem_pmSet_of_mem_ne h1 (by simpa using hkj) c
    exact List.mem_map.mpr ⟨(k, w), h2, rfl⟩

/-- The linear search for the goal value finds an entry of the map whenever
the goal occurs among its values. -/
lemma cpFindGoalKey_spec {m : PMap} {goal : Nat} (h : goal ∈ pmVals m) :
    (cpFindGoalKey m goal, goal) ∈ m := by
  unfold cpFindGoalKey
  obtain ⟨e, hem, hev⟩ := List.mem_map.mp h
  cases hf : m.find? (fun e => e.2 == goal) with
  | none =>
    have := List.find?_eq_none.mp hf e hem
    simp [hev] at this
  | some e' =>
    have h1 := List.find?_some hf
    have h2 := List.mem_of_find?_eq_some hf
    have he' : e' = (e'.1, goal) := by
      obtain ⟨e1, e2⟩ := e'
      simp at h1 ⊢
      exact h1
    simpa [← he'] using h2

/-- The skip branch of one iteration of `changePermutation`: the maps
already agree on this key. -/
lemma cpStep_skip {regular : Bool} {s : CPState} {kv : Nat × Nat} {current : Nat}
    (hl : pmLookup s.fromMap kv.1 = some current) (he : current = kv.2) :
    cpStep regular s kv = .ok s := by
  unfold cpStep
  rw [hl]
  simp [he]

/-- The SWAP branch of one iteration of `changePermutation`. -/
lemma cpStep_swap {regular : Bool} {s : CPState} {kv : Nat × Nat} {current : Nat}
    (hl : pmLookup s.fromMap kv.1 = some current)
    (hne : current ≠ kv.2) (hg : kv.2 ∈ pmVals s.fromMap) :
    cpStep regular s kv = .ok
      { fromMap := pmSet (pmSet s.fromMap kv.1 kv.2) (cpFindGoalKey s.fromMap kv.2) current
        edge := if regular then .swap kv.1 (cpFindGoalKey s.fromMap kv.2) :: s.edge
                else s.edge ++ [.swap kv.1 (cpFindGoalKey s.fromMap kv.2)]
        swaps := s.swaps ++ [(kv.1, cpFindGoalKey s.fromMap kv.2)] } := by
  have hmem1 : pmMem s.fromMap kv.1 = true :=
    (pmMem_iff _ _).mpr (mem_keys_of_mem (e := (kv.1, current)) (mem_of_pmLookup hl))
  have hjmem : cpFindGoalKey s.fromMap kv.2 ∈ pmKeys s.fromMap :=
    mem_keys_of_mem (e := (cpFindGoalKey s.fromMap kv.2, kv.2)) (cpFindGoalKey_spec hg)
  have hmem2 : pmMem (pmSet s.fromMap kv.1 kv.2) (cpFindGoalKey s.fromMap kv.2) = true := by
    rw [pmMem_iff, pmKeys_pmSet]
    exact hjmem
  unfold cpStep
  rw [hl]
  simp only [if_neg hne, pmSetAt, hmem1, hmem2, if_true, ite_true]

/-- Main loop invariant of `changePermutation`: under the (amended)
precondition the fold succeeds, makes `from` agree with `to` on every key
of `to`, emits at most one SWAP per entry of `to`, keeps the key set of
`from`, and does not disturb entries whose key and value do not occur in
`to`. -/
theorem cpRun (regular : Bool) (toMap : PMap) :
    ∀ (s : CPState),
    (pmKeys s.fromMap).Nodup →
    (pmKeys toMap).Nodup →
    (pmVals toMap).Nodup →
    (∀ kv ∈ toMap, kv.1 ∈ pmKeys s.fromMap) →
    (∀ kv ∈ toMap, kv.2 ∈ pmVals s.fromMap) →
    ∃ r, toMap.foldlM (cpStep regular) s = .ok r ∧
      (∀ kv ∈ toMap, pmLookup r.fromMap kv.1 = some kv.2) ∧
      pmKeys r.fromMap = pmKeys s.fromMap ∧
      r.swaps.length ≤ s.swaps.length + toMap.length ∧
      (∀ p v, pmLookup s.fromMap p = some v →
        (∀ kv ∈ toMap, kv.1 ≠ p) → (∀ kv ∈ toMap, kv.2 ≠ v) →
        pmLookup r.fromMap p = some v) := by
  induction toMap with
  | nil =>
    intro s _ _ _ _ _
    exact ⟨s, rfl, by simp, rfl, by simp, fun p v h _ _ => h⟩
  | cons kv rest ih =>
    intro s hNs hNk hNv hkeys hvals
    obtain ⟨p, g⟩ := kv
    obtain ⟨c, hc⟩ := pmLookup_isSome_of_mem_keys (hkeys (p, g) (by simp))
    have hNkc := List.nodup_cons.mp (show (p :: pmKeys rest).Nodup from hNk)
    have hNvc := List.nodup_cons.mp (show (g :: pmVals rest).Nodup from hNv)
    have hknp : ∀ kv ∈ rest, kv.1 ≠ p := fun kv hkv heq =>
      hNkc.1 (heq ▸ List.mem_map.mpr ⟨kv, hkv, rfl⟩)
    have hvng : ∀ kv ∈ rest, kv.2 ≠ g := fun kv hkv heq =>
      hNvc.1 (heq ▸ List.mem_map.mpr ⟨kv, hkv, rfl⟩)
    by_cases hcg : c = g
    · subst hcg
      obtain ⟨r, hr, hagree, hkeysEq, hswaps, hpres⟩ :=
        ih s hNs hNkc.2 hNvc.2
          (fun kv hkv => hkeys kv (List.mem_cons_of_mem _ hkv))
          (fun kv hkv => hvals kv (List.mem_cons_of_mem _ hkv))
      refine ⟨r, ?_, ?_, hkeysEq, ?_, ?_⟩
      · rw [List.foldlM_cons, cpStep_skip hc rfl]
        exact hr
      · intro kv hkv
        rcases List.mem_cons.mp hkv with h | h
        · subst h
          exact hpres p c hc hknp hvng
        · exact hagree kv h
      · simp only [List.length_cons]
        omega
      · intro p0 v0 h0 hk0 hv0
        exact hpres p0 v0 h0 (fun kv hkv => hk0 kv (List.mem_cons_of_mem _ hkv))
          (fun kv hkv => hv0 kv (List.mem_cons_of_mem _ hkv))
    · have hgval : g ∈ pmVals s.fromMap := hvals (p, g) (by simp)
      have hjg : (cpFindGoalKey s.fromMap g, g) ∈ s.fromMap := cpFindGoalKey_spec hgval
      have hpc : (p, c) ∈ s.fromMap := mem_of_pmLookup hc
      have hlj : pmLookup s.fromMap (cpFindGoalKey s.fromMap g) = some g :=
        pmLookup_of_mem hNs hjg
      have hjp : cpFindGoalKey s.fromMap g ≠ p := by
        intro h
        rw [h, hc] at hlj
        exact hcg (Option.some_injective _ hlj)
      set j := cpFindGoalKey s.fromMap g with hjdef
      set m2 := pmSet (pmSet s.fromMap p g) j c with hm2
      have hkeys2 : pmKeys m2 = pmKeys s.fromMap := by
        rw [hm2, pmKeys_pmSet, pmKeys_pmSet]
      have hN2 : (pmKeys m2).Nodup := hkeys2 ▸ hNs
      have hl2p : pmLookup m2 p = some g := by
        rw [hm2, pmLookup_pmSet_ne _ (Ne.symm hjp),
          pmLookup_pmSet_self (mem_keys_of_mem hpc)]
      set s' : CPState :=
        { fromMap := m2
          edge := if regular then .swap p j :: s.edge else s.edge ++ [.swap p j]
          swaps := s.swaps ++ [(p, j)] } with hs'
      obtain ⟨r, hr, hagree, hkeysEq, hswaps, hpres⟩ :=
        ih s' hN2 hNkc.2 hNvc.2
          (fun kv hkv => by
            show kv.1 ∈ pmKeys m2
            rw [hkeys2]
            exact hkeys kv (List.mem_cons_of_mem _ hkv))
          (fun kv hkv => by
            show kv.2 ∈ pmVals m2
            exact pmVals_mem_after_swap hNs hpc hjg hcg
              (hvals kv (List.mem_cons_of_mem _ hkv)) (hvng kv hkv))
      refine ⟨r, ?_, ?_, ?_, ?_, ?_⟩
      · rw [List.foldlM_cons, cpStep_swap hc hcg hgval]
        exact hr
      · intro kv hkv
        rcases List.mem_cons.mp hkv with h | h
        · subst h
          exact hpres p g hl2p hknp hvng
        · exact hagree kv h
      · rw [hkeysEq]
        exact hkeys2
      · have : s'.swaps.length = s.swaps.length + 1 := by
          rw [hs']
          simp
        rw [this] at hswaps
        simp only [List.length_cons]
        omega
      · intro p0 v0 h0 hk0 hv0
        have hp0p : p0 ≠ p := fun h => hk0 (p, g) (by simp) (by simp [h])
        have hv0g : v0 ≠ g := fun h => hv0 (p, g) (by simp) (by simp [h])
        have hp0j : p0 ≠ j := by
          intro h
          rw [h, hlj] at h0
          exact hv0g (Option.some_injective _ h0).symm
        have hl2 : pmLookup m2 p0 = some v0 := by
          rw [hm2, pmLookup_pmSet_ne _ hp0j, pmLookup_pmSet_ne _ hp0p]
          exact h0
        exact hpres p0 v0 hl2 (fun kv hkv => hk0 kv (List.mem_cons_of_mem _ hkv))
          (fun kv hkv => hv0 kv (List.mem_cons_of_mem _ hkv))

lemma pmWF_chain' {m : PMap} (h : pmWF m) : m.Chain' (fun a b => a.1 < b.1) := by
  induction m with
  | nil => simp
  | cons a t ih =>
    cases t with
    | nil => simp
    | cons b t2 =>
      unfold pmWF pmWFb at h
      simp only [Bool.and_eq_true, decide_eq_true_eq] at h
      exact List.chain'_cons.mpr ⟨h.1, ih h.2⟩

/-- A `std::map` with strictly increasing keys has pairwise-distinct keys. -/
lemma pmWF_nodup_keys {m : PMap} (h : pmWF m) : (pmKeys m).Nodup := by
  have hc : (pmKeys m).Chain' (· < ·) := by
    unfold pmKeys
    exact (List.chain'_map _).mpr (pmWF_chain' h)
  exact (List.chain'_iff_pairwise.mp hc).imp Nat.ne_of_lt

/-- C1 (amended).  For permutation maps `from` and `to` such that every key
of `to` occurs as a key of `from`, every value of `to` occurs as a value of
`from`, and `|from| ≥ |to|`: `changePermutation` iterates the entries
`(p, goal)` of `to` in order, skips an entry when `from[p] = goal`, and
otherwise emits exactly one SWAP on `(p, q)` where `q` is a key with
`from[q] = goal`, multiplying it into the edge on the left when `regular`
is set and on the right otherwise, and updating `from[p]` to `goal` and
`from[q]` to the previous value; on completion `from` agrees with `to` on
every key of `to` and at most `|to|` SWAPs are emitted.  For
`from = {0↦0, 1↦1, 2↦2}` and `to = {0↦2, 1↦1, 2↦0}`, exactly one SWAP on
`(0, 2)` is emitted and afterwards `from` equals `to` on the keys of
`to`. -/
theorem changePermutation_adapts (regular : Bool) (fromMap toMap : PMap)
    (edge : List CPFactor)
    (hWFf : pmWF fromMap) (hWFt : pmWF toMap)
    (_hInjF : (pmVals fromMap).Nodup) (hInjT : (pmVals toMap).Nodup)
    (hKeys : ∀ kv ∈ toMap, kv.1 ∈ pmKeys fromMap)
    (hVals : ∀ kv ∈ toMap, kv.2 ∈ pmVals fromMap)
    (hLen : toMap.length ≤ fromMap.length) :
    (∃ r, changePermutation fromMap toMap edge regular = .ok r ∧
      (∀ kv ∈ toMap, pmLookup r.fromMap kv.1 = some kv.2) ∧
      r.swaps.length ≤ toMap.length) ∧
    (∀ (s : CPState) (kv : Nat × Nat) (current : Nat),
      (pmKeys s.fromMap).Nodup →
      pmLookup s.fromMap kv.1 = some current →
      (current = kv.2 → cpStep regular s kv = .ok s) ∧
      (current ≠ kv.2 → kv.2 ∈ pmVals s.fromMap →
        ∃ j, pmLookup s.fromMap j = some kv.2 ∧
          cpStep regular s kv = .ok
            { fromMap := pmSet (pmSet s.fromMap kv.1 kv.2) j current
              edge := if regular then .swap kv.1 j :: s.edge
                      else s.edge ++ [.swap kv.1 j]
              swaps := s.swaps ++ [(kv.1, j)] })) ∧
    changePermutation [(0, 0), (1, 1), (2, 2)] [(0, 2), (1, 1), (2, 0)]
        [.init] regular =
      .ok { fromMap := [(0, 2), (1, 1), (2, 0)]
            edge := if regular then [.swap 0 2, .init] else [.init, .swap 0 2]
            swaps := [(0, 2)] } := by
  refine ⟨?_, ?_, ?_⟩
  · obtain ⟨r, hr, hagree, _, hswaps, _⟩ :=
      cpRun regular toMap { fromMap := fromMap, edge := edge, swaps := [] }
        (pmWF_nodup_keys hWFf) (pmWF_nodup_keys hWFt) hInjT hKeys hVals
    refine ⟨r, ?_, hagree, by simpa using hswaps⟩
    unfold changePermutation
    rw [if_neg (by omega)]
    exact hr
  · intro s kv current hN hl
    refine ⟨fun he => cpStep_skip hl he, fun hne hg => ?_⟩
    exact ⟨cpFindGoalKey s.fromMap kv.2,
      pmLookup_of_mem hN (cpFindGoalKey_spec hg), cpStep_swap hl hne hg⟩
  · cases regular <;> rfl

/-- Witness for `changePermutation_adapts` at the spec's concrete inputs,
`from = {0↦0, 1↦1, 2↦2}` and `to = {0↦2, 1↦1, 2↦0}`. -/
theorem changePermutation_adapts_witness :
    ∃ r, changePermutation [(0, 0), (1, 1), (2, 2)] [(0, 2), (1, 1), (2, 0)]
        [.init] true = .ok r ∧
      (∀ kv ∈ ([(0, 2), (1, 1), (2, 0)] : PMap),
        pmLookup r.fromMap kv.1 = some kv.2) ∧
      r.swaps.length ≤ ([(0, 2), (1, 1), (2, 0)] : PMap).length :=
  (changePermutation_adapts true [(0, 0), (1, 1), (2, 2)] [(0, 2), (1, 1), (2, 0)]
    [.init] (by decide) (by decide) (by decide) (by decide) (by decide)
    (by decide) (by decide)).1

/-- Counterexample to C1 as stated: for `from = {0↦0, 1↦1}` and
`to = {0↦5}` the claim's stated precondition holds (both are injective
maps, the key of `to` is a key of `from`, and `|from| ≥ |to|`), but the
goal value `5` occurs nowhere among the values of `from`, so the linear
search leaves its default `j = 0`: the loop emits the degenerate SWAP
`(0, 0)` — whose second component is not a key `q` with `from[q] = goal` —
and terminates with `from[0] = 0 ≠ 5`, so `from` does not agree with `to`
on the keys of `to`. -/
theorem changePermutation_missing_goal_value :
    pmWF [(0, 0), (1, 1)] ∧ pmWF [(0, 5)] ∧
    (pmVals [(0, 0), (1, 1)]).Nodup ∧ (pmVals [(0, 5)]).Nodup ∧
    (∀ kv ∈ ([(0, 5)] : PMap), kv.1 ∈ pmKeys [(0, 0), (1, 1)]) ∧
    ([(0, 5)] : PMap).length ≤ ([(0, 0), (1, 1)] : PMap).length ∧
    changePermutation [(0, 0), (1, 1)] [(0, 5)] [.init] true =
      .ok { fromMap := [(0, 0), (1, 1)], edge := [.swap 0 0, .init]
            swaps := [(0, 0)] } ∧
    pmLookup [(0, 0), (1, 1)] 0 ≠ some 5 :=
  ⟨by decide, by decide, by decide, by decide, by decide, by decide, rfl, by decide⟩


lemma nearbyint_eq_of_close {q : ℚ} {x : ℤ} (h : |q - (x : ℚ)| < 1/2) :
    nearbyint q = x := by
  rw [abs_sub_lt_iff] at h
  unfold nearbyint
  by_cases hx : (x : ℚ) ≤ q
  · have hf : ⌊q⌋ = x := by
      rw [Int.floor_eq_iff]
      exact ⟨hx, by linarith [h.1]⟩
    rw [hf]
    rw [if_pos (by linarith [h.1])]
  · push_neg at hx
    have hf : ⌊q⌋ = x - 1 := by
      rw [Int.floor_eq_iff]
      constructor
      · push_cast; linarith [h.2]
      · push_cast; linarith
    rw [hf]
    rw [if_neg (by push_cast; linarith [h.2]), if_pos (by push_cast; linarith [h.2])]
    omega

/-- C5.  During REAL import, for an `RZ` or `U1` gate line with divisor
`lambda`: when `lambda` is within tolerance of an integer `x`, the emitted
operation is `Z` for `x = ±1`, `S` for `x = 2`, `S†` for `x = -2`, `T` for
`x = 4`, `T†` for `x = -4`; when `lambda` is not within tolerance of any
integer, the emitted operation keeps the `RZ`/`U1` kind and its angle
parameter is `π` divided by `lambda`. -/
theorem readReal_rz_u1_collapse (gate : OpType) (lambda tol : ℚ)
    (htol : tol ≤ 1/2) :
    (∀ x : ℤ, |lambda - (x : ℚ)| < tol →
      ((x = 1 ∨ x = -1) → readRealRZU1 gate lambda tol = .plain .Z) ∧
      (x = 2 → readRealRZU1 gate lambda tol = .plain .S) ∧
      (x = -2 → readRealRZU1 gate lambda tol = .plain .Sdag) ∧
      (x = 4 → readRealRZU1 gate lambda tol = .plain .T) ∧
      (x = -4 → readRealRZU1 gate lambda tol = .plain .Tdag)) ∧
    ((∀ x : ℤ, ¬(|lambda - (x : ℚ)| < tol)) →
      readRealRZU1 gate lambda tol = .withDivisor gate lambda) := by
  constructor
  · intro x hx
    have hnear : nearbyint lambda = x := nearbyint_eq_of_close (lt_of_lt_of_le hx htol)
    have hcond : |lambda - ((nearbyint lambda : ℤ) : ℚ)| < tol := by rw [hnear]; exact hx
    refine ⟨?_, ?_, ?_, ?_, ?_⟩ <;> intro hval
    · rcases hval with h1 | h1 <;>
      · subst h1
        unfold readRealRZU1
        rw [if_pos hcond, if_pos (by rw [hnear]; norm_num)]
    · subst hval
      unfold readRealRZU1
      rw [if_pos hcond, if_neg (by rw [hnear]; norm_num), if_pos (by rw [hnear]; norm_num)]
    · subst hval
      unfold readRealRZU1
      rw [if_pos hcond, if_neg (by rw [hnear]; norm_num),
        if_neg (by rw [hnear]; norm_num), if_pos (by rw [hnear]; norm_num)]
    · subst hval
      unfold readRealRZU1
      rw [if_pos hcond, if_neg (by rw [hnear]; norm_num),
        if_neg (by rw [hnear]; norm_num), if_neg (by rw [hnear]; norm_num),
        if_pos (by rw [hnear]; norm_num)]
    · subst hval
      unfold readRealRZU1
      rw [if_pos hcond, if_neg (by rw [hnear]; norm_num),
        if_neg (by rw [hnear]; norm_num), if_neg (by rw [hnear]; norm_num),
        if_neg (by rw [hnear]; norm_num), if_pos (by rw [hnear]; norm_num)]
  · intro hfar
    unfold readRealRZU1
    rw [if_neg (hfar (nearbyint lambda))]

/-- Witness for `readReal_rz_u1_collapse`: with tolerance `1/100`, the
divisor `2 + 1/1000` is within tolerance of `2` (so an `S` is emitted) and
the divisor `5/2` is not within tolerance of any integer (so an `RZ` with
divisor `5/2` is emitted). -/
theorem readReal_rz_u1_collapse_witness :
    readRealRZU1 .RZ (2 + 1/1000) (1/100) = .plain .S ∧
    readRealRZU1 .RZ (5/2) (1/100) = .withDivisor .RZ (5/2) := by
  constructor
  · exact ((readReal_rz_u1_collapse .RZ (2 + 1/1000) (1/100) (by norm_num)).1 2
      (by rw [abs_sub_lt_iff]; norm_num)).2.1 rfl
  · refine (readReal_rz_u1_collapse .RZ (5/2) (1/100) (by norm_num)).2 ?_
    intro x
    rw [abs_sub_lt_iff]
    push_neg
    intro h1
    by_cases hx : x ≤ 2
    · have : (x : ℚ) ≤ 2 := by exact_mod_cast hx
      linarith
    · push_neg at hx
      have : (3 : ℚ) ≤ (x : ℚ) := by exact_mod_cast hx
      linarith


lemma pmLookup_eq_none {m : PMap} {k : Nat} (h : pmMem m k = false) :
    pmLookup m k = none := by
  unfold pmLookup
  cases hf : m.find? (fun e => e.1 == k) with
  | none => rfl
  | some e =>
    have h1 := List.find?_some hf
    have h2 := List.mem_of_find?_eq_some hf
    have : pmMem m k = true := List.any_eq_true.mpr ⟨e, h2, h1⟩
    rw [this] at h
    cases h

/-- C8.  `stripIdleQubits(force)` visits the physical qubits of
`initialLayout` in descending order; at each visited qubit it does nothing
unless the qubit is idle and either `force` is set or its output mapping
is absent (output indices are unsigned, so "negative" cannot occur), in
which case it removes the qubit via `removeQubit` on its logical index and
then decrements every layout entry strictly greater than the removed
logical index in both maps.  For the circuit `qreg q[3]; h q[0]; h q[2];`,
`stripIdleQubits(force := true)` removes logical qubit 1, leaving
`nqubits = 2` and `initialLayout = {0 ↦ 0, 2 ↦ 1}`. -/
theorem stripIdleQubits_visits_and_strips :
    (∀ (c : Circuit) (force : Bool),
      stripIdleQubits c force =
        ((c.initialLayout.reverse.map (·.1)).foldlM (stripStep force) c).map
          (fun c1 => { c1 with
            ops := c1.ops.map (fun op => op.setNqubits (c1.nqubits + c1.nancillae)) })) ∧
    (∀ (force : Bool) (c : Circuit) (p logical : Nat),
      pmLookup c.initialLayout p = some logical →
      (isIdleQubit c p = false → stripStep force c p = .ok c) ∧
      (isIdleQubit c p = true → force = false → pmMem c.outputPermutation p = true →
        stripStep force c p = .ok c) ∧
      (isIdleQubit c p = true → (force = true ∨ pmMem c.outputPermutation p = false) →
        stripStep force c p = (removeQubit c logical).map (fun cr =>
          if logical < cr.1.nqubits + cr.1.nancillae then
            { cr.1 with
              initialLayout := cr.1.initialLayout.map
                (fun q => if logical < q.2 then (q.1, q.2 - 1) else q)
              outputPermutation := cr.1.outputPermutation.map
                (fun q => if logical < q.2 then (q.1, q.2 - 1) else q) }
          else cr.1))) ∧
    stripIdleQubits stripExampleCircuit true = .ok
      { nqubits := 2
        qregs := [("q_h", (2, 1)), ("q_l", (0, 1))]
        initialLayout := [(0, 0), (2, 1)]
        outputPermutation := [(0, 0), (2, 1)]
        ops := [{ nqubits := 2, controls := [], targets := [0], optype := .H, params := [] },
                { nqubits := 2, controls := [], targets := [2], optype := .H, params := [] }] } := by
  refine ⟨?_, ?_, ?_⟩
  · intro c force
    unfold stripIdleQubits
    cases (c.initialLayout.reverse.map (·.1)).foldlM (stripStep force) c with
    | error e => rfl
    | ok c1 => rfl
  · intro force c p logical hl
    refine ⟨?_, ?_, ?_⟩
    · intro hidle
      unfold stripStep
      rw [hidle]
      rfl
    · intro hidle hforce hmem
      obtain ⟨o, ho⟩ := pmLookup_isSome_of_mem_keys ((pmMem_iff _ _).mp hmem)
      unfold stripStep
      rw [hidle, ho, hforce]
      rfl
    · intro hidle hcond
      unfold stripStep
      rw [hidle]
      have hskip :
          (match pmLookup c.outputPermutation p with
            | some _ => !force
            | none => false) = false := by
        rcases hcond with hf | hm
        · rw [hf]
          cases pmLookup c.outputPermutation p <;> rfl
        · rw [pmLookup_eq_none hm]
      rw [hskip, hl]
      simp only [if_false, Bool.false_eq_true]
      cases removeQubit c logical with
      | error e => rfl
      | ok cr =>
        obtain ⟨c1, r⟩ := cr
        by_cases hlt : logical < c1.nqubits + c1.nancillae <;> simp [Except.map, hlt]
  · rfl

/-- Witness for `stripIdleQubits_visits_and_strips` at the example
circuit: stripping physical qubit 1 (idle, `force` set) removes logical
qubit 1 and renumbers. -/
theorem stripIdleQubits_visits_and_strips_witness :
    stripStep true stripExampleCircuit 1 =
      (removeQubit stripExampleCircuit 1).map (fun cr =>
        if 1 < cr.1.nqubits + cr.1.nancillae then
          { cr.1 with
            initialLayout := cr.1.initialLayout.map
              (fun q => if 1 < q.2 then (q.1, q.2 - 1) else q)
            outputPermutation := cr.1.outputPermutation.map
              (fun q => if 1 < q.2 then (q.1, q.2 - 1) else q) }
        else cr.1) :=
  (stripIdleQubits_visits_and_strips.2.1 true stripExampleCircuit 1 1 rfl).2.2
    rfl (Or.inl rfl)

/- ----------------------------------------------------------------------
Pointwise characterisation of the bitset copy loops.
---------------------------------------------------------------------- -/

lemma bitGet_bitSet (b : Bits) (j : Nat) (v : Bool) (i : Nat) :
    bitGet (bitSet b j v) i = if j = i ∧ j < b.length then v else bitGet b i := by
  unfold bitGet bitSet
  by_cases hji : j = i
  · subst hji
    by_cases hlt : j < b.length
    · simp [List.getD, List.getElem?_set_eq_of_lt _ hlt, hlt]
    · rw [List.set_eq_of_length_le (by omega)]
      simp [hlt]
  · simp [List.getD, List.getElem?_set_ne hji, hji]

lemma length_bitSet (b : Bits) (j : Nat) (v : Bool) :
    (bitSet b j v).length = b.length := List.length_set ..

lemma bitGet_false_of_le_length {b : Bits} {i : Nat} (h : b.length ≤ i) :
    bitGet b i = false := by
  unfold bitGet
  rw [List.getD_eq_default]
  omega

/-- The fold kernel of `shiftDown`, over an explicit iteration count. -/
lemma shiftDown_go (b : Bits) (l : Nat) :
    ∀ n, l + n ≤ b.length →
    ∀ i, bitGet ((List.range n).foldl
        (fun acc k => bitSet acc (l + k) (bitGet acc (l + k + 1))) b) i =
      if l ≤ i ∧ i < l + n then bitGet b (i + 1) else bitGet b i := by
  intro n
  induction n with
  | zero =>
    intro _ i
    rw [show List.range 0 = [] from rfl]
    simp only [List.foldl_nil]
    rw [if_neg (by omega)]
  | succ n ih =>
    intro hn i
    rw [List.range_succ, List.foldl_append]
    set prev := (List.range n).foldl
      (fun acc k => bitSet acc (l + k) (bitGet acc (l + k + 1))) b with hprev
    have hlen : prev.length = b.length := by
      rw [hprev]
      clear hprev ih hn
      induction n with
      | zero => rfl
      | succ n ih2 => rw [List.range_succ, List.foldl_append]; simp [length_bitSet, ih2]
    have ihp := ih (by omega)
    simp only [List.foldl_cons, List.foldl_nil]
    rw [bitGet_bitSet]
    by_cases hi : l + n = i
    · subst hi
      rw [if_pos ⟨rfl, by omega⟩, ihp (l + n + 1), if_neg (by omega),
        if_pos (by omega)]
    · rw [if_neg (by simp [hi]), ihp i]
      by_cases h1 : l ≤ i ∧ i < l + n
      · rw [if_pos h1, if_pos (by omega)]
      · rw [if_neg h1, if_neg (by omega)]

/-- `for (i = l; i < total; ++i) b[i] = b[i+1];` reads each position one
ahead of the write, so the loop shifts the window `[l, total)` down by
one. -/
lemma bitGet_shiftDown (b : Bits) (l total : Nat) (htot : total ≤ b.length)
    (i : Nat) :
    bitGet (shiftDown b l total) i =
      if l ≤ i ∧ i < total then bitGet b (i + 1) else bitGet b i := by
  unfold shiftDown
  by_cases hl : l ≤ total
  · have := shiftDown_go b l (total - l) (by omega) i
    rw [this]
    by_cases h1 : l ≤ i ∧ i < total
    · rw [if_pos (by omega), if_pos h1]
    · rw [if_neg (by omega), if_neg h1]
  · rw [Nat.sub_eq_zero_of_le (by omega)]
    rw [show List.range 0 = [] from rfl]
    simp only [List.foldl_nil]
    rw [if_neg (by omega)]

/-- The fold kernel of `shiftUp`, over an explicit iteration count: step
`k` writes position `total - 1 - k`, reading one position below. -/
lemma shiftUp_go (b : Bits) (total : Nat) (htot : total ≤ b.length) :
    ∀ n, n ≤ total - 1 →
    ∀ i, bitGet ((List.range n).foldl
        (fun acc k => bitSet acc (total - 1 - k) (bitGet acc (total - 1 - k - 1))) b) i =
      if total - n ≤ i ∧ i + 1 ≤ total then bitGet b (i - 1) else bitGet b i := by
  intro n
  induction n with
  | zero =>
    intro _ i
    rw [show List.range 0 = [] from rfl]
    simp only [List.foldl_nil]
    rw [if_neg (by omega)]
  | succ n ih =>
    intro hn i
    rw [List.range_succ, List.foldl_append]
    set prev := (List.range n).foldl
      (fun acc k => bitSet acc (total - 1 - k) (bitGet acc (total - 1 - k - 1))) b with hprev
    have hlen : prev.length = b.length := by
      rw [hprev]
      clear hprev ih hn
      induction n with
      | zero => rfl
      | succ n ih2 => rw [List.range_succ, List.foldl_append]; simp [length_bitSet, ih2]
    have ihp := ih (by omega)
    simp only [List.foldl_cons, List.foldl_nil]
    rw [bitGet_bitSet]
    by_cases hi : total - 1 - n = i
    · rw [if_pos ⟨hi, by omega⟩, ihp (total - 1 - n - 1), if_neg (by omega)]
      subst hi
      rw [if_pos (by omega)]
    · rw [if_neg (by simp [hi]), ihp i]
      by_cases h1 : total - n ≤ i ∧ i + 1 ≤ total
      · rw [if_pos h1, if_pos (by omega)]
      · rw [if_neg h1, if_neg (by omega)]

/-- `for (i = total - 1; i > l; --i) b[i] = b[i-1];` reads each position
one below the write, so the loop shifts the window `(l, total)` up by
one. -/
lemma bitGet_shiftUp (b : Bits) (l total : Nat) (htot : total ≤ b.length)
    (i : Nat) :
    bitGet (shiftUp b l total) i =
      if l + 1 ≤ i ∧ i + 1 ≤ total then bitGet b (i - 1) else bitGet b i := by
  unfold shiftUp
  have := shiftUp_go b total htot (total - 1 - l) (by omega) i
  rw [this]
  by_cases h1 : l + 1 ≤ i ∧ i + 1 ≤ total
  · rw [if_pos (by omega), if_pos h1]
  · rw [if_neg (by omega), if_neg h1]

lemma length_shiftDown (b : Bits) (l total : Nat) :
    (shiftDown b l total).length = b.length := by
  unfold shiftDown
  induction total - l with
  | zero => rfl
  | succ n ih => rw [List.range_succ, List.foldl_append]; simp [length_bitSet, ih]

lemma length_shiftUp (b : Bits) (l total : Nat) :
    (shiftUp b l total).length = b.length := by
  unfold shiftUp
  induction total - 1 - l with
  | zero => rfl
  | succ n ih => rw [List.range_succ, List.foldl_append]; simp [length_bitSet, ih]

/- ----------------------------------------------------------------------
The physical-index search and the register scans of `removeQubit`.
---------------------------------------------------------------------- -/

lemma findPhysical_foldl_const {t : PMap} {l : Nat} (h : ∀ x ∈ t, x.2 ≠ l) :
    ∀ acc, t.foldl (fun acc e => if e.2 = l then e.1 else acc) acc = acc := by
  induction t with
  | nil => intro acc; rfl
  | cons e t ih =>
    intro acc
    rw [List.foldl_cons, if_neg (h e (by simp))]
    exact ih (fun x hx => h x (by simp [hx])) acc

lemma findPhysical_go_mem {t : PMap} {l : Nat} (h : l ∈ pmVals t) :
    ∀ acc, (t.foldl (fun acc e => if e.2 = l then e.1 else acc) acc, l) ∈ t := by
  induction t with
  | nil => simp [pmVals] at h
  | cons e t ih =>
    intro acc
    rw [List.foldl_cons]
    by_cases he : e.2 = l
    · rw [if_pos he]
      by_cases ht : l ∈ pmVals t
      · exact List.mem_cons_of_mem _ (ih ht e.1)
      · have hall : ∀ x ∈ t, x.2 ≠ l := by
          intro x hx hxl
          exact ht (List.mem_map.mpr ⟨x, hx, hxl⟩)
        rw [findPhysical_foldl_const hall]
        exact List.mem_cons.mpr (Or.inl (by rw [← he]))
    · rw [if_neg he]
      have ht : l ∈ pmVals t := by
        rcases List.mem_map.mp h with ⟨x, hx, hxl⟩
        rcases List.mem_cons.mp hx with hx | hx
        · exact absurd (hx ▸ hxl) he
        · exact List.mem_map.mpr ⟨x, hx, hxl⟩
      exact List.mem_cons_of_mem _ (ih ht acc)

/-- The search loop of `removeQubit` lands on an entry of the layout that
holds the requested logical index. -/
lemma findPhysical_mem {m : PMap} {l : Nat} (h : l ∈ pmVals m) :
    (findPhysical m l, l) ∈ m :=
  findPhysical_go_mem h 0

lemma rmNodupb_tail {e : String × (Nat × Nat)} {t : RMap}
    (h : rmNodupb (e :: t) = true) :
    (∀ e2 ∈ t, e2.1 ≠ e.1) ∧ rmNodupb t = true := by
  unfold rmNodupb at h
  simp only [Bool.and_eq_true, List.all_eq_true] at h
  exact ⟨fun e2 he2 heq => by simpa [heq] using h.1 e2 he2, h.2⟩

lemma rmLookup_of_mem {m : RMap} (hN : rmNodupb m = true) {k : String}
    {v : Nat × Nat} (h : (k, v) ∈ m) : rmLookup m k = some v := by
  induction m with
  | nil => simp at h
  | cons e t ih =>
    obtain ⟨hne, ht⟩ := rmNodupb_tail hN
    rcases List.mem_cons.mp h with h | h
    · simp [rmLookup, List.find?, ← h]
    · have hk : e.1 ≠ k := fun heq => hne (k, v) h (by rw [heq])
      have := ih ht h
      unfold rmLookup at this ⊢
      rw [List.find?_cons_of_neg _ (by simp [hk])]
      exact this

lemma rmLookup_eq_none {m : RMap} {k : String} (h : rmMem m k = false) :
    rmLookup m k = none := by
  unfold rmLookup
  cases hf : m.find? (fun e => e.1 == k) with
  | none => rfl
  | some e =>
    have h1 := List.find?_some hf
    have h2 := List.mem_of_find?_eq_some hf
    have : rmMem m k = true := List.any_eq_true.mpr ⟨e, h2, h1⟩
    rw [this] at h
    cases h

lemma find?_eq_none_of_any_eq_false {α : Type} {p : α → Bool} {l : List α}
    (h : l.any p = false) : l.find? p = none := by
  cases hf : l.find? p with
  | none => rfl
  | some e =>
    have h1 := List.find?_some hf
    have h2 := List.mem_of_find?_eq_some hf
    have : l.any p = true := List.any_eq_true.mpr ⟨e, h2, h1⟩
    rw [this] at h
    cases h

lemma any_of_find?_eq_some {α : Type} {p : α → Bool} {l : List α} {e : α}
    (h : l.find? p = some e) : l.any p = true :=
  List.any_eq_true.mpr ⟨e, List.mem_of_find?_eq_some h, List.find?_some h⟩

lemma find?_isSome_of_any {α : Type} {p : α → Bool} {l : List α}
    (h : l.any p = true) : ∃ e, l.find? p = some e := by
  cases hf : l.find? p with
  | none =>
    have hall := List.find?_eq_none.mp hf
    rw [List.any_eq_true] at h
    obtain ⟨e, he, hpe⟩ := h
    exact absurd hpe (by simpa using hall e he)
  | some e => exact ⟨e, rfl⟩

/-- `getQubitRegisterAndIndex` when `p` lies in a quantum register. -/
lemma getQubitRegisterAndIndex_q {c : Circuit} {p : Nat}
    {r : String × (Nat × Nat)} (hq : c.qregs.find? (rangeContains · p) = some r)
    (hnod : rmNodupb c.qregs = true) :
    getQubitRegisterAndIndex c p = .ok (r.1, p - r.2.1) := by
  unfold getQubitRegisterAndIndex getQubitRegister
  rw [hq]
  have hl : rmLookup c.qregs r.1 = some r.2 := by
    apply rmLookup_of_mem hnod
    have := List.mem_of_find?_eq_some hq
    simpa using this
  simp [hl]

/-- `getQubitRegisterAndIndex` when `p` lies in an ancillary register and
in no quantum register, and the found name is not also a quantum-register
name. -/
lemma getQubitRegisterAndIndex_anc {c : Circuit} {p : Nat}
    {ra : String × (Nat × Nat)}
    (hq : c.qregs.find? (rangeContains · p) = none)
    (ha : c.ancregs.find? (rangeContains · p) = some ra)
    (hnodA : rmNodupb c.ancregs = true)
    (hcross : rmMem c.qregs ra.1 = false) :
    getQubitRegisterAndIndex c p = .ok (ra.1, p - ra.2.1) := by
  unfold getQubitRegisterAndIndex getQubitRegister
  rw [hq, ha]
  have h1 : rmLookup c.qregs ra.1 = none := rmLookup_eq_none hcross
  have h2 : rmLookup c.ancregs ra.1 = some ra.2 := by
    apply rmLookup_of_mem hnodA
    have := List.mem_of_find?_eq_some ha
    simpa using this
  simp [h1, h2]

lemma pmErase_eq_self {m : PMap} {k : Nat} (h : pmLookup m k = none) :
    pmErase m k = m := by
  unfold pmErase
  apply List.filter_eq_self.mpr
  intro e he
  simp only [Bool.not_eq_true', beq_eq_false_iff_ne]
  intro hek
  have : pmMem m k = true := List.any_eq_true.mpr ⟨e, he, by simp [hek]⟩
  obtain ⟨v, hv⟩ := pmLookup_isSome_of_mem_keys ((pmMem_iff _ _).mp this)
  rw [h] at hv
  cases hv

lemma bitGet_bitsZero (i : Nat) : bitGet bitsZero i = false := by
  unfold bitGet bitsZero
  by_cases h : i < MAX_QUBITS
  · rw [List.getD_eq_getElem _ _ (by simpa using h)]
    exact List.getElem_replicate ..
  · rw [List.getD_eq_default]
    simpa using h

lemma except_bind_ok {ε α β : Type} (a : α) (f : α → Except ε β) :
    (Except.ok (ε := ε) a >>= f) = f a := rfl

lemma except_bind_error {ε α β : Type} (e : ε) (f : α → Except ε β) :
    (Except.error (α := α) e >>= f) = .error e := rfl

/-- C3.  For every logical qubit index assigned in the circuit,
`removeQubit(logical)` finds the physical index `p` with
`initialLayout[p] = logical`, erases `p` from `initialLayout`, erases `p`
from `outputPermutation` if present and returns the formerly mapped output
index (`none` otherwise) paired with `p`, decrements `nqubits` or
`nancillae` according to whether the removed qubit is ancillary, shifts
the `ancillary` and `garbage` bitsets down by one position for every index
`i ≥ logical`, and clears the old tail bit of each bitset. -/
theorem removeQubit_spec (c : Circuit) (logical p : Nat)
    (hp : findPhysical c.initialLayout logical = p)
    (hWFl : pmWF c.initialLayout)
    (hassigned : logical ∈ pmVals c.initialLayout)
    (hnodq : rmNodupb c.qregs = true)
    (hnoda : rmNodupb c.ancregs = true)
    (hcov : (c.qregs.any (rangeContains · p) || c.ancregs.any (rangeContains · p)) = true)
    (hdisj : ¬(c.qregs.any (rangeContains · p) = true ∧
               c.ancregs.any (rangeContains · p) = true))
    (hnames : ∀ r ∈ c.ancregs, rmMem c.qregs r.1 = false)
    (hq1 : physicalQubitIsAncillary c p = false → 0 < c.nqubits)
    (ha1 : physicalQubitIsAncillary c p = true → 0 < c.nancillae)
    (hlen1 : c.ancillary.length = MAX_QUBITS)
    (hlen2 : c.garbage.length = MAX_QUBITS)
    (htot : c.nqubits + c.nancillae ≤ MAX_QUBITS)
    (h0 : 0 < c.nqubits + c.nancillae)
    (hbits : ∀ i, c.nqubits + c.nancillae ≤ i →
      bitGet c.ancillary i = false ∧ bitGet c.garbage i = false) :
    ∃ c' out,
      removeQubit c logical = .ok (c', (p, out)) ∧
      pmLookup c.initialLayout p = some logical ∧
      c'.initialLayout = pmErase c.initialLayout p ∧
      out = pmLookup c.outputPermutation p ∧
      c'.outputPermutation = pmErase c.outputPermutation p ∧
      (physicalQubitIsAncillary c p = true →
        c'.nancillae = c.nancillae - 1 ∧ c'.nqubits = c.nqubits) ∧
      (physicalQubitIsAncillary c p = false →
        c'.nqubits = c.nqubits - 1 ∧ c'.nancillae = c.nancillae) ∧
      c'.nqubits + c'.nancillae = c.nqubits + c.nancillae - 1 ∧
      (∀ i, logical ≤ i →
        bitGet c'.ancillary i = bitGet c.ancillary (i + 1) ∧
        bitGet c'.garbage i = bitGet c.garbage (i + 1)) ∧
      bitGet c'.ancillary (c'.nqubits + c'.nancillae) = false ∧
      bitGet c'.garbage (c'.nqubits + c'.nancillae) = false := by
  have hmem : (p, logical) ∈ c.initialLayout := hp ▸ findPhysical_mem hassigned
  have hlk : pmLookup c.initialLayout p = some logical :=
    pmLookup_of_mem (pmWF_nodup_keys hWFl) hmem
  -- determine the branch taken and the register found
  cases hanc : physicalQubitIsAncillary c p with
  | false =>
    have hancany : c.ancregs.any (rangeContains · p) = false := hanc
    have hqany : c.qregs.any (rangeContains · p) = true := by
      cases hq : c.qregs.any (rangeContains · p)
      · rw [hq, hancany] at hcov
        cases hcov
      · rfl
    obtain ⟨r, hr⟩ := find?_isSome_of_any hqany
    have hreg := getQubitRegisterAndIndex_q hr hnodq
    have hrlk : rmLookup c.qregs r.1 = some r.2 :=
      rmLookup_of_mem hnodq (by simpa using List.mem_of_find?_eq_some hr)
    have hguard : c.nqubits - 1 + c.nancillae < MAX_QUBITS := by
      have := hq1 hanc
      omega
    have hrun : removeQubit c logical = .ok
        ({ c with
            qregs := removeFromRegs c.qregs r.1 (p - r.2.1) r.2.1 r.2.2
            nqubits := c.nqubits - 1
            initialLayout := pmErase c.initialLayout p
            outputPermutation :=
              match pmLookup c.outputPermutation p with
              | some _ => pmErase c.outputPermutation p
              | none => c.outputPermutation
            ops := c.ops.map (fun op => op.setNqubits (c.nqubits - 1 + c.nancillae))
            ancillary := bitReset (shiftDown c.ancillary logical (c.nqubits - 1 + c.nancillae))
              (c.nqubits - 1 + c.nancillae)
            garbage := bitReset (shiftDown c.garbage logical (c.nqubits - 1 + c.nancillae))
              (c.nqubits - 1 + c.nancillae) },
          (p, pmLookup c.outputPermutation p)) := by
      unfold removeQubit
      rw [hp]
      cases hout : pmLookup c.outputPermutation p with
      | none => simp [hreg, hanc, hrlk, hout, hguard, except_bind_ok]
      | some o => simp [hreg, hanc, hrlk, hout, hguard, except_bind_ok]
    refine ⟨_, _, hrun, hlk, rfl, rfl, ?_, ?_, ?_, ?_, ?_, ?_, ?_⟩
    · cases hout : pmLookup c.outputPermutation p with
      | none => simp [hout, pmErase_eq_self hout]
      | some o => simp [hout]
    · intro hc
      cases hc
    · intro _
      constructor <;> rfl
    · have := hq1 hanc
      simp only
      omega
    · intro i hi
      have hn := hq1 hanc
      constructor <;>
      · unfold bitReset
        rw [bitGet_bitSet, bitGet_shiftDown _ _ _ (by omega)]
        rw [length_shiftDown]
        by_cases hcase : c.nqubits - 1 + c.nancillae = i
        · rw [if_pos ⟨hcase, by omega⟩]
          have := (hbits (i + 1) (by omega)).1
          have := (hbits (i + 1) (by omega)).2
          simp_all
        · rw [if_neg (by simp [hcase])]
          by_cases hlt : i < c.nqubits - 1 + c.nancillae
          · rw [if_pos ⟨hi, hlt⟩]
          · rw [if_neg (by omega)]
            have h1 := hbits i (by omega)
            have h2 := hbits (i + 1) (by omega)
            simp_all
    · simp only
      unfold bitReset
      rw [bitGet_bitSet, if_pos ⟨rfl, by rw [length_shiftDown]; omega⟩]
    · simp only
      unfold bitReset
      rw [bitGet_bitSet, if_pos ⟨rfl, by rw [length_shiftDown]; omega⟩]
  | true =>
    have hancany : c.ancregs.any (rangeContains · p) = true := hanc
    have hqany : c.qregs.any (rangeContains · p) = false := by
      cases hq : c.qregs.any (rangeContains · p)
      · rfl
      · exact absurd ⟨hq, hancany⟩ hdisj
    obtain ⟨ra, hra⟩ := find?_isSome_of_any hancany
    have hreg := getQubitRegisterAndIndex_anc (find?_eq_none_of_any_eq_false hqany)
      hra hnoda (hnames ra (List.mem_of_find?_eq_some hra))
    have hrlk : rmLookup c.ancregs ra.1 = some ra.2 :=
      rmLookup_of_mem hnoda (by simpa using List.mem_of_find?_eq_some hra)
    have hguard : c.nqubits + (c.nancillae - 1) < MAX_QUBITS := by
      have := ha1 hanc
      omega
    have hrun : removeQubit c logical = .ok
        ({ c with
            ancregs := removeFromRegs c.ancregs ra.1 (p - ra.2.1) ra.2.1 ra.2.2
            nancillae := c.nancillae - 1
            initialLayout := pmErase c.initialLayout p
            outputPermutation :=
              match pmLookup c.outputPermutation p with
              | some _ => pmErase c.outputPermutation p
              | none => c.outputPermutation
            ops := c.ops.map (fun op => op.setNqubits (c.nqubits + (c.nancillae - 1)))
            ancillary := bitReset (shiftDown c.ancillary logical (c.nqubits + (c.nancillae - 1)))
              (c.nqubits + (c.nancillae - 1))
            garbage := bitReset (shiftDown c.garbage logical (c.nqubits + (c.nancillae - 1)))
              (c.nqubits + (c.nancillae - 1)) },
          (p, pmLookup c.outputPermutation p)) := by
      unfold removeQubit
      rw [hp]
      cases hout : pmLookup c.outputPermutation p with
      | none => simp [hreg, hanc, hrlk, hout, hguard, except_bind_ok]
      | some o => simp [hreg, hanc, hrlk, hout, hguard, except_bind_ok]
    refine ⟨_, _, hrun, hlk, rfl, rfl, ?_, ?_, ?_, ?_, ?_, ?_, ?_⟩
    · cases hout : pmLookup c.outputPermutation p with
      | none => simp [hout, pmErase_eq_self hout]
      | some o => simp [hout]
    · intro _
      constructor <;> rfl
    · intro hc
      cases hc
    · have := ha1 hanc
      simp only
      omega
    · intro i hi
      have hn := ha1 hanc
      constructor <;>
      · unfold bitReset
        rw [bitGet_bitSet, bitGet_shiftDown _ _ _ (by omega)]
        rw [length_shiftDown]
        by_cases hcase : c.nqubits + (c.nancillae - 1) = i
        · rw [if_pos ⟨hcase, by omega⟩]
          have := (hbits (i + 1) (by omega)).1
          have := (hbits (i + 1) (by omega)).2
          simp_all
        · rw [if_neg (by simp [hcase])]
          by_cases hlt : i < c.nqubits + (c.nancillae - 1)
          · rw [if_pos ⟨hi, hlt⟩]
          · rw [if_neg (by omega)]
            have h1 := hbits i (by omega)
            have h2 := hbits (i + 1) (by omega)
            simp_all
    · simp only
      unfold bitReset
      rw [bitGet_bitSet, if_pos ⟨rfl, by rw [length_shiftDown]; omega⟩]
    · simp only
      unfold bitReset
      rw [bitGet_bitSet, if_pos ⟨rfl, by rw [length_shiftDown]; omega⟩]

/-- Witness for `removeQubit_spec`: removing logical qubit 1 from the
three-qubit example circuit. -/
theorem removeQubit_spec_witness :
    ∃ c' out,
      removeQubit stripExampleCircuit 1 = .ok (c', (1, out)) ∧
      pmLookup stripExampleCircuit.initialLayout 1 = some 1 ∧
      c'.initialLayout = pmErase stripExampleCircuit.initialLayout 1 ∧
      out = pmLookup stripExampleCircuit.outputPermutation 1 ∧
      c'.outputPermutation = pmErase stripExampleCircuit.outputPermutation 1 ∧
      (physicalQubitIsAncillary stripExampleCircuit 1 = true →
        c'.nancillae = stripExampleCircuit.nancillae - 1 ∧
        c'.nqubits = stripExampleCircuit.nqubits) ∧
      (physicalQubitIsAncillary stripExampleCircuit 1 = false →
        c'.nqubits = stripExampleCircuit.nqubits - 1 ∧
        c'.nancillae = stripExampleCircuit.nancillae) ∧
      c'.nqubits + c'.nancillae =
        stripExampleCircuit.nqubits + stripExampleCircuit.nancillae - 1 ∧
      (∀ i, 1 ≤ i →
        bitGet c'.ancillary i = bitGet stripExampleCircuit.ancillary (i + 1) ∧
        bitGet c'.garbage i = bitGet stripExampleCircuit.garbage (i + 1)) ∧
      bitGet c'.ancillary (c'.nqubits + c'.nancillae) = false ∧
      bitGet c'.garbage (c'.nqubits + c'.nancillae) = false :=
  removeQubit_spec stripExampleCircuit 1 1 rfl (by decide) (by decide) (by decide)
    (by decide) (by decide) (by decide) (by decide)
    (fun _ => by decide) (fun h => absurd h (by decide))
    rfl rfl (by decide) (by decide)
    (fun i _ => ⟨bitGet_bitsZero i, bitGet_bitsZero i⟩)

lemma pmMem_cons (e : Nat × Nat) (t : PMap) (k : Nat) :
    pmMem (e :: t) k = ((e.1 == k) || pmMem t k) := by
  unfold pmMem
  rw [List.any_cons]

lemma pmLookup_pmInsert_self {m : PMap} {k : Nat} (h : pmMem m k = false)
    (v : Nat) : pmLookup (pmInsert m k v) k = some v := by
  induction m with
  | nil => simp [pmInsert, pmLookup, List.find?]
  | cons e t ih =>
    rw [pmMem_cons] at h
    simp only [Bool.or_eq_false_iff, beq_eq_false_iff_ne] at h
    unfold pmInsert
    by_cases h1 : k < e.1
    · simp [h1, pmLookup, List.find?]
    · rw [if_neg h1, if_neg (fun heq => h.1 heq.symm)]
      unfold pmLookup at ih ⊢
      rw [List.find?_cons_of_neg _ (by simp [h.1])]
      exact ih h.2

lemma pmLookup_pmInsert_ne {m : PMap} {k k' : Nat} (h : k' ≠ k) (v : Nat) :
    pmLookup (pmInsert m k v) k' = pmLookup m k' := by
  induction m with
  | nil => simp [pmInsert, pmLookup, List.find?, show (k == k') = false from by simp [Ne.symm h]]
  | cons e t ih =>
    unfold pmInsert
    by_cases h1 : k < e.1
    · rw [if_pos h1]
      unfold pmLookup
      rw [List.find?_cons_of_neg _ (by simp [Ne.symm h])]
    · rw [if_neg h1]
      by_cases h2 : k = e.1
      · rw [if_pos h2]
      · rw [if_neg h2]
        by_cases h3 : e.1 = k'
        · unfold pmLookup
          rw [List.find?_cons_of_pos _ (by simp [h3]),
            List.find?_cons_of_pos _ (by simp [h3])]
        · unfold pmLookup at ih ⊢
          rw [List.find?_cons_of_neg _ (by simp [h3]),
            List.find?_cons_of_neg _ (by simp [h3])]
          exact ih

lemma pmMem_pmInsert_ne {m : PMap} {k k' : Nat} (h : k' ≠ k) (v : Nat) :
    pmMem (pmInsert m k v) k' = pmMem m k' := by
  induction m with
  | nil => simp [pmInsert, pmMem, Ne.symm h]
  | cons e t ih =>
    unfold pmInsert
    by_cases h1 : k < e.1
    · rw [if_pos h1, pmMem_cons (k, v) (e :: t)]
      simp [show (k == k') = false from by simp [Ne.symm h]]
    · rw [if_neg h1]
      by_cases h2 : k = e.1
      · rw [if_pos h2]
      · rw [if_neg h2, pmMem_cons, pmMem_cons, ih]

lemma foldl_pair {α β γ : Type} (f : α → γ → α) (g : β → γ → β)
    (l : List γ) (a : α) (b : β) :
    l.foldl (fun p c => (f p.1 c, g p.2 c)) (a, b) = (l.foldl f a, l.foldl g b) := by
  induction l generalizing a b with
  | nil => rfl
  | cons x t ih => simp only [List.foldl_cons]; exact ih (f a x) (g b x)

lemma identityFold_mem (base : Nat) (m : PMap) (k : Nat) :
    ∀ nq, (∀ j < nq, base + j ≠ k) →
    pmMem ((List.range nq).foldl (fun acc j => pmInsert acc (base + j) (base + j)) m) k
      = pmMem m k := by
  intro nq
  induction nq with
  | zero => intro _; rfl
  | succ n ih =>
    intro hne
    rw [List.range_succ, List.foldl_append]
    simp only [List.foldl_cons, List.foldl_nil]
    rw [pmMem_pmInsert_ne (fun heq => hne n (by omega) heq.symm)]
    exact ih (fun j hj => hne j (by omega))

/-- The identity-entry insertion loop of `addQubitRegister`: after the
loop every fresh index `base + i`, `i < nq`, maps to itself. -/
lemma identityFold_lookup (base : Nat) (m : PMap)
    (hfresh : ∀ i, pmMem m (base + i) = false) :
    ∀ nq, ∀ i < nq,
    pmLookup ((List.range nq).foldl (fun acc j => pmInsert acc (base + j) (base + j)) m)
      (base + i) = some (base + i) := by
  intro nq
  induction nq with
  | zero => intro i hi; omega
  | succ n ih =>
    intro i hi
    rw [List.range_succ, List.foldl_append]
    simp only [List.foldl_cons, List.foldl_nil]
    by_cases hin : i = n
    · subst hin
      rw [pmLookup_pmInsert_self]
      rw [identityFold_mem base m (base + i) i (fun j hj heq => by omega)]
      exact hfresh i
    · rw [pmLookup_pmInsert_ne (fun heq => hin (by omega))]
      exact ih i (by omega)

/-- C7 (amended).  `addQubitRegister(n, name)` appends a new
`(nqubits, n)` block when no quantum register of that name exists; when a
register of that name exists it is extended by `n` only if its tail
coincides with the current end of qubits, and the call fails otherwise;
identity entries for the new physical indices are inserted into both
layout maps; and whenever ancillae already exist the call fails — with
`AncillaePresent` unless the capacity check or the augment-tail check
fails first. -/
theorem addQubitRegister_spec (c : Circuit) (nq : Nat) (name : String)
    (hcap : c.nqubits + c.nancillae + nq ≤ MAXN) :
    (rmMem c.qregs name = false → c.nancillae = 0 →
      (∀ i, pmMem c.initialLayout (c.nqubits + i) = false ∧
            pmMem c.outputPermutation (c.nqubits + i) = false) →
      ∃ c', addQubitRegister c nq name = .ok c' ∧
        c'.qregs = rmInsert c.qregs name (c.nqubits, nq) ∧
        c'.nqubits = c.nqubits + nq ∧ c'.nancillae = 0 ∧
        (∀ i < nq, pmLookup c'.initialLayout (c.nqubits + i) = some (c.nqubits + i) ∧
          pmLookup c'.outputPermutation (c.nqubits + i) = some (c.nqubits + i))) ∧
    (∀ st cnt, rmLookup c.qregs name = some (st, cnt) →
      (st + cnt = c.nqubits + c.nancillae → c.nancillae = 0 →
        (∀ i, pmMem c.initialLayout (c.nqubits + i) = false ∧
              pmMem c.outputPermutation (c.nqubits + i) = false) →
        ∃ c', addQubitRegister c nq name = .ok c' ∧
          c'.qregs = rmSet c.qregs name (st, cnt + nq) ∧
          c'.nqubits = c.nqubits + nq ∧
          (∀ i < nq, pmLookup c'.initialLayout (c.nqubits + i) = some (c.nqubits + i) ∧
            pmLookup c'.outputPermutation (c.nqubits + i) = some (c.nqubits + i))) ∧
      (st + cnt ≠ c.nqubits + c.nancillae →
        addQubitRegister c nq name = .error .augmentNotLast)) ∧
    (c.nancillae ≠ 0 →
      (∃ e, addQubitRegister c nq name = .error e) ∧
      ((rmMem c.qregs name = false ∨
        (∃ st cnt, rmLookup c.qregs name = some (st, cnt) ∧
          st + cnt = c.nqubits + c.nancillae)) →
        addQubitRegister c nq name = .error .ancillaePresent)) := by
  refine ⟨?_, ?_, ?_⟩
  · intro hmem hanc0 hfresh
    have hlk := rmLookup_eq_none hmem
    have hrun : addQubitRegister c nq name = .ok
        { c with qregs := rmInsert c.qregs name (c.nqubits, nq)
                 nqubits := c.nqubits + nq
                 initialLayout := (List.range nq).foldl
                   (fun acc j => pmInsert acc (c.nqubits + j) (c.nqubits + j)) c.initialLayout
                 outputPermutation := (List.range nq).foldl
                   (fun acc j => pmInsert acc (c.nqubits + j) (c.nqubits + j)) c.outputPermutation
                 ops := c.ops.map (fun op => op.setNqubits (c.nqubits + nq + c.nancillae)) } := by
      unfold addQubitRegister
      rw [if_neg (by omega), hlk]
      simp only [except_bind_ok, hanc0, ne_eq, not_true_eq_false, if_false, reduceIte]
      rw [foldl_pair (fun m j => pmInsert m (c.nqubits + j) (c.nqubits + j))
        (fun m j => pmInsert m (c.nqubits + j) (c.nqubits + j))]
    refine ⟨_, hrun, rfl, rfl, hanc0, ?_⟩
    intro i hi
    exact ⟨identityFold_lookup c.nqubits c.initialLayout (fun j => (hfresh j).1) nq i hi,
      identityFold_lookup c.nqubits c.outputPermutation (fun j => (hfresh j).2) nq i hi⟩
  · intro st cnt hlk
    refine ⟨?_, ?_⟩
    · intro htail hanc0 hfresh
      have hrun : addQubitRegister c nq name = .ok
          { c with qregs := rmSet c.qregs name (st, cnt + nq)
                   nqubits := c.nqubits + nq
                   initialLayout := (List.range nq).foldl
                     (fun acc j => pmInsert acc (c.nqubits + j) (c.nqubits + j)) c.initialLayout
                   outputPermutation := (List.range nq).foldl
                     (fun acc j => pmInsert acc (c.nqubits + j) (c.nqubits + j)) c.outputPermutation
                   ops := c.ops.map (fun op => op.setNqubits (c.nqubits + nq + c.nancillae)) } := by
        unfold addQubitRegister
        rw [if_neg (by omega), hlk]
        simp only [htail, if_pos rfl, except_bind_ok, hanc0, ne_eq,
          not_true_eq_false, if_false, reduceIte]
        rw [foldl_pair (fun m j => pmInsert m (c.nqubits + j) (c.nqubits + j))
          (fun m j => pmInsert m (c.nqubits + j) (c.nqubits + j))]
      refine ⟨_, hrun, rfl, rfl, ?_⟩
      intro i hi
      exact ⟨identityFold_lookup c.nqubits c.initialLayout (fun j => (hfresh j).1) nq i hi,
        identityFold_lookup c.nqubits c.outputPermutation (fun j => (hfresh j).2) nq i hi⟩
    · intro htail
      unfold addQubitRegister
      rw [if_neg (by omega), hlk]
      simp only [if_neg htail]
      rfl
  · intro hanc
    constructor
    · cases hq : rmLookup c.qregs name with
      | none =>
        refine ⟨.ancillaePresent, ?_⟩
        unfold addQubitRegister
        rw [if_neg (by omega), hq]
        simp [except_bind_ok, hanc]
      | some r =>
        obtain ⟨st, cnt⟩ := r
        by_cases htail : st + cnt = c.nqubits + c.nancillae
        · refine ⟨.ancillaePresent, ?_⟩
          unfold addQubitRegister
          rw [if_neg (by omega), hq]
          simp [htail, except_bind_ok, hanc]
        · refine ⟨.augmentNotLast, ?_⟩
          unfold addQubitRegister
          rw [if_neg (by omega), hq]
          simp [htail, except_bind_ok, except_bind_error]
    · intro hcase
      rcases hcase with hmem | ⟨st, cnt, hlk, htail⟩
      · unfold addQubitRegister
        rw [if_neg (by omega), rmLookup_eq_none hmem]
        simp [except_bind_ok, hanc]
      · unfold addQubitRegister
        rw [if_neg (by omega), hlk]
        simp [htail, except_bind_ok, hanc]

/-- Witness for `addQubitRegister_spec`: appending a fresh two-qubit
register `r` to the three-qubit example circuit. -/
theorem addQubitRegister_spec_witness :
    ∃ c', addQubitRegister stripExampleCircuit 2 "r" = .ok c' ∧
      c'.qregs = rmInsert stripExampleCircuit.qregs "r" (stripExampleCircuit.nqubits, 2) ∧
      c'.nqubits = stripExampleCircuit.nqubits + 2 ∧ c'.nancillae = 0 ∧
      (∀ i < 2,
        pmLookup c'.initialLayout (stripExampleCircuit.nqubits + i) =
          some (stripExampleCircuit.nqubits + i) ∧
        pmLookup c'.outputPermutation (stripExampleCircuit.nqubits + i) =
          some (stripExampleCircuit.nqubits + i)) :=
  (addQubitRegister_spec stripExampleCircuit 2 "r" (by decide)).1 (by decide) rfl
    (fun i => ⟨by simp [pmMem, stripExampleCircuit]; omega,
      by simp [pmMem, stripExampleCircuit]; omega⟩)

/-- Counterexample to C7 as stated: the claim says the call fails with an
`AncillaePresent` error whenever ancillae exist, but when the named
register also fails the augment-tail check, that check throws first: on a
circuit with one ancilla, augmenting register `q` (whose tail `1` is not
the end of qubits `2`) fails with the augment error, not with
`AncillaePresent`. -/
theorem addQubitRegister_counterexample :
    ancillaeExampleCircuit.nancillae ≠ 0 ∧
    addQubitRegister ancillaeExampleCircuit 1 "q" = .error .augmentNotLast ∧
    QCErr.augmentNotLast ≠ QCErr.ancillaePresent :=
  ⟨by decide, rfl, by decide⟩

lemma pmInsert_append_of_lt {m : PMap} {k : Nat} (h : ∀ e ∈ m, e.1 < k)
    (v : Nat) : pmInsert m k v = m ++ [(k, v)] := by
  induction m with
  | nil => rfl
  | cons e t ih =>
    have he := h e (by simp)
    unfold pmInsert
    rw [if_neg (by omega), if_neg (by omega)]
    rw [ih (fun x hx => h x (by simp [hx]))]
    rfl

lemma idPMap_keys_lt {n : Nat} {e : Nat × Nat} (h : e ∈ idPMap n) : e.1 < n := by
  unfold idPMap at h
  obtain ⟨i, hi, rfl⟩ := List.mem_map.mp h
  simpa using List.mem_range.mp hi

lemma idFold_eq (n : Nat) :
    (List.range n).foldl (fun m i => pmInsert m i i) [] = idPMap n := by
  induction n with
  | zero => rfl
  | succ n ih =>
    rw [List.range_succ, List.foldl_append]
    simp only [List.foldl_cons, List.foldl_nil]
    rw [ih, pmInsert_append_of_lt (fun e he => idPMap_keys_lt he)]
    unfold idPMap
    rw [List.range_succ, List.map_append]
    rfl

lemma idPMap_lookup {n i : Nat} (h : i < n) : pmLookup (idPMap n) i = some i := by
  apply pmLookup_of_mem
  · unfold idPMap pmKeys
    rw [List.map_map]
    have : ((fun e => e.1) ∘ fun i => ((i, i) : Nat × Nat)) = id := rfl
    rw [this, List.map_id]
    exact List.nodup_range n
  · exact List.mem_map.mpr ⟨i, List.mem_range.mpr h, rfl⟩

lemma grcsFold_layouts (n : Nat) :
    ∀ (lines : List GRCSLine) (c : Circuit) (c1 : Circuit),
    lines.foldlM (grcsStep n) c = .ok c1 →
    c1.initialLayout = c.initialLayout ∧ c1.outputPermutation = c.outputPermutation := by
  intro lines
  induction lines with
  | nil =>
    intro c c1 h
    cases h
    exact ⟨rfl, rfl⟩
  | cons line t ih =>
    intro c c1 h
    rw [List.foldlM_cons] at h
    cases line with
    | cz cy ctrl tgt =>
      simp only [grcsStep, except_bind_ok] at h
      obtain ⟨ha, hb⟩ := ih _ _ h
      exact ⟨ha, hb⟩
    | unary cy name tgt =>
      simp only [grcsStep] at h
      by_cases h1 : name = "h"
      · rw [if_pos h1, except_bind_ok] at h
        obtain ⟨ha, hb⟩ := ih _ _ h
        exact ⟨ha, hb⟩
      · rw [if_neg h1] at h
        by_cases h2 : name = "t"
        · rw [if_pos h2, except_bind_ok] at h
          obtain ⟨ha, hb⟩ := ih _ _ h
          exact ⟨ha, hb⟩
        · rw [if_neg h2] at h
          by_cases h3 : name = "x_1_2"
          · rw [if_pos h3, except_bind_ok] at h
            obtain ⟨ha, hb⟩ := ih _ _ h
            exact ⟨ha, hb⟩
          · rw [if_neg h3] at h
            by_cases h4 : name = "y_1_2"
            · rw [if_pos h4, except_bind_ok] at h
              obtain ⟨ha, hb⟩ := ih _ _ h
              exact ⟨ha, hb⟩
            · rw [if_neg h4, except_bind_error] at h
              cases h

lemma fallbackFold (c0 : Circuit) (hL : c0.initialLayout = [])
    (hO : c0.outputPermutation = []) :
    ∀ n, ((List.range n).foldl fallbackStep c0).ops = c0.ops ∧
      ((List.range n).foldl fallbackStep c0).initialLayout = idPMap n ∧
      ((List.range n).foldl fallbackStep c0).outputPermutation =
        ((List.range n).filter (fun i => !isIdleQubit c0 i)).map (fun i => (i, i)) := by
  intro n
  induction n with
  | zero =>
    refine ⟨rfl, ?_, ?_⟩
    · rw [show List.range 0 = [] from rfl]
      simpa [idPMap] using hL
    · rw [show List.range 0 = [] from rfl]
      simpa using hO
  | succ n ih =>
    obtain ⟨hops, hlay, hout⟩ := ih
    rw [List.range_succ, List.foldl_append]
    simp only [List.foldl_cons, List.foldl_nil]
    set r := (List.range n).foldl fallbackStep c0 with hr
    have hidle : isIdleQubit r n = isIdleQubit c0 n := by
      unfold isIdleQubit
      rw [hops]
    refine ⟨hops, ?_, ?_⟩
    · show pmInsert r.initialLayout n n = _
      rw [hlay, pmInsert_append_of_lt (fun e he => idPMap_keys_lt he)]
      unfold idPMap
      rw [List.range_succ, List.map_append]
      rfl
    · show (if isIdleQubit r n then r.outputPermutation
            else pmInsert r.outputPermutation n n) = _
      rw [hidle, List.filter_append, List.map_append]
      cases hcase : isIdleQubit c0 n with
      | true =>
        rw [if_pos rfl, hout]
        simp [hcase]
      | false =>
        rw [if_neg (by simp [hcase]), hout]
        rw [pmInsert_append_of_lt]
        · simp [hcase]
        · intro e he
          obtain ⟨i, hi, rfl⟩ := List.mem_map.mp he
          have := List.mem_range.mp (List.mem_of_mem_filter hi)
          simpa using this

/-- C10.  After a successful GRCS import of an `n`-qubit input,
`initialLayout` and `outputPermutation` are both exactly the identity map
on physical indices `0 … n-1`, including indices on which no operation
acts; in contrast, the OpenQASM import fallback installs the identity
`initialLayout` but omits idle qubits from `outputPermutation`. -/
theorem importGRCS_identity_layouts :
    (∀ (n : Nat) (lines : List GRCSLine) (c' : Circuit),
      importGRCS n lines = .ok c' →
      c'.initialLayout = idPMap n ∧ c'.outputPermutation = idPMap n ∧
      (∀ i < n, pmLookup c'.initialLayout i = some i ∧
        pmLookup c'.outputPermutation i = some i)) ∧
    (∀ c : Circuit, c.initialLayout = [] → c.outputPermutation = [] →
      (openQASMLayoutFallback c).initialLayout = idPMap c.nqubits ∧
      (openQASMLayoutFallback c).outputPermutation =
        ((List.range c.nqubits).filter (fun i => !isIdleQubit c i)).map
          (fun i => (i, i))) ∧
    (∃ c', importGRCS 2 [.unary 0 "h" 0] = .ok c' ∧
      pmMem c'.outputPermutation 1 = true) ∧
    pmMem (openQASMLayoutFallback fallbackExampleCircuit).outputPermutation 1 = false := by
  refine ⟨?_, ?_, ?_, ?_⟩
  · intro n lines c' h
    unfold importGRCS at h
    cases hf : lines.foldlM (grcsStep n) { resetCircuit with nqubits := n } with
    | error e =>
      rw [hf, except_bind_error] at h
      cases h
    | ok c1 =>
      rw [hf, except_bind_ok] at h
      obtain ⟨h1, h2⟩ := grcsFold_layouts n lines _ c1 hf
      cases h
      have hL : c1.initialLayout = [] := h1
      have hO : c1.outputPermutation = [] := h2
      rw [hL, hO]
      refine ⟨by simp [idFold_eq], by simp [idFold_eq], ?_⟩
      intro i hi
      simp only [idFold_eq]
      exact ⟨idPMap_lookup hi, idPMap_lookup hi⟩
  · intro c hL hO
    unfold openQASMLayoutFallback
    exact ⟨(fallbackFold c hL hO c.nqubits).2.1, (fallbackFold c hL hO c.nqubits).2.2⟩
  · exact ⟨_, rfl, rfl⟩
  · rfl

/-- Witness for `importGRCS_identity_layouts`: the two-qubit GRCS input
with a single `h 0` yields identity layouts on both qubits. -/
theorem importGRCS_identity_layouts_witness :
    ({ resetCircuit with
        nqubits := 2
        initialLayout := [(0, 0), (1, 1)]
        outputPermutation := [(0, 0), (1, 1)]
        ops := [{ nqubits := 2, controls := [], targets := [0]
                  optype := .H, params := [] }] } : Circuit).initialLayout = idPMap 2 ∧
    ({ resetCircuit with
        nqubits := 2
        initialLayout := [(0, 0), (1, 1)]
        outputPermutation := [(0, 0), (1, 1)]
        ops := [{ nqubits := 2, controls := [], targets := [0]
                  optype := .H, params := [] }] } : Circuit).outputPermutation = idPMap 2 :=
  ⟨(importGRCS_identity_layouts.1 2 [.unary 0 "h" 0] _ rfl).1,
   (importGRCS_identity_layouts.1 2 [.unary 0 "h" 0] _ rfl).2.1⟩

/- ----------------------------------------------------------------------
C6: state left behind by a failing import.
---------------------------------------------------------------------- -/

/-- C6 (counterexample): an import CAN fail fatally without leaving the
circuit in its pre-import reset state.  Importing the REAL input
`.numvars 2 / .variables a b / .foo x` aborts on the unknown command
`.foo`, yet the circuit at that point — the state the caller's object
is left in, since the C++ exception does not undo the mutations —
carries `nqubits = 2`, registers `a` and `b`, classical registers and
identity layout entries, and differs from the reset state. -/
theorem importReal_partial_state_persists :
    importRealHeader { nqubits := 7 } realBadInput 20 =
      .error (.realUnknownCommand, realBadState) ∧
    realBadState ≠ resetCircuit := by
  exact ⟨rfl, by decide⟩

/-- C6 (amended): `import` resets the circuit before dispatching to the
format importer, so nothing of the pre-import state is visible — the
outcome is a function of the input stream alone; but a fatal error does
not restore the reset state: the circuit keeps the partial registers,
layouts and counts built from the consumed input at the throw.  On
`realBadInput` the failure carries `nqubits = 2`, quantum registers `a`
and `b`, and a nonempty initial layout. -/
theorem import_resets_but_error_state_persists :
    (∀ (c c' : Circuit) (s : List Char) (fuel : Nat),
        importRealHeader c s fuel = importRealHeader c' s fuel) ∧
    importRealHeader resetCircuit realBadInput 20 =
      .error (.realUnknownCommand, realBadState) ∧
    realBadState.nqubits = 2 ∧
    realBadState.qregs = [("a", (0, 1)), ("b", (1, 1))] ∧
    realBadState.initialLayout ≠ resetCircuit.initialLayout := by
  refine ⟨fun c c' s fuel => rfl, rfl, rfl, rfl, by decide⟩

/- ----------------------------------------------------------------------
C4: the addQubit/removeQubit round trip.
---------------------------------------------------------------------- -/

lemma consolidatePass_singleton (nm : String) (v : Nat × Nat) :
    consolidatePass [(nm, v)] = none := by
  obtain ⟨d⟩ := nm
  unfold consolidatePass
  cases hp : (decide ((⟨d⟩ : String).data.length > 2) && strEndsWith ⟨d⟩ "_l") with
  | false => simp [List.find?, hp]
  | true =>
    simp only [List.find?, hp]
    have hlen : d.length > 2 := by
      have := (Bool.and_eq_true _ _).mp hp
      exact of_decide_eq_true this.1
    have hend : strEndsWith ⟨d⟩ "_l" = true := ((Bool.and_eq_true _ _).mp hp).2
    unfold strEndsWith at hend
    have hdrop : d.drop (d.length - 2) = ['_', 'l'] := by
      have := eq_of_beq hend
      simpa using this
    have hlast : d[d.length - 1]? = some 'l' := by
      have h1 : (d.drop (d.length - 2))[1]? = some 'l' := by rw [hdrop]; rfl
      rw [List.getElem?_drop] at h1
      have : d.length - 2 + 1 = d.length - 1 := by omega
      rwa [this] at h1
    have hne : ((⟨d⟩ : String) == strDropRight ⟨d⟩ 1 ++ "h") = false := by
      rw [beq_eq_false_iff_ne]
      intro he
      have hdata : d = (d.take (d.length - 1)) ++ ['h'] := by
        have := congrArg String.data he
        simpa [strDropRight] using this
      have h2 : d[d.length - 1]? = some 'h' := by
        conv_lhs => rw [hdata]
        rw [List.getElem?_append_right (by simp [Nat.sub_le])]
        simp
      rw [hlast] at h2
      exact absurd (Option.some.inj h2) (by decide)
    unfold rmLookup
    simp [List.find?, hne]



lemma consolidateRegister_singleton (nm : String) (v : Nat × Nat) :
    consolidateRegister [(nm, v)] = .ok [(nm, v)] := by
  unfold consolidateRegister
  simp [consolidateRegister.go, consolidatePass_singleton]

lemma findPhysical_pmInsert_fresh {m : PMap} {k l : Nat}
    (hk : pmMem m k = false) (hv : ∀ e ∈ m, e.2 ≠ l) :
    findPhysical (pmInsert m k l) l = k := by
  unfold findPhysical
  induction m with
  | nil => simp [pmInsert]
  | cons e t ih =>
    rw [pmMem_cons] at hk
    have hk1 : e.1 ≠ k := by
      intro h
      rw [h] at hk
      simp at hk
    have hk2 : pmMem t k = false := by
      cases h2 : pmMem t k with
      | false => rfl
      | true => rw [h2] at hk; simp at hk
    unfold pmInsert
    rcases Nat.lt_trichotomy k e.1 with h1 | h1 | h1
    · rw [if_pos h1]
      simp only [List.foldl_cons, if_pos rfl]
      exact findPhysical_foldl_const (fun x hx => hv x hx) k
    · exact absurd h1.symm hk1
    · rw [if_neg (by omega), if_neg (by omega)]
      simp only [List.foldl_cons, if_neg (hv e (by simp))]
      exact ih hk2 (fun x hx => hv x (by simp [hx]))

lemma pmErase_pmInsert (m : PMap) (k v : Nat) :
    pmErase (pmInsert m k v) k = pmErase m k := by
  induction m with
  | nil => simp [pmInsert, pmErase]
  | cons e t ih =>
    unfold pmInsert
    rcases Nat.lt_trichotomy k e.1 with h1 | h1 | h1
    · rw [if_pos h1]
      unfold pmErase
      simp
    · rw [if_neg (by omega), if_pos h1]
    · rw [if_neg (by omega), if_neg (by omega)]
      unfold pmErase at ih ⊢
      by_cases he : e.1 = k
      · omega
      · simp only [List.filter_cons]
        have : (!(e.1 == k)) = true := by simp [he]
        rw [this]
        simp only [ih]

lemma bits_ext {b b' : Bits} (hlen : b.length = b'.length)
    (h : ∀ i, bitGet b i = bitGet b' i) : b = b' := by
  apply List.ext_getElem hlen
  intro i h1 h2
  have hi := h i
  unfold bitGet at hi
  rwa [List.getD_eq_getElem _ _ h1, List.getD_eq_getElem _ _ h2] at hi

lemma bits_roundtrip (b : Bits) (l n : Nat) (hlen : b.length = MAX_QUBITS)
    (hl : l ≤ n) (hn : n < MAX_QUBITS) (hb : bitGet b n = false) :
    bitReset (shiftDown (bitReset (shiftUp b l (n + 1)) l) l n) n = b := by
  unfold bitReset
  have len1 : (shiftUp b l (n + 1)).length = b.length := length_shiftUp ..
  have len2 : (bitSet (shiftUp b l (n + 1)) l false).length = b.length := by
    rw [length_bitSet, len1]
  have len3 : (shiftDown (bitSet (shiftUp b l (n + 1)) l false) l n).length = b.length := by
    rw [length_shiftDown, len2]
  apply bits_ext
  · rw [length_bitSet, len3]
  intro i
  rw [bitGet_bitSet]
  by_cases hi : i = n
  · subst hi
    rw [if_pos ⟨rfl, by rw [len3, hlen]; omega⟩, hb]
  · rw [if_neg (by intro hc; exact hi hc.1.symm)]
    rw [bitGet_shiftDown _ _ _ (by rw [len2, hlen]; omega)]
    by_cases h1 : l ≤ i ∧ i < n
    · rw [if_pos h1, bitGet_bitSet, if_neg (by omega),
        bitGet_shiftUp _ _ _ (by rw [hlen]; omega), if_pos (by omega)]
      congr 1
    · rw [if_neg h1, bitGet_bitSet]
      rw [if_neg (by rw [len1]; omega), bitGet_shiftUp _ _ _ (by rw [hlen]; omega),
        if_neg (by omega)]

lemma setNqubits_double_id {ops : List Op} {n : Nat} (a : Nat)
    (h : ∀ op ∈ ops, op.nqubits = n) :
    (ops.map (fun op => op.setNqubits a)).map (fun op => op.setNqubits n) = ops := by
  rw [List.map_map]
  induction ops with
  | nil => rfl
  | cons o t ih =>
    simp only [List.map_cons, Function.comp]
    rw [ih (fun op hm => h op (by simp [hm]))]
    have ho : o.nqubits = n := h o (by simp)
    cases o
    simp only [Op.setNqubits] at ho ⊢
    simp_all


lemma getQubitRegisterAndIndex_single {c : Circuit} {nm : String} {st cnt p : Nat}
    (hq : c.qregs = [(nm, (st, cnt))]) (hp : st ≤ p) (hlt : p < st + cnt) :
    getQubitRegisterAndIndex c p = .ok (nm, p - st) := by
  have hrange : rangeContains (nm, (st, cnt)) p = true := by
    simp [rangeContains]
    omega
  unfold getQubitRegisterAndIndex getQubitRegister
  rw [hq]
  simp [List.find?, hrange, rmLookup]

lemma physicalQubitIsAncillary_empty {c : Circuit} (hanc : c.ancregs = []) (p : Nat) :
    physicalQubitIsAncillary c p = false := by
  unfold physicalQubitIsAncillary
  rw [hanc]
  rfl

/-- C4 (counterexample): `addQubit` followed by `removeQubit` need not
restore the circuit.  Starting from registers `{a_l -> (0,1), a_h ->
(1,1)}`, `addQubit(2, 2, -1)` fuses line 2 into `a_h` and
`consolidateRegister` then merges the two blocks into a single register
`a`; the subsequent `removeQubit(2)` shrinks `a` but does not re-split
it, so the register map ends as `{a -> (0,2)}`, different from the
original. -/
theorem addQubit_removeQubit_no_roundtrip :
    addQubit c4BadCircuit 2 2 none = .ok c4MidCircuit ∧
    removeQubit c4MidCircuit 2 = .ok (c4EndCircuit, (2, none)) ∧
    c4EndCircuit ≠ c4BadCircuit := ⟨rfl, rfl, by decide⟩

/-- C4 (amended): for a circuit with a single quantum register
`[nm -> (0, nqubits)]`, no ancillae, layout keys below `nqubits`, the
logical index `l <= nqubits` fresh in `initialLayout`, operations
broadcast at `nqubits`, and well-formed tracking bitsets,
`addQubit(l, nqubits, o)` (appending physical line `nqubits`) followed
by `removeQubit(l)` restores the circuit exactly, and `removeQubit`
reports back the physical index `nqubits` and output index `o` that
were added. -/
theorem addQubit_removeQubit_roundtrip
    (c : Circuit) (nm : String) (l : Nat) (o : Option Nat)
    (hq0 : c.qregs = [(nm, (0, c.nqubits))])
    (hanc : c.ancregs = [])
    (hnanc : c.nancillae = 0)
    (hn : 0 < c.nqubits)
    (hmax : c.nqubits < MAX_QUBITS)
    (hl : l ≤ c.nqubits)
    (hkeyI : ∀ e ∈ c.initialLayout, e.1 < c.nqubits)
    (hkeyO : ∀ e ∈ c.outputPermutation, e.1 < c.nqubits)
    (hval : ∀ e ∈ c.initialLayout, e.2 ≠ l)
    (hops : ∀ op ∈ c.ops, op.nqubits = c.nqubits)
    (hlenA : c.ancillary.length = MAX_QUBITS)
    (hlenG : c.garbage.length = MAX_QUBITS)
    (hbA : bitGet c.ancillary c.nqubits = false)
    (hbG : bitGet c.garbage c.nqubits = false) :
    ∃ c1, addQubit c l c.nqubits o = .ok c1 ∧
      removeQubit c1 l = .ok (c, (c.nqubits, o)) := by
  have hmemI : pmMem c.initialLayout c.nqubits = false := by
    unfold pmMem
    rw [List.any_eq_false]
    intro e he
    simp [Nat.ne_of_lt (hkeyI e he)]
  have hmemO : pmMem c.outputPermutation c.nqubits = false := by
    unfold pmMem
    rw [List.any_eq_false]
    intro e he
    simp [Nat.ne_of_lt (hkeyO e he)]
  refine ⟨{ c with
      nqubits := c.nqubits + 1,
      qregs := [(nm, (0, c.nqubits + 1))],
      ancregs := [],
      initialLayout := pmInsert c.initialLayout c.nqubits l,
      outputPermutation := match o with
        | some oi => pmInsert c.outputPermutation c.nqubits oi
        | none => c.outputPermutation,
      ancillary := bitReset (shiftUp c.ancillary l (c.nqubits + 1)) l,
      garbage := bitReset (shiftUp c.garbage l (c.nqubits + 1)) l,
      ops := c.ops.map (fun op => op.setNqubits (c.nqubits + 1)) }, ?_, ?_⟩
  · have hfuse : addQubitFuseLoop c.qregs c.nqubits c.nqubits =
        ([(nm, (0, c.nqubits + 1))], true, true) := by
      rw [hq0]
      unfold addQubitFuseLoop
      rw [if_neg (by omega), if_pos (by omega)]
      simp
    unfold addQubit
    rw [hmemI, hmemO]
    simp only [Bool.or_self, Bool.false_eq_true, if_false,
      if_neg (by omega : ¬ c.nqubits < l)]
    rw [hfuse]
    simp only [except_bind_ok, consolidateRegister_singleton]
    rw [hanc]
    simp [hnanc]
  · have hfind : findPhysical (pmInsert c.initialLayout c.nqubits l) l = c.nqubits :=
      findPhysical_pmInsert_fresh hmemI hval
    unfold removeQubit
    simp only [hfind]
    rw [getQubitRegisterAndIndex_single rfl (Nat.zero_le _) (by omega)]
    simp only [except_bind_ok]
    rw [physicalQubitIsAncillary_empty rfl]
    simp only [Bool.false_eq_true, if_false]
    simp only [rmLookup, List.find?, beq_self_eq_true, Option.map_some']
    unfold removeFromRegs
    rw [if_neg (by omega), if_pos (by omega)]
    have e1 : pmErase (pmInsert c.initialLayout c.nqubits l) c.nqubits =
        c.initialLayout := by
      rw [pmErase_pmInsert]
      exact pmErase_eq_self (pmLookup_eq_none hmemI)
    have e2 : rmSet [(nm, (0, c.nqubits + 1))] nm (0, c.nqubits) = c.qregs := by
      rw [hq0]
      simp [rmSet]
    have e5 : (c.ops.map (fun op => op.setNqubits (c.nqubits + 1))).map
        (fun op => op.setNqubits c.nqubits) = c.ops := setNqubits_double_id _ hops
    have e3 : bitReset (shiftDown (bitReset (shiftUp c.ancillary l (c.nqubits + 1)) l) l
        c.nqubits) c.nqubits = c.ancillary := bits_roundtrip _ _ _ hlenA hl hmax hbA
    have e4 : bitReset (shiftDown (bitReset (shiftUp c.garbage l (c.nqubits + 1)) l) l
        c.nqubits) c.nqubits = c.garbage := bits_roundtrip _ _ _ hlenG hl hmax hbG
    cases o with
    | none =>
      rw [pmLookup_eq_none hmemO]
      simp only [hnanc, Nat.add_zero, Nat.add_sub_cancel, if_pos hmax]
      rw [e1, e2, e3, e4, e5, ← hnanc, ← hanc]
    | some oi =>
      rw [pmLookup_pmInsert_self hmemO oi]
      simp only [hnanc, Nat.add_zero, Nat.add_sub_cancel, if_pos hmax]
      have e6 : pmErase (pmInsert c.outputPermutation c.nqubits oi) c.nqubits =
          c.outputPermutation := by
        rw [pmErase_pmInsert]
        exact pmErase_eq_self (pmLookup_eq_none hmemO)
      rw [e1, e2, e3, e4, e5, e6, ← hnanc, ← hanc]

/-- C4 witness: the round trip at a concrete one-qubit circuit, adding
logical qubit 1 on physical line 1 with output index 5. -/
theorem addQubit_removeQubit_roundtrip_witness :
    ∃ c1, addQubit c4WitnessCircuit 1 1 (some 5) = .ok c1 ∧
      removeQubit c1 1 = .ok (c4WitnessCircuit, (1, some 5)) :=
  addQubit_removeQubit_roundtrip c4WitnessCircuit "q" 1 (some 5) rfl rfl rfl
    (by decide) (by decide) (by decide) (by decide) (by decide) (by decide)
    (by decide) rfl rfl rfl rfl


/- ----------------------------------------------------------------------
C9: skipping redeclarations of inferred controlled gates.
---------------------------------------------------------------------- -/

lemma idListLoop_stop (fuel : Nat) (acc : List String) (rest : List Tok)
    (h : rest.head? ≠ some Tok.comma) :
    IdListLoop (fuel + 1) acc rest = .ok (acc, rest) := by
  match rest with
  | [] => rfl
  | t :: r =>
    cases t <;> first
      | rfl
      | exact absurd rfl h

lemma idListLoop_complete (ns : List String) :
    ∀ (fuel : Nat) (acc : List String) (rest : List Tok),
    ns.length + 1 ≤ fuel → rest.head? ≠ some Tok.comma →
    IdListLoop fuel acc (ns.flatMap (fun m => [.comma, .identifier m]) ++ rest) =
      .ok (acc ++ ns, rest) := by
  induction ns with
  | nil =>
    intro fuel acc rest hf hr
    match fuel, hf with
    | f + 1, _ =>
      simp only [List.flatMap_nil, List.nil_append, List.append_nil]
      exact idListLoop_stop f acc rest hr
  | cons m ms ih =>
    intro fuel acc rest hf hr
    match fuel, hf with
    | f + 1, hf =>
      simp only [List.flatMap_cons, List.cons_append, List.append_assoc]
      show IdListLoop (f + 1) acc
        (.comma :: .identifier m :: (ms.flatMap (fun m => [.comma, .identifier m]) ++ rest)) = _
      rw [show IdListLoop (f + 1) acc
          (.comma :: .identifier m :: (ms.flatMap (fun m => [.comma, .identifier m]) ++ rest)) =
          IdListLoop f (acc ++ [m]) (ms.flatMap (fun m => [.comma, .identifier m]) ++ rest)
        from rfl]
      rw [ih f (acc ++ [m]) rest (by simp at hf ⊢; omega) hr]
      simp

lemma idList_complete (names : List String) (hne : names ≠ [])
    (rest : List Tok) (hr : rest.head? ≠ some Tok.comma)
    (fuel : Nat) (hf : names.length ≤ fuel) :
    IdList fuel (idListToks names ++ rest) = .ok (names, rest) := by
  match names, hne with
  | n :: ns, _ =>
    simp only [idListToks, List.cons_append]
    show IdListLoop fuel [n] (ns.flatMap (fun m => [.comma, .identifier m]) ++ rest) = _
    rw [idListLoop_complete ns fuel [n] rest (by simp at hf; omega) hr]
    simp

lemma skipGateBody_cons (fuel : Nat) (t : Tok) (ts : List Tok)
    (h : t ≠ .rbrace) :
    skipGateBody (fuel + 1) (t :: ts) = skipGateBody fuel ts := by
  cases t <;> first
    | rfl
    | exact absurd rfl h

lemma skipGateBody_complete (body : List Tok) :
    ∀ (fuel : Nat) (rest : List Tok),
    (∀ tk ∈ body, tk ≠ .rbrace) → body.length + 1 ≤ fuel →
    skipGateBody fuel (body ++ .rbrace :: rest) = .ok rest := by
  induction body with
  | nil =>
    intro fuel rest _ hf
    match fuel, hf with
    | f + 1, _ => rfl
  | cons t b ih =>
    intro fuel rest hb hf
    match fuel, hf with
    | f + 1, hf =>
      rw [List.cons_append,
        skipGateBody_cons f t (b ++ .rbrace :: rest) (hb t (by simp))]
      exact ih f rest (fun tk htk => hb tk (by simp [htk])) (by simp at hf ⊢; omega)

lemma parseDeclParams_not_lpar (fuel : Nat) (ts : List Tok)
    (h : ts.head? ≠ some Tok.lpar) :
    parseDeclParams fuel ts = .ok ([], ts) := by
  match ts with
  | [] => rfl
  | t :: r =>
    cases t <;> first
      | rfl
      | exact absurd rfl h

lemma parseDeclParams_lpar_ident (fuel : Nat) (p0 : String) (L : List Tok) :
    parseDeclParams fuel (.lpar :: .identifier p0 :: L) =
      (match IdList fuel (.identifier p0 :: L) with
       | .error e => .error e
       | .ok (ps, r2) =>
         match r2 with
         | .rpar :: r3 => .ok (ps, r3)
         | _ => .error .unexpectedToken) := rfl

lemma gateDecl_cons (table : Table) (fuel : Nat) (G : String) (X : List Tok) :
    GateDecl table fuel (.gate :: .identifier G :: X) =
      (match parseDeclParams fuel X with
       | .error e => .error e
       | .ok (pn, r1) => GateDeclAfterParams table fuel G pn r1) := rfl

lemma gateDeclAfterParams_skip
    (table : Table) (G : String) (pn formals : List String)
    (body rest : List Tok) (cg : CompoundGate) (fuel : Nat)
    (hfo : formals ≠ [])
    (hff : formals.length ≤ fuel)
    (hlk : cgLookup table (stripCs G).2 = some cg)
    (hle : cg.gates.length ≤ 1)
    (hfb : body.length + 1 ≤ fuel)
    (hbody : ∀ tk ∈ body, tk ≠ .rbrace) :
    GateDeclAfterParams table fuel G pn
      (idListToks formals ++ (.lbrace :: (body ++ .rbrace :: rest))) =
      .ok (table, rest) := by
  unfold GateDeclAfterParams
  rw [idList_complete formals hfo _ (by simp) fuel hff]
  simp only
  rw [hlk]
  simp only
  rw [if_pos hle, skipGateBody_complete body fuel rest hbody hfb]

/-- C9: a declaration `gate G(params)? formals { body }` whose name,
stripped of leading `c`s, already denotes a table entry with at most one
body gate — including a zero-gate body — is skipped: the body is
consumed through the closing brace and the table is returned unchanged,
so no entry appears under `G`. -/
theorem gateDecl_skips_known_controlled
    (table : Table) (G : String) (pt : List Tok) (formals : List String)
    (body rest : List Tok) (cg : CompoundGate) (fuel : Nat)
    (hpt : pt = [] ∨ pt = [.lpar, .rpar] ∨
      ∃ ps, ps ≠ [] ∧ pt = .lpar :: (idListToks ps ++ [.rpar]) ∧ ps.length ≤ fuel)
    (hfo : formals ≠ [])
    (hff : formals.length ≤ fuel)
    (hlk : cgLookup table (stripCs G).2 = some cg)
    (hle : cg.gates.length ≤ 1)
    (hbody : ∀ tk ∈ body, tk ≠ .rbrace)
    (hfb : body.length + 1 ≤ fuel) :
    GateDecl table fuel
      (.gate :: .identifier G ::
        (pt ++ (idListToks formals ++ (.lbrace :: (body ++ .rbrace :: rest)))))
      = .ok (table, rest) := by
  have tail := gateDeclAfterParams_skip table G
  rw [gateDecl_cons]
  rcases hpt with h | h | ⟨ps, hne, hps, hpf⟩
  · subst h
    rw [List.nil_append,
      parseDeclParams_not_lpar fuel _ (by
        match formals, hfo with
        | f0 :: fs, _ => simp [idListToks])]
    exact tail [] formals body rest cg fuel hfo hff hlk hle hfb hbody
  · subst h
    rw [show ([Tok.lpar, Tok.rpar] : List Tok) ++
        (idListToks formals ++ (.lbrace :: (body ++ .rbrace :: rest))) =
      Tok.lpar :: Tok.rpar ::
        (idListToks formals ++ (.lbrace :: (body ++ .rbrace :: rest))) from rfl]
    rw [show parseDeclParams fuel (Tok.lpar :: Tok.rpar ::
        (idListToks formals ++ (.lbrace :: (body ++ .rbrace :: rest)))) =
      .ok ([], idListToks formals ++ (.lbrace :: (body ++ .rbrace :: rest))) from rfl]
    exact tail [] formals body rest cg fuel hfo hff hlk hle hfb hbody
  · subst hps
    match ps, hne with
    | p0 :: ps', _ =>
      have h1 : ((Tok.lpar :: (idListToks (p0 :: ps') ++ [Tok.rpar])) ++
          (idListToks formals ++ (.lbrace :: (body ++ .rbrace :: rest)))) =
          Tok.lpar :: Tok.identifier p0 ::
            (ps'.flatMap (fun m => [Tok.comma, Tok.identifier m]) ++
              (Tok.rpar :: (idListToks formals ++ (.lbrace :: (body ++ .rbrace :: rest))))) := by
        simp [idListToks]
      rw [h1, parseDeclParams_lpar_ident]
      have h2 : IdList fuel (Tok.identifier p0 ::
          (ps'.flatMap (fun m => [Tok.comma, Tok.identifier m]) ++
            (Tok.rpar :: (idListToks formals ++ (.lbrace :: (body ++ .rbrace :: rest)))))) =
          .ok (p0 :: ps',
            Tok.rpar :: (idListToks formals ++ (.lbrace :: (body ++ .rbrace :: rest)))) := by
        have := idList_complete (p0 :: ps') (by simp)
          (Tok.rpar :: (idListToks formals ++ (.lbrace :: (body ++ .rbrace :: rest))))
          (by simp) fuel (by simpa using hpf)
        simpa [idListToks] using this
      rw [h2]
      exact tail (p0 :: ps') formals body rest cg fuel hfo hff hlk hle hfb hbody

/-- C9 witness: `gate cu3 a, b { foo }` against the builtin table, whose
`u3` entry has a one-gate body; the declaration is skipped and the table
survives unchanged. -/
theorem gateDecl_skips_known_controlled_witness :
    GateDecl qasmBaseTable 8
      (.gate :: .identifier "cu3" ::
        (([] : List Tok) ++
          (idListToks ["a", "b"] ++
            (.lbrace :: ([.identifier "foo"] ++ .rbrace :: ([] : List Tok)))))) =
      .ok (qasmBaseTable, []) :=
  gateDecl_skips_known_controlled qasmBaseTable "cu3" [] ["a", "b"]
    [.identifier "foo"] [] u3Entry 8 (Or.inl rfl) (by decide) (by decide)
    (by decide) (by decide) (by decide) (by decide)

/- ----------------------------------------------------------------------
C2: controlled-gate inference in Parser::Gate.
---------------------------------------------------------------------- -/

lemma buildArgMapIndexed_ok (args : List (Nat × Nat)) :
    ∀ (m0 : ArgMap) (size0 i0 : Nat) (res : ArgMap × Nat),
    (∀ e ∈ m0, ∀ j, i0 ≤ j → e.1 ≠ .indexed j) →
    buildArgMapIndexed m0 size0 i0 args = .ok res →
    res.1 = m0 ++ idxEntries i0 args := by
  induction args with
  | nil =>
    intro m0 size0 i0 res _ hok
    cases hok
    simp [idxEntries]
  | cons a rest ih =>
    intro m0 size0 i0 res hfresh hok
    unfold buildArgMapIndexed at hok
    have hany : (m0.any (fun e => e.1 == ArgKey.indexed i0)) = false := by
      rw [List.any_eq_false]
      intro e he
      simpa using hfresh e he i0 (le_refl _)
    rw [show amSet m0 (.indexed i0) a = m0 ++ [(.indexed i0, a)] from by
      unfold amSet; rw [hany]; simp] at hok
    by_cases hc : 1 < a.2 ∧ size0 ≠ 1 ∧ a.2 ≠ size0
    · rw [if_pos hc] at hok
      cases hok
    · rw [if_neg hc] at hok
      have := ih (m0 ++ [(.indexed i0, a)]) (if 1 < a.2 then a.2 else size0)
        (i0 + 1) res ?_ hok
      · rw [this, List.append_assoc]
        simp [idxEntries]
      · intro e he j hj
        rcases List.mem_append.mp he with h | h
        · exact hfresh e h j (by omega)
        · simp only [List.mem_singleton] at h
          rw [h]
          intro hcon
          injection hcon with h2
          omega

lemma amAt_idxEntries (args : List (Nat × Nat)) :
    ∀ (i0 j : Nat), j < args.length →
    amAt (idxEntries i0 args) (.indexed (i0 + j)) = .ok (args.getD j (0, 0)) := by
  induction args with
  | nil => intro i0 j hj; simp at hj
  | cons a rest ih =>
    intro i0 j hj
    cases j with
    | zero =>
      unfold idxEntries amAt
      simp [List.find?]
    | succ j =>
      unfold idxEntries amAt
      have hne : (ArgKey.indexed i0 == ArgKey.indexed (i0 + (j + 1))) = false := by
        rw [beq_eq_false_iff_ne]
        intro hcon
        injection hcon with h2
        omega
      rw [List.find?]
      simp only [hne]
      have := ih (i0 + 1) j (by simpa using hj)
      unfold amAt at this
      rw [show i0 + 1 + j = i0 + (j + 1) from by omega] at this
      simpa using this

lemma controlsFromKeys_range' (m : ArgMap) (args : List (Nat × Nat))
    (hm : ∀ j, j < args.length → amAt m (.indexed j) = .ok (args.getD j (0, 0))) :
    ∀ (k i0 : Nat), i0 + k ≤ args.length →
    controlsFromKeys m ((List.range' i0 k).map ArgKey.indexed) =
      .ok ((List.range' i0 k).map (fun j => { qubit := (args.getD j (0, 0)).1 })) := by
  intro k
  induction k with
  | zero => intro i0 _; rfl
  | succ k ih =>
    intro i0 h
    rw [List.range'_succ]
    simp only [List.map_cons]
    unfold controlsFromKeys
    rw [hm i0 (by omega), ih (i0 + 1) (by omega)]

lemma controlsFromKeys_indexed (m : ArgMap) (args : List (Nat × Nat))
    (hm : ∀ j, j < args.length → amAt m (.indexed j) = .ok (args.getD j (0, 0)))
    (k : Nat) (hk : k ≤ args.length) :
    controlsFromKeys m (indexedKeys k) =
      .ok ((List.range k).map (fun j => { qubit := (args.getD j (0, 0)).1 })) := by
  unfold indexedKeys
  rw [List.range_eq_range']
  exact controlsFromKeys_range' m args hm k 0 (by omega)

lemma map_range_getD (args : List (Nat × Nat)) (C : (Nat × Nat) → Control) :
    ∀ (k : Nat), k ≤ args.length →
    (List.range k).map (fun j => C (args.getD j (0, 0))) = (args.take k).map C := by
  intro k
  induction k with
  | zero => intro _; simp
  | succ k ih =>
    intro hk
    have hk2 : k < args.length := by omega
    rw [List.range_succ, List.map_append, ih (by omega), List.take_succ,
      List.getElem?_eq_getElem hk2]
    simp [List.getD, List.getElem?_eq_getElem hk2]
    rw [List.take_succ, List.getElem?_map, List.getElem?_eq_getElem hk2]
    simp

lemma gateApplyCore_undefined (nq : Nat) (table : Table) (g : String)
    (params : List PExpr) (args : List (Nat × Nat))
    (hg : cgLookup table g = none)
    (hcg : cgLookup table (stripCs g).2 = none) :
    gateApplyCore nq table g params args = .error .undefinedGate := by
  unfold gateApplyCore
  rw [hg, hcg]

lemma gateApplyCore_inferred_ok (nq : Nat) (table : Table) (g : String)
    (params : List PExpr) (args : List (Nat × Nat)) (res : ParsedOp)
    (cg : CompoundGate)
    (hg : cgLookup table g = none)
    (hcg : cgLookup table (stripCs g).2 = some cg)
    (hok : gateApplyCore nq table g params args = .ok res) :
    cg.gates.length = 1 ∧
    args.length = (stripCs g).1 + cg.argumentNames.length ∧
    ∃ op, res = .std op ∧
      op.controls = (args.take (stripCs g).1).map (fun a => { qubit := a.1 }) := by
  unfold gateApplyCore at hok
  rw [hg, hcg] at hok
  simp only at hok
  by_cases h1 : 1 < cg.gates.length
  · rw [if_pos h1] at hok
    cases hok
  rw [if_neg h1] at hok
  by_cases h2 : args.length ≠ (stripCs g).1 + cg.argumentNames.length
  · rw [if_pos h2] at hok
    cases hok
  rw [if_neg h2] at hok
  push_neg at h2
  cases hbm : buildArgMapIndexed [] 1 0 args with
  | error e => rw [hbm] at hok; cases hok
  | ok ms =>
    rw [hbm] at hok
    obtain ⟨argMap, size⟩ := ms
    cases hbp : bindParams [] cg.parameterNames params with
    | error e => rw [hbp] at hok; cases hok
    | ok paramMap =>
      rw [hbp] at hok
      simp only at hok
      unfold gateEmit at hok
      by_cases h3 : 0 < (stripCs g).1 ∧ size = 1
      · rw [if_pos h3] at hok
        simp only at hok
        by_cases h4 : cg.gates.length = 1
        · rw [if_pos h4] at hok
          have hargm : argMap = idxEntries 0 args := by
            have := buildArgMapIndexed_ok args [] 1 0 (argMap, size)
              (by intro e he; simp at he) hbm
            simpa using this
          have hat : ∀ j, j < args.length →
              amAt argMap (.indexed j) = .ok (args.getD j (0, 0)) := by
            intro j hj
            rw [hargm]
            have := amAt_idxEntries args 0 j hj
            simpa using this
          have hc := controlsFromKeys_indexed argMap args hat (stripCs g).1
            (by omega)
          rw [hc] at hok
          simp only at hok
          refine ⟨h4, h2, ?_⟩
          by_cases h5 : ((stripCs g).2 == "x") = true ∧ 1 < (stripCs g).1
          · rw [if_pos h5] at hok
            cases hat2 : amAt argMap (.indexed (stripCs g).1) with
            | error e => rw [hat2] at hok; cases hok
            | ok tp =>
              rw [hat2] at hok
              cases hok
              refine ⟨_, rfl, ?_⟩
              simp only
              exact map_range_getD args (fun a => { qubit := a.1 }) _ (by omega)
          · rw [if_neg h5] at hok
            cases hbp2 : bindParams paramMap cg.parameterNames params with
            | error e => rw [hbp2] at hok; cases hok
            | ok pm2 =>
              rw [hbp2] at hok
              cases hh : cg.gates.head? with
              | none => rw [hh] at hok; cases hok
              | some bg =>
                rw [hh] at hok
                simp only at hok
                cases bg with
                | u theta phi lambda target =>
                  simp only at hok
                  cases hr1 : RewriteExpr pm2 theta with
                  | error e => rw [hr1] at hok; cases hok
                  | ok th =>
                    rw [hr1] at hok
                    cases hr2 : RewriteExpr pm2 phi with
                    | error e => rw [hr2] at hok; cases hok
                    | ok ph =>
                      rw [hr2] at hok
                      cases hr3 : RewriteExpr pm2 lambda with
                      | error e => rw [hr3] at hok; cases hok
                      | ok lam =>
                        rw [hr3] at hok
                        cases hat2 : amAt argMap (.indexed (stripCs g).1) with
                        | error e => rw [hat2] at hok; cases hok
                        | ok tp =>
                          rw [hat2] at hok
                          cases hok
                          refine ⟨_, rfl, ?_⟩
                          simp only [mkU3]
                          exact map_range_getD args (fun a => { qubit := a.1 }) _ (by omega)
                | cx c t => simp at hok
                | cu a b c d e => simp at hok
                | mcx c t => simp at hok
        · rw [if_neg h4] at hok
          unfold gateEmitTail at hok
          cases hok
      · rw [if_neg h3] at hok
        cases hok

/-- C2 (counterexample): a gate application whose identifier is not in
the table can succeed without its base name being in the table.  With an
EMPTY table, `cswap q[0],q[1],q[2];` strips to the base name `swap` and
takes the controlled-swap special path, emitting a Standard SWAP with
one control — it does not fail as an undefined gate. -/
theorem gate_cswap_bypasses_table :
    cgLookup ([] : Table) "cswap" = none ∧
    (stripCs "cswap").2 = "swap" ∧
    cgLookup ([] : Table) "swap" = none ∧
    Gate 3 exampleQregs [] 32 cswapAppToks = .ok (.std cswapOp, []) ∧
    cswapOp.optype = .SWAP ∧ cswapOp.controls = [{ qubit := 0 }] :=
  ⟨rfl, rfl, rfl, rfl, rfl, rfl⟩

/-- C2 (amended): for an applied identifier `G` not in the gate table
with base name `G'` (`G` minus `ncontrols` leading `c`s) other than
`swap`: when `G'` is also absent the application fails as an undefined
gate; when `G'` is present, any successful application forces `G'` to
have a one-gate body, the argument count to equal `ncontrols` plus the
formals of `G'`, and the result to be a single Standard operation whose
controls are exactly the first `ncontrols` arguments.  On the
controlled-gate-inference example the two applications produce Standard
U3 operations with control counts 1 and 2. -/
theorem gate_controlled_inference :
    (∀ (nq : Nat) (table : Table) (g : String) (params : List PExpr)
        (args : List (Nat × Nat)),
      cgLookup table g = none → cgLookup table (stripCs g).2 = none →
      gateApplyCore nq table g params args = .error .undefinedGate) ∧
    (∀ (nq : Nat) (table : Table) (g : String) (params : List PExpr)
        (args : List (Nat × Nat)) (res : ParsedOp) (cg : CompoundGate),
      cgLookup table g = none → cgLookup table (stripCs g).2 = some cg →
      gateApplyCore nq table g params args = .ok res →
      cg.gates.length = 1 ∧
      args.length = (stripCs g).1 + cg.argumentNames.length ∧
      ∃ op, res = .std op ∧
        op.controls = (args.take (stripCs g).1).map (fun a => { qubit := a.1 })) ∧
    GateDecl qasmBaseTable 32 mygateDeclToks = .ok (mygateTable, []) ∧
    Gate 3 exampleQregs mygateTable 32 cmygateAppToks = .ok (.std cmygateOp, []) ∧
    cmygateOp.controls.length = 1 ∧ cmygateOp.optype = .U3 ∧
    Gate 3 exampleQregs mygateTable 32 ccmygateAppToks = .ok (.std ccmygateOp, []) ∧
    ccmygateOp.controls.length = 2 ∧ ccmygateOp.optype = .U3 :=
  ⟨gateApplyCore_undefined, gateApplyCore_inferred_ok, rfl, rfl, rfl, rfl, rfl, rfl, rfl⟩

/-- C2 witness: the undefined-gate conjunct applied at an empty table. -/
theorem gate_controlled_inference_witness :
    gateApplyCore 1 [] "zz" [] [] = .error .undefinedGate :=
  gate_controlled_inference.1 1 [] "zz" [] [] rfl rfl

end QFR

